import Mathlib

/-! Verification development for the brieflyAI transcript pipeline
(src/app.py of the repository).

The Python functions are shallowly embedded over lists of characters.
The regular expressions of the source are hand compiled into executable
matchers that mirror the backtracking behaviour of the Python re module
on the concrete patterns involved (this was cross checked position by
position against the pattern semantics).  Character classes follow the
ASCII fragment of the Python semantics, which covers the transcripts and
model outputs the application handles; str.splitlines is modelled on the
newline, carriage return, vertical tab and form feed separators, and the
JSON value model covers null, booleans, integers, strings, arrays and
objects, the value space of the output schema of the application.
-/

namespace BrieflyAI

/-- Whitespace characters of the embedding: the ASCII fragment of the
Python whitespace class used by str.strip and by the regex class \s. -/
def isPyWs (c : Char) : Bool :=
  c = ' ' || c = '\t' || c = '\n' || c = '\r' || c = '\x0b' || c = '\x0c'

/-- Word characters of the regex word boundary \b (ASCII fragment). -/
def isWordC (c : Char) : Bool :=
  c.isAlphanum || c = '_'

/-- Line separators recognised by the model of str.splitlines. -/
def isLineBreak (c : Char) : Bool :=
  c = '\n' || c = '\r' || c = '\x0b' || c = '\x0c'

/-- Model of str.strip: drop whitespace from both ends. -/
def stripL (l : List Char) : List Char :=
  ((l.dropWhile isPyWs).reverse.dropWhile isPyWs).reverse

/-- Worker for the model of str.splitlines; the accumulator holds the
current line reversed. -/
def splitlinesGo : List Char → List Char → List (List Char)
  | [], [] => []
  | [], acc => [acc.reverse]
  | '\r' :: '\n' :: rest, acc => acc.reverse :: splitlinesGo rest []
  | c :: rest, acc =>
      if isLineBreak c then acc.reverse :: splitlinesGo rest []
      else splitlinesGo rest (c :: acc)

/-- Model of str.splitlines restricted to the separators of
isLineBreak, with the carriage return and newline pair counted once. -/
def splitlinesL (l : List Char) : List (List Char) :=
  splitlinesGo l []

/-- Worker for the whitespace collapse: the flag records whether the
scan is inside a whitespace run whose single replacement space has
already been emitted. -/
def collapseGo : Bool → List Char → List Char
  | _, [] => []
  | inRun, c :: rest =>
      if isPyWs c then
        if inRun then collapseGo true rest
        else
          match rest with
          | d :: _ => if isPyWs d then ' ' :: collapseGo true rest else c :: collapseGo false rest
          | [] => [c]
      else c :: collapseGo false rest

/-- Model of re.sub collapsing every whitespace run of length at least
two into a single space, as in the final cleanup of parse_vtt. -/
def collapseWs (l : List Char) : List Char :=
  collapseGo false l

/-- Model of str.isdigit (ASCII digits, nonempty). -/
def isdigitL (l : List Char) : Bool :=
  !l.isEmpty && l.all Char.isDigit

/-- Model of str.lower on the ASCII fragment. -/
def lowerL (l : List Char) : List Char :=
  l.map Char.toLower

/-- Model of str.upper on the ASCII fragment. -/
def upperL (l : List Char) : List Char :=
  l.map Char.toUpper

/-- Caption header prefixes dropped by parse_vtt (already lower case). -/
def headerTokens : List (List Char) :=
  ["webvtt".data, "kind:".data, "language:".data]

/-- Check of line.lower().startswith(("webvtt", "kind:", "language:")). -/
def isHeaderLine (l : List Char) : Bool :=
  headerTokens.any (fun t => t.isPrefixOf (lowerL l))

/-- Consume exactly n ASCII digits. -/
def eatDigitsN : Nat → List Char → Option (List Char)
  | 0, l => some l
  | n + 1, c :: rest => if c.isDigit then eatDigitsN n rest else none
  | _ + 1, [] => none

/-- Consume one fixed character. -/
def eatLit (c : Char) : List Char → Option (List Char)
  | d :: rest => if d = c then some rest else none
  | [] => none

/-- Consume a cue timestamp of the fixed shape of the VTT_TS_LINE
pattern: two digits, colon, two digits, colon, two digits, dot, three
digits. -/
def eatTimestamp (l : List Char) : Option (List Char) :=
  ((((((eatDigitsN 2 l).bind (eatLit ':')).bind (eatDigitsN 2)).bind
    (eatLit ':')).bind (eatDigitsN 2)).bind (eatLit '.')).bind (eatDigitsN 3)

/-- Model of VTT_TS_LINE.match: the timing range pattern anchored at the
start of the line (re.match), trailing characters unconstrained. -/
def vttTsLineMatch (l : List Char) : Bool :=
  match eatTimestamp l with
  | none => false
  | some r1 =>
    match r1.dropWhile isPyWs with
    | '-' :: '-' :: '>' :: r3 =>
      match eatTimestamp (r3.dropWhile isPyWs) with
      | some _ => true
      | none => false
    | _ => false

/-- End of match word boundary test of the inline timecode pattern: the
next character must be absent or not a word character. -/
def endsOkB : List Char → Bool
  | [] => true
  | c :: _ => !isWordC c

/-- Fraction alternative of length three of the inline timecode pattern. -/
def frac3 (r : List Char) (len : Nat) : Option Nat :=
  match r with
  | '.' :: a :: b :: c :: rest =>
      if a.isDigit && b.isDigit && c.isDigit && endsOkB rest then some (len + 4) else none
  | _ => none

/-- Fraction alternative of length two of the inline timecode pattern. -/
def frac2 (r : List Char) (len : Nat) : Option Nat :=
  match r with
  | '.' :: a :: b :: rest =>
      if a.isDigit && b.isDigit && endsOkB rest then some (len + 3) else none
  | _ => none

/-- Fraction alternative of length one of the inline timecode pattern. -/
def frac1 (r : List Char) (len : Nat) : Option Nat :=
  match r with
  | '.' :: a :: rest =>
      if a.isDigit && endsOkB rest then some (len + 2) else none
  | _ => none

/-- Alternative with no fraction of the inline timecode pattern. -/
def frac0 (r : List Char) (len : Nat) : Option Nat :=
  if endsOkB r then some len else none

/-- Greedy fraction suffix of the inline timecode pattern, alternatives
in the backtracking order of the re module. -/
def tryFrac (r : List Char) (len : Nat) : Option Nat :=
  frac3 r len <|> frac2 r len <|> frac1 r len <|> frac0 r len

/-- Optional seconds group of the inline timecode pattern followed by
the fraction, alternatives in the backtracking order of the re module. -/
def tryGroups (r : List Char) (len : Nat) : Option Nat :=
  (match r with
   | ':' :: c :: d :: rest =>
       if c.isDigit && d.isDigit then tryFrac rest (len + 3) else none
   | _ => none) <|> tryFrac r len

/-- Inline timecode match attempt taking two leading digits. -/
def try2 (l : List Char) : Option Nat :=
  match l with
  | a :: b :: ':' :: c :: d :: rest =>
      if a.isDigit && b.isDigit && c.isDigit && d.isDigit then tryGroups rest 5 else none
  | _ => none

/-- Inline timecode match attempt taking one leading digit. -/
def try1 (l : List Char) : Option Nat :=
  match l with
  | a :: ':' :: c :: d :: rest =>
      if a.isDigit && c.isDigit && d.isDigit then tryGroups rest 4 else none
  | _ => none

/-- Match attempt of the VTT_INLINE_TS pattern at the current position,
returning the length of the match; the word boundary before the match is
checked by the caller. -/
def inlineAt (l : List Char) : Option Nat :=
  try2 l <|> try1 l

/-- Model of VTT_INLINE_TS.sub replacing every match by one space.  The
scan keeps track of whether the previous character of the original text
is a word character, which decides the word boundary at the current
position; the first argument counts characters of a replaced match still
to be consumed, and after a replacement the previous character is the
final digit of the match, a word character. -/
def inlineSubGo : Nat → Bool → List Char → List Char
  | _, _, [] => []
  | skip + 1, _, _ :: rest => inlineSubGo skip true rest
  | 0, prevWord, c :: rest =>
      if prevWord then c :: inlineSubGo 0 (isWordC c) rest
      else
        match inlineAt (c :: rest) with
        | some n => ' ' :: inlineSubGo (n - 1) true rest
        | none => c :: inlineSubGo 0 (isWordC c) rest

/-- Model of VTT_INLINE_TS.sub on a whole line. -/
def inlineSub (l : List Char) : List Char :=
  inlineSubGo 0 false l

/-- Per line step of parse_vtt: drop timing range lines, replace inline
timecodes, strip, then drop empty lines, cue indices and caption header
lines; the surviving cleaned line is returned. -/
def keepLine (line : List Char) : Option (List Char) :=
  if vttTsLineMatch line then none
  else
    let l2 := stripL (inlineSub line)
    if l2.isEmpty then none
    else if isdigitL l2 then none
    else if isHeaderLine l2 then none
    else some l2

/-- Lines surviving the per line step of parse_vtt, in order. -/
def keptLines (lines : List (List Char)) : List (List Char) :=
  lines.filterMap keepLine

/-- Join with single spaces, as in the string join of parse_vtt. -/
def joinSpace : List (List Char) → List Char
  | [] => []
  | [l] => l
  | l :: rest => l ++ ' ' :: joinSpace rest

/-- Embedding of parse_vtt from src/app.py on character lists. -/
def parseVttL (l : List Char) : List Char :=
  stripL (collapseWs (joinSpace (keptLines (splitlinesL l))))

/-- Embedding of parse_vtt from src/app.py. -/
def parse_vtt (s : String) : String :=
  ⟨parseVttL s.data⟩

example : parse_vtt "WEBVTT\n1\nhello" = "hello" := by decide
example : parse_vtt "intro 0:12 outro" = "intro outro" := by decide
example : parse_vtt "00:00:01.000 --> 00:00:04.000" = "" := by decide
example : parse_vtt "a\n00:00:01.000 --> 00:00:04.000\nb 01:02:03 c" = "a b c" := by decide

/-- Month alternative 0[1-9] or 1[0-2] of the ISO_DATE_RE pattern. -/
def isoMonthOk (m1 m2 : Char) : Bool :=
  (m1 = '0' && m2.isDigit && m2 ≠ '0') || (m1 = '1' && (m2 = '0' || m2 = '1' || m2 = '2'))

/-- Day alternative 0[1-9], [12] digit, or 3[01] of the ISO_DATE_RE
pattern. -/
def isoDayOk (d1 d2 : Char) : Bool :=
  (d1 = '0' && d2.isDigit && d2 ≠ '0') || ((d1 = '1' || d1 = '2') && d2.isDigit)
    || (d1 = '3' && (d2 = '0' || d2 = '1'))

/-- Match attempt of the ISO_DATE_RE pattern at the current position,
returning the ten matched characters; the word boundary before the match
is checked by the caller, the one after the match here. -/
def isoAt (l : List Char) : Option (List Char) :=
  match l with
  | '2' :: '0' :: y3 :: y4 :: '-' :: m1 :: m2 :: '-' :: d1 :: d2 :: rest =>
      if y3.isDigit && y4.isDigit && isoMonthOk m1 m2 && isoDayOk d1 d2 && endsOkB rest then
        some ['2', '0', y3, y4, '-', m1, m2, '-', d1, d2]
      else none
  | _ => none

/-- Model of ISO_DATE_RE.search: leftmost match of the pattern, scanning
with the word character status of the previous character for the word
boundary at the start of the match. -/
def isoSearchGo (prevWord : Bool) (l : List Char) : Option (List Char) :=
  match l with
  | [] => none
  | c :: rest =>
      if prevWord then isoSearchGo (isWordC c) rest
      else
        match isoAt (c :: rest) with
        | some m => some m
        | none => isoSearchGo (isWordC c) rest

/-- Leftmost match of ISO_DATE_RE in a string. -/
def isoSearch (l : List Char) : Option (List Char) :=
  isoSearchGo false l

/-- Calendar date as handled by datetime.date. -/
structure PyDate where
  year : Nat
  month : Nat
  day : Nat
deriving DecidableEq, Repr

/-- Gregorian leap year rule, as in the datetime module. -/
def isLeapYear (y : Nat) : Bool :=
  y % 4 = 0 && (y % 100 ≠ 0 || y % 400 = 0)

/-- Days of the given month, as in the datetime module. -/
def daysInMonth (y m : Nat) : Nat :=
  if m = 2 then (if isLeapYear y then 29 else 28)
  else if m = 4 || m = 6 || m = 9 || m = 11 then 30
  else 31

/-- Date comparison of the datetime module (lexicographic). -/
def dateLe (a b : PyDate) : Bool :=
  Nat.blt a.year b.year
    || (a.year == b.year
        && (Nat.blt a.month b.month || (a.month == b.month && Nat.ble a.day b.day)))

/-- Numeric value of an ASCII digit. -/
def digitVal (c : Char) : Nat :=
  c.toNat - 48

/-- Model of datetime.strptime with the format %Y-%m-%d applied to a
ten character match of ISO_DATE_RE: the shape is already guaranteed by
the pattern, so the parse fails exactly when the day does not exist in
the given month. -/
def parseIsoDate (l : List Char) : Option PyDate :=
  match l with
  | [y1, y2, y3, y4, _, m1, m2, _, d1, d2] =>
      let y := 1000 * digitVal y1 + 100 * digitVal y2 + 10 * digitVal y3 + digitVal y4
      let m := 10 * digitVal m1 + digitVal m2
      let d := 10 * digitVal d1 + digitVal d2
      if 1 ≤ m ∧ m ≤ 12 ∧ 1 ≤ d ∧ d ≤ daysInMonth y m then some ⟨y, m, d⟩ else none
  | _ => none

/-- Two digit zero padded decimal, as used by date.isoformat. -/
def pad2 (n : Nat) : List Char :=
  [Char.ofNat (48 + n / 10 % 10), Char.ofNat (48 + n % 10)]

/-- Four digit zero padded decimal, as used by date.isoformat. -/
def pad4 (n : Nat) : List Char :=
  [Char.ofNat (48 + n / 1000 % 10), Char.ofNat (48 + n / 100 % 10),
   Char.ofNat (48 + n / 10 % 10), Char.ofNat (48 + n % 10)]

/-- Model of date.isoformat. -/
def formatIso (d : PyDate) : List Char :=
  pad4 d.year ++ '-' :: pad2 d.month ++ '-' :: pad2 d.day

/-- Embedding of only_future_iso_or_none from src/app.py on character
lists; the current date of the system clock is an explicit parameter. -/
def onlyFutureIsoL (today : PyDate) (l : List Char) : List Char :=
  if l.isEmpty then "None".data
  else
    match isoSearch l with
    | none => "None".data
    | some m =>
      match parseIsoDate m with
      | none => "None".data
      | some d => if dateLe today d then formatIso d else "None".data

/-- Embedding of only_future_iso_or_none from src/app.py. -/
def only_future_iso_or_none (today : PyDate) (s : String) : String :=
  ⟨onlyFutureIsoL today s.data⟩

example : only_future_iso_or_none ⟨2024, 6, 15⟩ "2024-06-15" = "2024-06-15" := by decide
example : only_future_iso_or_none ⟨2024, 6, 15⟩ "2024-06-14" = "None" := by decide
example : only_future_iso_or_none ⟨2024, 6, 15⟩ "2024-13-01" = "None" := by decide
example : only_future_iso_or_none ⟨2024, 6, 15⟩ "" = "None" := by decide
example : only_future_iso_or_none ⟨2024, 6, 15⟩ "meeting on 2024-06-20 at 0:12" = "2024-06-20" := by decide
example : only_future_iso_or_none ⟨2024, 6, 15⟩ "x2024-12-31" = "None" := by decide
example : only_future_iso_or_none ⟨2024, 6, 15⟩ "2024-06-31 then 2024-07-01" = "None" := by decide
example : only_future_iso_or_none ⟨2024, 6, 15⟩ "2023-02-29" = "None" := by decide

/-- Python values of the JSON value space: null, booleans, integers,
strings, arrays and objects (association lists in insertion order). -/
inductive PyVal where
  | none : PyVal
  | bool : Bool → PyVal
  | int : Int → PyVal
  | str : List Char → PyVal
  | list : List PyVal → PyVal
  | dict : List (List Char × PyVal) → PyVal
deriving Repr

/-- Exceptions raised by the embedded dynamic operations. -/
inductive PyErr where
  | attributeError
  | typeError
deriving DecidableEq, Repr

/-- Python truthiness on the embedded values. -/
def pyFalsy : PyVal → Bool
  | .none => true
  | .bool b => !b
  | .int n => n == 0
  | .str s => s.isEmpty
  | .list xs => xs.isEmpty
  | .dict kvs => kvs.isEmpty

/-- Whitespace skipped between JSON tokens (the json module uses space,
tab, newline and carriage return). -/
def jsonWsSkip (l : List Char) : List Char :=
  l.dropWhile (fun c => c = ' ' || c = '\t' || c = '\n' || c = '\r')

/-- Insertion into an object keeping the position of an existing key, as
a Python dict does. -/
def dictInsert (kvs : List (List Char × PyVal)) (k : List Char) (v : PyVal) :
    List (List Char × PyVal) :=
  if kvs.any (fun p => p.1 == k) then
    kvs.map (fun p => if p.1 == k then (k, v) else p)
  else kvs ++ [(k, v)]

/-- String body parser of the JSON model: consumes characters after the
opening quote up to the closing quote, handling the single character
escapes; unicode escapes and unescaped control characters are rejected
(the former is a documented restriction of the model, the latter matches
the strict mode of json.loads). -/
def parseJsonStrGo : List Char → List Char → Option (List Char × List Char)
  | acc, '"' :: rest => some (acc.reverse, rest)
  | acc, '\\' :: e :: rest =>
      if e = '"' then parseJsonStrGo ('"' :: acc) rest
      else if e = '\\' then parseJsonStrGo ('\\' :: acc) rest
      else if e = '/' then parseJsonStrGo ('/' :: acc) rest
      else if e = 'b' then parseJsonStrGo ('\x08' :: acc) rest
      else if e = 'f' then parseJsonStrGo ('\x0c' :: acc) rest
      else if e = 'n' then parseJsonStrGo ('\n' :: acc) rest
      else if e = 'r' then parseJsonStrGo ('\r' :: acc) rest
      else if e = 't' then parseJsonStrGo ('\t' :: acc) rest
      else Option.none
  | acc, c :: rest =>
      if c.toNat < 32 then Option.none else parseJsonStrGo (c :: acc) rest
  | _, [] => Option.none

/-- Digit run parser for JSON integers. -/
def parseDigits (acc : Nat) : List Char → Nat × List Char
  | c :: rest => if c.isDigit then parseDigits (acc * 10 + digitVal c) rest else (acc, c :: rest)
  | [] => (acc, [])

/-- Integer parser of the JSON model.  Python json also accepts
fractional and exponent suffixes as floats; the model rejects those, a
documented restriction (no theorem below depends on float literals). -/
def parseJsonInt (l : List Char) : Option (Int × List Char) :=
  match l with
  | '-' :: c :: rest =>
      if c = '0' then some (0, rest)
      else if c.isDigit then
        match parseDigits (digitVal c) rest with
        | (n, r) => some (-(Int.ofNat n), r)
      else Option.none
  | c :: rest =>
      if c = '0' then some (0, rest)
      else if c.isDigit then
        match parseDigits (digitVal c) rest with
        | (n, r) => some (Int.ofNat n, r)
      else Option.none
  | [] => Option.none

mutual

/-- Value parser of the JSON model, fuel indexed. -/
def parseJsonVal : Nat → List Char → Option (PyVal × List Char)
  | 0, _ => Option.none
  | fuel + 1, l =>
    match jsonWsSkip l with
    | 'n' :: 'u' :: 'l' :: 'l' :: rest => some (PyVal.none, rest)
    | 't' :: 'r' :: 'u' :: 'e' :: rest => some (PyVal.bool true, rest)
    | 'f' :: 'a' :: 'l' :: 's' :: 'e' :: rest => some (PyVal.bool false, rest)
    | '"' :: rest =>
        match parseJsonStrGo [] rest with
        | some (s, r) => some (PyVal.str s, r)
        | Option.none => Option.none
    | '\x5b' :: rest =>
        (match jsonWsSkip rest with
         | '\x5d' :: r => some (PyVal.list [], r)
         | _ => parseJsonItems fuel [] rest)
    | '\x7b' :: rest =>
        (match jsonWsSkip rest with
         | '\x7d' :: r => some (PyVal.dict [], r)
         | _ => parseJsonMembers fuel [] rest)
    | l2 =>
        match parseJsonInt l2 with
        | some (n, r) =>
            (match r with
             | '.' :: _ => Option.none
             | 'e' :: _ => Option.none
             | 'E' :: _ => Option.none
             | _ => some (PyVal.int n, r))
        | Option.none => Option.none

/-- Array element list parser of the JSON model. -/
def parseJsonItems : Nat → List PyVal → List Char → Option (PyVal × List Char)
  | 0, _, _ => Option.none
  | fuel + 1, acc, l =>
    match parseJsonVal fuel l with
    | some (v, r) =>
        (match jsonWsSkip r with
         | ',' :: r2 => parseJsonItems fuel (v :: acc) r2
         | '\x5d' :: r2 => some (PyVal.list (v :: acc).reverse, r2)
         | _ => Option.none)
    | Option.none => Option.none

/-- Object member list parser of the JSON model. -/
def parseJsonMembers : Nat → List (List Char × PyVal) → List Char →
    Option (PyVal × List Char)
  | 0, _, _ => Option.none
  | fuel + 1, acc, l =>
    match jsonWsSkip l with
    | '"' :: rest =>
        (match parseJsonStrGo [] rest with
         | some (k, r) =>
             (match jsonWsSkip r with
              | ':' :: r2 =>
                  (match parseJsonVal fuel r2 with
                   | some (v, r3) =>
                       (match jsonWsSkip r3 with
                        | ',' :: r4 => parseJsonMembers fuel (dictInsert acc k v) r4
                        | '\x7d' :: r4 => some (PyVal.dict (dictInsert acc k v), r4)
                        | _ => Option.none)
                   | Option.none => Option.none)
              | _ => Option.none)
         | Option.none => Option.none)
    | _ => Option.none

end

/-- Model of json.loads: parse one value and require only whitespace
after it. -/
def loads (l : List Char) : Option PyVal :=
  match parseJsonVal (l.length + 1) l with
  | some (v, rest) => if (jsonWsSkip rest).isEmpty then some v else Option.none
  | Option.none => Option.none

example : loads "\x7b\"a\": 1\x7d".data = some (PyVal.dict [("a".data, PyVal.int 1)]) := by rfl
example : loads "[1, 2]".data = some (PyVal.list [PyVal.int 1, PyVal.int 2]) := by rfl
example : loads "\x7bbad\x7d".data = Option.none := by rfl
example : loads "\x7b\x7d".data = some (PyVal.dict []) := by rfl
example : loads "null".data = some PyVal.none := by rfl

/-- Literal opening of the fenced block pattern of extract_json (the
re.search pattern is compiled without IGNORECASE, so the label is the
lower case json only). -/
def fenceLit : List Char :=
  "```json".data

/-- Check of the tail of the fenced pattern after the closing bracket:
optional whitespace then three backticks. -/
def tailFenceOk (l : List Char) : Bool :=
  "```".data.isPrefixOf (l.dropWhile isPyWs)

/-- Lazy scan of the non greedy group of the fenced pattern: the group
closes at the first closing bracket whose tail matches, otherwise the
scan continues past it, as the re module backtracks. -/
def lazyClose (close : Char) (acc : List Char) : List Char → Option (List Char)
  | [] => Option.none
  | c :: rest =>
      if c = close && tailFenceOk rest then some ((c :: acc).reverse)
      else lazyClose close (c :: acc) rest

/-- Continuation of the fenced pattern after the literal label:
optional whitespace, then a brace or bracket group. -/
def fencedAfterLit (r : List Char) : Option (List Char) :=
  match r.dropWhile isPyWs with
  | '\x7b' :: rest => lazyClose '\x7d' ['\x7b'] rest
  | '\x5b' :: rest => lazyClose '\x5d' ['\x5b'] rest
  | _ => Option.none

/-- Model of the re.search for the fenced pattern of extract_json: scan
the start positions left to right; a position matches when the literal
label is present and the continuation succeeds. -/
def fencedSearchGo : List Char → Option (List Char)
  | [] => Option.none
  | c :: rest =>
      if fenceLit.isPrefixOf (c :: rest) then
        match fencedAfterLit ((c :: rest).drop 7) with
        | some body => some body
        | Option.none => fencedSearchGo rest
      else fencedSearchGo rest

/-- Split a list at the last occurrence of the given character: prefix
through that occurrence and the remaining suffix. -/
def splitLast (close : Char) : List Char → Option (List Char × List Char)
  | [] => Option.none
  | c :: rest =>
      match splitLast close rest with
      | some (a, b) => some (c :: a, b)
      | Option.none => if c = close then some ([c], rest) else Option.none

/-- Model of re.findall for the greedy candidate pattern of
extract_json: at an opening brace or bracket the greedy dot takes
everything up to the last matching closer in the remaining text, and the
scan resumes after it.  Fuel indexed to stay structural; the fuel is
instantiated with the text length, which the scan never exhausts. -/
def findallGo : Nat → List Char → List (List Char)
  | 0, _ => []
  | _, [] => []
  | fuel + 1, c :: rest =>
      if c = '\x7b' then
        match splitLast '\x7d' rest with
        | some (a, b) => (c :: a) :: findallGo fuel b
        | Option.none => findallGo fuel rest
      else if c = '\x5b' then
        match splitLast '\x5d' rest with
        | some (a, b) => (c :: a) :: findallGo fuel b
        | Option.none => findallGo fuel rest
      else findallGo fuel rest

/-- Candidate list of the bare scan of extract_json. -/
def findallCandidates (l : List Char) : List (List Char) :=
  findallGo l.length l

/-- Try parsing candidates starting from the last and moving backward,
as the loop of extract_json does over the reversed candidate list. -/
def tryCandsRev : List (List Char) → Option PyVal
  | [] => Option.none
  | c :: rest =>
      match tryCandsRev rest with
      | some v => some v
      | Option.none => loads c

/-- Steps two and three of extract_json: the bare candidate scan, then
the parse of the entire text. -/
def bareAndFull (l : List Char) : Option PyVal :=
  match tryCandsRev (findallCandidates l) with
  | some v => some v
  | Option.none => loads l

/-- Embedding of extract_json from src/app.py on character lists. -/
def extractJsonL (l : List Char) : Option PyVal :=
  match fencedSearchGo l with
  | some body =>
      (match loads body with
       | some v => some v
       | Option.none => bareAndFull l)
  | Option.none => bareAndFull l

/-- Embedding of extract_json from src/app.py. -/
def extract_json (s : String) : Option PyVal :=
  extractJsonL s.data

example : extract_json "[1, 2]" = some (PyVal.list [PyVal.int 1, PyVal.int 2]) := by rfl
example : extract_json "\x7bbad\x7d \x7b\"a\": 1\x7d" = Option.none := by rfl
example : extract_json "```json\n\x7b\"a\": 1\x7d\n```" = some (PyVal.dict [("a".data, PyVal.int 1)]) := by rfl
example : extract_json "```JSON\n\x7b\"a\": 1\x7d\n```" = some (PyVal.dict [("a".data, PyVal.int 1)]) := by rfl
example : extract_json "\x7b\x7d" = some (PyVal.dict []) := by rfl
example : extract_json "plain prose" = Option.none := by rfl

/-- Attribute style dict lookup it.get(k): returns the Python None value
when the key is absent; raises AttributeError on a value without the get
attribute. -/
def pyGetOrNone (v : PyVal) (k : List Char) : Except PyErr PyVal :=
  match v with
  | .dict kvs =>
      .ok (match kvs.find? (fun p => p.1 == k) with
           | some p => p.2
           | Option.none => PyVal.none)
  | _ => .error .attributeError

/-- Dict lookup with default data.get(k, d). -/
def pyGetDefault (v : PyVal) (k : List Char) (d : PyVal) : Except PyErr PyVal :=
  match v with
  | .dict kvs =>
      .ok (match kvs.find? (fun p => p.1 == k) with
           | some p => p.2
           | Option.none => d)
  | _ => .error .attributeError

/-- Python or: the left operand if truthy, otherwise the right one. -/
def pyOr (x y : PyVal) : PyVal :=
  if pyFalsy x then y else x

/-- Attribute access v.strip(): defined on strings only, AttributeError
otherwise. -/
def pyStripAttr : PyVal → Except PyErr (List Char)
  | .str s => .ok (stripL s)
  | _ => .error .attributeError

/-- Iteration over a Python value: lists yield their elements, strings
their characters, dicts their keys; other values raise TypeError. -/
def pyIter : PyVal → Except PyErr (List PyVal)
  | .list xs => .ok xs
  | .str s => .ok (s.map (fun c => PyVal.str [c]))
  | .dict kvs => .ok (kvs.map (fun p => PyVal.str p.1))
  | _ => .error .typeError

/-- Call of only_future_iso_or_none on a dynamic value, as done with
it.get of due: a falsy value is caught by the emptiness test and gives
the None placeholder, a truthy string is searched, and a truthy value of
any other type raises TypeError inside re.search. -/
def onlyFutureOfVal (today : PyDate) (v : PyVal) : Except PyErr (List Char) :=
  if pyFalsy v then .ok "None".data
  else
    match v with
    | .str s => .ok (onlyFutureIsoL today s)
    | _ => .error .typeError

/-- Normalization of one raw item of the items loop of
analyze_transcript, in the evaluation order of the source: action, then
owner, then due. -/
def normalizeItem (today : PyDate) (it : PyVal) : Except PyErr PyVal := do
  let a0 ← pyGetOrNone it "action".data
  let action ← pyStripAttr (pyOr a0 (PyVal.str []))
  let o0 ← pyGetOrNone it "owner".data
  let owner0 ← pyStripAttr (pyOr o0 (PyVal.str "None".data))
  let owner := if owner0.isEmpty then "None".data else owner0
  let d0 ← pyGetOrNone it "due".data
  let due ← onlyFutureOfVal today d0
  let actionF := if action.isEmpty then "None".data else action
  pure (PyVal.dict
    [("action".data, PyVal.str actionF),
     ("owner".data, PyVal.str owner),
     ("due".data, PyVal.str due)])

/-- Dict item assignment data[k] = v on a dict value. -/
def dictSet (v : PyVal) (k : List Char) (nv : PyVal) : PyVal :=
  match v with
  | .dict kvs => .dict (dictInsert kvs k nv)
  | x => x

/-- Fallback result of analyze_transcript when recovery produced
nothing usable: the first thousand characters of the raw response as the
summary, and no items. -/
def fallbackDict (raw : List Char) : PyVal :=
  .dict [("summary".data, PyVal.str (raw.take 1000)), ("items".data, PyVal.list [])]

/-- Embedding of analyze_transcript from src/app.py after the opaque
model invocation: the argument is the raw response text of the model,
and the current date is an explicit parameter for the due validation.
The truthiness test if not data of the source decides the fallback, then
the items are fetched, iterated and normalized, and the items entry of
the result is replaced by the cleaned list. -/
def analyzeTranscriptPostL (today : PyDate) (raw : List Char) : Except PyErr PyVal := do
  let data := match extractJsonL raw with
    | Option.none => fallbackDict raw
    | some v => if pyFalsy v then fallbackDict raw else v
  let items ← pyGetDefault data "items".data (PyVal.list [])
  let elems ← pyIter items
  let cleaned ← elems.mapM (normalizeItem today)
  pure (dictSet data "items".data (PyVal.list cleaned))

/-- Embedding of the post invocation part of analyze_transcript. -/
def analyze_transcript_post (today : PyDate) (raw : String) : Except PyErr PyVal :=
  analyzeTranscriptPostL today raw.data

/-- Embedding of read_uploaded_text from src/app.py on the decoded
text: the caption filter is applied exactly when the lower cased file
name ends with the caption suffix. -/
def read_uploaded_text (name : String) (txt : String) : String :=
  if ".vtt".data.isSuffixOf (lowerL name.data) then parse_vtt txt else txt

/-- Substring containment test on character lists (the Python in
operator on strings). -/
def isInfixL (pat : List Char) : List Char → Bool
  | [] => pat.isEmpty
  | c :: rest => pat.isPrefixOf (c :: rest) || isInfixL pat rest

/-- Embedding of the text handling of download_drive_file from
src/app.py after the transport: the caption filter is applied exactly
when the upper cased content contains the caption header token. -/
def download_drive_file_text (raw : String) : String :=
  if isInfixL "WEBVTT".data (upperL raw.data) then parse_vtt raw else raw

/-- Embedding of the body construction of push_to_google_tasks from
src/app.py: title always, notes when nonempty, due exactly when the
value is not the None placeholder, with the fixed time suffix. -/
def push_task_body (title notes due_iso : List Char) : PyVal :=
  let b1 := PyVal.dict [("title".data, PyVal.str title)]
  let b2 := if notes.isEmpty then b1 else dictSet b1 "notes".data (PyVal.str notes)
  if due_iso = "None".data then b2
  else dictSet b2 "due".data (PyVal.str (due_iso ++ "T09:00:00.000Z".data))

/-- Embedding of the due coercion of the push loop of src/app.py: an
empty Due cell is replaced by the None placeholder before the push. -/
def rowDue (s : List Char) : List Char :=
  if s.isEmpty then "None".data else s

/-- Key presence test on an embedded dict value. -/
def dictHasKey (v : PyVal) (k : List Char) : Bool :=
  match v with
  | .dict kvs => kvs.any (fun p => p.1 == k)
  | _ => false

/-! Claim theorems. -/

/-- C9: there are model outputs, such as a bare JSON array, on which
extract_json returns a successfully recovered value that is not an
object, and analyze_transcript then raises an AttributeError when it
reads the items field of that value, so the post recovery processing is
not total over all recoverable model outputs. -/
theorem c9_nondict_recovery_raises :
    extract_json "[1, 2]" = some (PyVal.list [PyVal.int 1, PyVal.int 2]) ∧
    analyze_transcript_post ⟨2024, 6, 15⟩ "[1, 2]" = .error PyErr.attributeError := by
  exact ⟨rfl, rfl⟩

/-- Helper: when the lower case fence label does not occur in the text,
the fenced pattern cannot match. -/
theorem fencedSearchGo_eq_none (l : List Char) (h : isInfixL fenceLit l = false) :
    fencedSearchGo l = Option.none := by
  induction l with
  | nil => rfl
  | cons c rest ih =>
      unfold isInfixL at h
      simp only [Bool.or_eq_false_iff] at h
      unfold fencedSearchGo
      simp only [h.1, Bool.false_eq_true, if_false]
      exact ih h.2

/-- C10: the fenced block step of extract_json matches only the lower
case json label: on every input in which the exact lower case label does
not occur (in particular any other casing of it), the fenced step does
not apply and recovery is the bare candidate scan followed by the whole
text parse. -/
theorem c10_fence_label_lowercase_only (s : String)
    (h : isInfixL fenceLit s.data = false) :
    extract_json s = bareAndFull s.data := by
  unfold extract_json extractJsonL
  rw [fencedSearchGo_eq_none s.data h]

/-- Witness for C10 at an upper case fence label. -/
theorem c10_fence_label_lowercase_only_witness :
    isInfixL fenceLit "```JSON\n\x7b\"a\": 1\x7d\n```".data = false ∧
    extract_json "```JSON\n\x7b\"a\": 1\x7d\n```" =
      bareAndFull "```JSON\n\x7b\"a\": 1\x7d\n```".data :=
  ⟨by rfl, c10_fence_label_lowercase_only "```JSON\n\x7b\"a\": 1\x7d\n```" (by rfl)⟩

/-- C8: for every pushed task (whose row Due cell is a nonempty string,
which every row construction site guarantees), the task body includes a
due timestamp exactly when the Due value is not the None placeholder,
and the attached value is the ISO date concatenated with the fixed time
suffix. -/
theorem c8_due_attachment (title notes due : List Char) (h : due ≠ []) :
    (dictHasKey (push_task_body title notes (rowDue due)) "due".data = true
      ↔ due ≠ "None".data) ∧
    (due ≠ "None".data →
      pyGetOrNone (push_task_body title notes (rowDue due)) "due".data =
        .ok (PyVal.str (due ++ "T09:00:00.000Z".data))) := by
  have hrow : rowDue due = due := by
    unfold rowDue
    simp [List.isEmpty_iff, h]
  rw [hrow]
  unfold push_task_body
  by_cases hdue : due = "None".data
  · subst hdue
    simp only [if_pos rfl]
    constructor
    · constructor
      · intro hk
        by_cases hn : notes.isEmpty <;>
          simp [hn, dictHasKey, dictSet, dictInsert] at hk
      · intro hne
        exact absurd rfl hne
    · intro hne
      exact absurd rfl hne
  · simp only [if_neg hdue]
    by_cases hn : notes.isEmpty <;>
      simp [hn, dictHasKey, dictSet, dictInsert, pyGetOrNone, hdue, List.find?]

/-- Witness for C8 at a concrete date and at the placeholder. -/
theorem c8_due_attachment_witness :
    (dictHasKey (push_task_body "t".data "n".data (rowDue "2024-06-20".data)) "due".data = true
      ↔ "2024-06-20".data ≠ "None".data) ∧
    ("2024-06-20".data ≠ "None".data →
      pyGetOrNone (push_task_body "t".data "n".data (rowDue "2024-06-20".data)) "due".data =
        .ok (PyVal.str ("2024-06-20".data ++ "T09:00:00.000Z".data))) :=
  c8_due_attachment "t".data "n".data "2024-06-20".data (by decide)

/-- C5 counterexample: the claim says either signal alone routes the
text through the caption filter on every ingestion path, but an uploaded
plain named file whose content contains the caption header token is
passed through unchanged, although the filter would have changed it. -/
theorem c5_counterexample :
    read_uploaded_text "notes.txt" "WEBVTT\nHello" = "WEBVTT\nHello" ∧
    parse_vtt "WEBVTT\nHello" = "Hello" := by
  exact ⟨rfl, rfl⟩

/-- C5 amended: each ingestion path uses exactly one signal: the upload
path routes through the caption filter exactly when the lower cased file
name ends with the caption suffix, ignoring the content; the remote
download path routes exactly when the upper cased content contains the
caption header token, ignoring the name. -/
theorem c5_routing_signals :
    (∀ name txt : String, ".vtt".data.isSuffixOf (lowerL name.data) = true →
        read_uploaded_text name txt = parse_vtt txt) ∧
    (∀ name txt : String, ".vtt".data.isSuffixOf (lowerL name.data) = false →
        read_uploaded_text name txt = txt) ∧
    (∀ raw : String, isInfixL "WEBVTT".data (upperL raw.data) = true →
        download_drive_file_text raw = parse_vtt raw) ∧
    (∀ raw : String, isInfixL "WEBVTT".data (upperL raw.data) = false →
        download_drive_file_text raw = raw) := by
  refine ⟨?_, ?_, ?_, ?_⟩ <;> intro a b <;>
    first
    | (intro h; unfold read_uploaded_text; rw [h]; rfl)
    | (unfold download_drive_file_text; rw [b]; rfl)

/-- Witness for C5 amended at concrete files of each kind. -/
theorem c5_routing_signals_witness :
    read_uploaded_text "a.VTT" "x 0:12 y" = parse_vtt "x 0:12 y" ∧
    read_uploaded_text "notes.txt" "WEBVTT\nHello" = "WEBVTT\nHello" ∧
    download_drive_file_text "webvtt here" = parse_vtt "webvtt here" ∧
    download_drive_file_text "plain text" = "plain text" :=
  ⟨c5_routing_signals.1 "a.VTT" "x 0:12 y" (by rfl),
   c5_routing_signals.2.1 "notes.txt" "WEBVTT\nHello" (by rfl),
   c5_routing_signals.2.2.1 "webvtt here" (by rfl),
   c5_routing_signals.2.2.2 "plain text" (by rfl)⟩

/-- C1 counterexample: on a text with exactly two bare brace delimited
candidates of which only the second is valid JSON, extract_json returns
absent, not the parsed second candidate the claim requires. -/
theorem c1_counterexample :
    extract_json "\x7bbad\x7d \x7b\"a\": 1\x7d" = Option.none := by
  rfl

/-- C1 amended: the bare scan of extract_json uses one greedy
alternation, so consecutive brace delimited candidates merge into a
single candidate spanning from the first opening brace to the last
closing brace; the loop then tries the greedy candidates from the last
backward, returning the first that parses.  On the two candidate text
the single merged candidate and the whole text both fail to parse, so
recovery returns absent; when the greedy scan does yield two candidates
(different bracket kinds), the later positioned one wins. -/
theorem c1_greedy_merge_and_backward_scan :
    findallCandidates "\x7bbad\x7d \x7b\"a\": 1\x7d".data
      = ["\x7bbad\x7d \x7b\"a\": 1\x7d".data] ∧
    extract_json "\x7bbad\x7d \x7b\"a\": 1\x7d" = Option.none ∧
    findallCandidates "[1, 2] \x7b\"a\": 3\x7d".data
      = ["[1, 2]".data, "\x7b\"a\": 3\x7d".data] ∧
    extract_json "[1, 2] \x7b\"a\": 3\x7d" = some (PyVal.dict [("a".data, PyVal.int 3)]) ∧
    extract_json "\x7b\"a\": 3\x7d [1, 2]" = some (PyVal.list [PyVal.int 1, PyVal.int 2]) := by
  exact ⟨rfl, rfl, rfl, rfl, rfl⟩

/-- Value of dict.get(k) with the Python None value for a missing key. -/
def dictLookup (kvs : List (List Char × PyVal)) (k : List Char) : PyVal :=
  match kvs.find? (fun p => p.1 == k) with
  | some p => p.2
  | Option.none => PyVal.none

theorem pyGetOrNone_dict (kvs : List (List Char × PyVal)) (k : List Char) :
    pyGetOrNone (PyVal.dict kvs) k = .ok (dictLookup kvs k) := rfl

/-- Field values on which the dynamic normalization is defined: absent
or otherwise falsy values, and strings. -/
def SafeField (v : PyVal) : Prop :=
  pyFalsy v = true ∨ ∃ s, v = PyVal.str s

/-- Well formed due value of a normalized item: the None placeholder or
a formatted existing calendar date not before today. -/
def WellFormedDue (today : PyDate) (l : List Char) : Prop :=
  l = "None".data ∨
    ∃ d : PyDate, 1 ≤ d.month ∧ d.month ≤ 12 ∧ 1 ≤ d.day ∧
      d.day ≤ daysInMonth d.year d.month ∧ dateLe today d = true ∧ l = formatIso d

theorem parseIsoDate_bounds (l : List Char) (d : PyDate) (h : parseIsoDate l = some d) :
    1 ≤ d.month ∧ d.month ≤ 12 ∧ 1 ≤ d.day ∧ d.day ≤ daysInMonth d.year d.month := by
  unfold parseIsoDate at h
  split at h
  · dsimp only at h
    split at h
    · cases h
      assumption
    · cases h
  · cases h

/-- Every value of the date validator is a well formed due value. -/
theorem onlyFutureIsoL_wellformed (today : PyDate) (s : List Char) :
    WellFormedDue today (onlyFutureIsoL today s) := by
  unfold onlyFutureIsoL
  split
  · exact Or.inl rfl
  · split
    · exact Or.inl rfl
    · rename_i m hm
      split
      · exact Or.inl rfl
      · rename_i d hd
        split
        · rename_i hle
          obtain ⟨h1, h2, h3, h4⟩ := parseIsoDate_bounds m d hd
          exact Or.inr ⟨d, h1, h2, h3, h4, hle, rfl⟩
        · exact Or.inl rfl

/-- Stripping a safe or-defaulted field never raises. -/
theorem pyStripAttr_pyOr_safe (v : PyVal) (dflt : List Char) (h : SafeField v) :
    ∃ r, pyStripAttr (pyOr v (PyVal.str dflt)) = .ok r := by
  unfold pyOr
  rcases h with hf | ⟨s, rfl⟩
  · rw [if_pos hf]
    exact ⟨stripL dflt, rfl⟩
  · by_cases hf : pyFalsy (PyVal.str s) = true
    · rw [if_pos hf]
      exact ⟨stripL dflt, rfl⟩
    · rw [if_neg hf]
      exact ⟨stripL s, rfl⟩

theorem placeholder_default_ne_nil (l : List Char) :
    (if l.isEmpty then "None".data else l) ≠ [] := by
  by_cases h : l.isEmpty
  · rw [if_pos h]
    decide
  · rw [if_neg h]
    simpa [List.isEmpty_iff] using h

/-- Due computation on a safe field never raises and is well formed. -/
theorem onlyFutureOfVal_safe (today : PyDate) (v : PyVal) (h : SafeField v) :
    ∃ du, onlyFutureOfVal today v = .ok du ∧ WellFormedDue today du := by
  unfold onlyFutureOfVal
  rcases h with hf | ⟨s, rfl⟩
  · rw [if_pos hf]
    exact ⟨"None".data, rfl, Or.inl rfl⟩
  · by_cases hf : pyFalsy (PyVal.str s) = true
    · rw [if_pos hf]
      exact ⟨"None".data, rfl, Or.inl rfl⟩
    · rw [if_neg hf]
      exact ⟨onlyFutureIsoL today s, rfl, onlyFutureIsoL_wellformed today s⟩

/-- C2 amended: item normalization never raises and yields a well
formed ActionItem for every raw item object whose action, owner and due
fields are each absent, falsy (such as null) or strings: action and
owner are nonempty with the literal None placeholder substituted when
trimmed empty or absent, and due is the None placeholder or a formatted
existing calendar date not before today.  An items field that is missing
is treated as empty.  (Truthy non string field values and truthy non
iterable items values raise, see the counterexample.) -/
theorem c2_normalization_safe :
    (∀ (today : PyDate) (kvs : List (List Char × PyVal)),
      SafeField (dictLookup kvs "action".data) →
      SafeField (dictLookup kvs "owner".data) →
      SafeField (dictLookup kvs "due".data) →
      ∃ a o du, normalizeItem today (PyVal.dict kvs) =
          .ok (PyVal.dict [("action".data, PyVal.str a), ("owner".data, PyVal.str o),
            ("due".data, PyVal.str du)]) ∧
        a ≠ [] ∧ o ≠ [] ∧ WellFormedDue today du) ∧
    (∀ kvs : List (List Char × PyVal),
      kvs.find? (fun p => p.1 == "items".data) = Option.none →
      pyGetDefault (PyVal.dict kvs) "items".data (PyVal.list []) = .ok (PyVal.list [])) := by
  constructor
  · intro today kvs ha ho hd
    obtain ⟨a1, ha1⟩ := pyStripAttr_pyOr_safe _ [] ha
    obtain ⟨o1, ho1⟩ := pyStripAttr_pyOr_safe _ "None".data ho
    obtain ⟨du, hdu, hwf⟩ := onlyFutureOfVal_safe today _ hd
    refine ⟨if a1.isEmpty then "None".data else a1,
            if o1.isEmpty then "None".data else o1, du, ?_,
            placeholder_default_ne_nil a1, placeholder_default_ne_nil o1, hwf⟩
    unfold normalizeItem
    simp only [pyGetOrNone_dict, bind, Except.bind, pure, Except.pure, ha1, ho1, hdu]
  · intro kvs h
    unfold pyGetDefault
    dsimp only
    rw [h]

/-- C2 counterexample: normalization does raise on a raw item whose
action is a truthy number, and an items field that is a truthy non
iterable value raises instead of being treated as empty. -/
theorem c2_counterexample :
    normalizeItem ⟨2024, 6, 15⟩ (PyVal.dict [("action".data, PyVal.int 5)]) =
      .error PyErr.attributeError ∧
    analyze_transcript_post ⟨2024, 6, 15⟩ "\x7b\"items\": 5\x7d" = .error PyErr.typeError := by
  exact ⟨rfl, rfl⟩

/-- Witness for C2 amended at the item of the claim: action missing,
owner null, due the string next week, and at a missing items field. -/
theorem c2_normalization_safe_witness :
    (∃ a o du, normalizeItem ⟨2024, 6, 15⟩
        (PyVal.dict [("owner".data, PyVal.none), ("due".data, PyVal.str "next week".data)]) =
          .ok (PyVal.dict [("action".data, PyVal.str a), ("owner".data, PyVal.str o),
            ("due".data, PyVal.str du)]) ∧
        a ≠ [] ∧ o ≠ [] ∧ WellFormedDue ⟨2024, 6, 15⟩ du) ∧
    pyGetDefault (PyVal.dict [("summary".data, PyVal.str "s".data)]) "items".data
      (PyVal.list []) = .ok (PyVal.list []) :=
  ⟨c2_normalization_safe.1 ⟨2024, 6, 15⟩
      [("owner".data, PyVal.none), ("due".data, PyVal.str "next week".data)]
      (Or.inl rfl) (Or.inl rfl) (Or.inr ⟨"next week".data, rfl⟩),
   c2_normalization_safe.2 [("summary".data, PyVal.str "s".data)] rfl⟩

/-- Lookup of a different key is unchanged by a dict insertion. -/
theorem find_dictInsert_ne (kvs : List (List Char × PyVal)) (k k2 : List Char)
    (v : PyVal) (h : (k == k2) = false) :
    (dictInsert kvs k v).find? (fun p => p.1 == k2) = kvs.find? (fun p => p.1 == k2) := by
  unfold dictInsert
  by_cases hany : (kvs.any fun p => p.1 == k) = true
  · rw [if_pos hany]
    clear hany
    induction kvs with
    | nil => rfl
    | cons p rest ih =>
        rw [List.map_cons]
        by_cases hp : (p.1 == k) = true
        · rw [if_pos hp]
          have hpk : p.1 = k := eq_of_beq hp
          have hp2 : (p.1 == k2) = false := by
            rw [hpk]
            exact h
          simp only [List.find?_cons, h, hp2]
          exact ih
        · rw [if_neg hp]
          cases hq : (p.1 == k2) with
          | true => simp only [List.find?_cons, hq]
          | false =>
              simp only [List.find?_cons, hq]
              exact ih
  · rw [if_neg hany]
    clear hany
    induction kvs with
    | nil =>
        simp only [List.nil_append, List.find?_cons, h]
    | cons p rest ih =>
        rw [List.cons_append]
        cases hq : (p.1 == k2) with
        | true => simp only [List.find?_cons, hq]
        | false =>
            simp only [List.find?_cons, hq]
            exact ih

/-- Post recovery flow on an absent recovery: the fallback result. -/
theorem analyzePost_none_eq (today : PyDate) (raw : List Char)
    (h : extractJsonL raw = Option.none) :
    analyzeTranscriptPostL today raw = .ok (fallbackDict raw) := by
  unfold analyzeTranscriptPostL
  rw [h]
  rfl

/-- Post recovery flow on a falsy recovery: the fallback result. -/
theorem analyzePost_falsy_eq (today : PyDate) (raw : List Char) (v : PyVal)
    (h : extractJsonL raw = some v) (hf : pyFalsy v = true) :
    analyzeTranscriptPostL today raw = .ok (fallbackDict raw) := by
  unfold analyzeTranscriptPostL
  rw [h]
  dsimp only
  rw [hf]
  rfl

/-- Post recovery flow on a truthy recovery: no fallback, the recovered
value itself is processed. -/
theorem analyzePost_truthy_eq (today : PyDate) (raw : List Char) (v : PyVal)
    (h : extractJsonL raw = some v) (hf : pyFalsy v = false) :
    analyzeTranscriptPostL today raw = (do
      let items ← pyGetDefault v "items".data (PyVal.list [])
      let elems ← pyIter items
      let cleaned ← elems.mapM (normalizeItem today)
      pure (dictSet v "items".data (PyVal.list cleaned))) := by
  unfold analyzeTranscriptPostL
  rw [h]
  dsimp only
  rw [hf]
  rfl

/-- C3 counterexample: on the model output consisting of an empty JSON
object, recovery succeeds with the empty object, yet the pipeline
returns the fallback result with the raw text as summary, so the
fallback is not used exactly when recovery returns absent, and a
recovered summary default of the empty string is not what is kept. -/
theorem c3_counterexample :
    extract_json "\x7b\x7d" = some (PyVal.dict []) ∧
    analyze_transcript_post ⟨2024, 6, 15⟩ "\x7b\x7d" =
      .ok (PyVal.dict [("summary".data, PyVal.str "\x7b\x7d".data),
        ("items".data, PyVal.list [])]) := by
  exact ⟨rfl, rfl⟩

/-- C3 amended: analyze_transcript returns the fallback result exactly
when recovery returns absent or a falsy value (empty object or array,
empty string, zero, false, null); when recovery yields a truthy value,
the recovered value itself is processed: its items entry (empty when
missing) is iterated and every item normalized, and the summary entry is
left untouched, kept exactly as recovered and not defaulted (the empty
string default for a missing summary is applied only downstream at row
construction); a truthy non dict recovery or ill typed items surface as
exceptions. -/
theorem c3_fallback_policy (today : PyDate) (raw : List Char) :
    (extractJsonL raw = Option.none →
        analyzeTranscriptPostL today raw = .ok (fallbackDict raw)) ∧
    (∀ v, extractJsonL raw = some v → pyFalsy v = true →
        analyzeTranscriptPostL today raw = .ok (fallbackDict raw)) ∧
    (∀ v, extractJsonL raw = some v → pyFalsy v = false →
        analyzeTranscriptPostL today raw = (do
          let items ← pyGetDefault v "items".data (PyVal.list [])
          let elems ← pyIter items
          let cleaned ← elems.mapM (normalizeItem today)
          pure (dictSet v "items".data (PyVal.list cleaned)))) ∧
    (∀ v r, extractJsonL raw = some v → pyFalsy v = false →
        analyzeTranscriptPostL today raw = .ok r →
        pyGetOrNone r "summary".data = pyGetOrNone v "summary".data) := by
  refine ⟨analyzePost_none_eq today raw, ?_, ?_, ?_⟩
  · intro v h hf
    exact analyzePost_falsy_eq today raw v h hf
  · intro v h hf
    exact analyzePost_truthy_eq today raw v h hf
  · intro v r h hf hok
    rw [analyzePost_truthy_eq today raw v h hf] at hok
    cases v with
    | dict kvs =>
        simp only [bind, Except.bind] at hok
        cases h1 : pyGetDefault (PyVal.dict kvs) "items".data (PyVal.list []) with
        | error e1 =>
            simp only [h1] at hok
            cases hok
        | ok items =>
            simp only [h1] at hok
            cases h2 : pyIter items with
            | error e2 =>
                simp only [h2] at hok
                cases hok
            | ok elems =>
                simp only [h2] at hok
                cases h3 : elems.mapM (normalizeItem today) with
                | error e3 =>
                    simp only [h3] at hok
                    cases hok
                | ok cleaned =>
                    simp only [h3, pure, Except.pure, Except.ok.injEq] at hok
                    subst hok
                    unfold dictSet
                    rw [pyGetOrNone_dict, pyGetOrNone_dict]
                    unfold dictLookup
                    rw [find_dictInsert_ne _ _ _ _ (by decide)]
    | none => simp [bind, Except.bind, pyGetDefault] at hok
    | bool b => simp [bind, Except.bind, pyGetDefault] at hok
    | int n => simp [bind, Except.bind, pyGetDefault] at hok
    | str s => simp [bind, Except.bind, pyGetDefault] at hok
    | list xs => simp [bind, Except.bind, pyGetDefault] at hok

/-- Witness for C3 amended: the fallback on prose, the fallback on a
falsy recovery, the processed result and the untouched summary on a
truthy recovery. -/
theorem c3_fallback_policy_witness :
    analyzeTranscriptPostL ⟨2024, 6, 15⟩ "plain prose".data
      = .ok (fallbackDict "plain prose".data) ∧
    analyzeTranscriptPostL ⟨2024, 6, 15⟩ "\x7b\x7d".data
      = .ok (fallbackDict "\x7b\x7d".data) ∧
    analyzeTranscriptPostL ⟨2024, 6, 15⟩ "\x7b\"summary\": \"s\", \"items\": []\x7d".data
      = (do
          let items ← pyGetDefault
            (PyVal.dict [("summary".data, PyVal.str "s".data), ("items".data, PyVal.list [])])
            "items".data (PyVal.list [])
          let elems ← pyIter items
          let cleaned ← elems.mapM (normalizeItem ⟨2024, 6, 15⟩)
          pure (dictSet
            (PyVal.dict [("summary".data, PyVal.str "s".data), ("items".data, PyVal.list [])])
            "items".data (PyVal.list cleaned))) ∧
    pyGetOrNone
        (PyVal.dict [("summary".data, PyVal.str "s".data), ("items".data, PyVal.list [])])
        "summary".data
      = pyGetOrNone
        (PyVal.dict [("summary".data, PyVal.str "s".data), ("items".data, PyVal.list [])])
        "summary".data :=
  ⟨(c3_fallback_policy ⟨2024, 6, 15⟩ "plain prose".data).1 rfl,
   (c3_fallback_policy ⟨2024, 6, 15⟩ "\x7b\x7d".data).2.1 (PyVal.dict []) rfl rfl,
   (c3_fallback_policy ⟨2024, 6, 15⟩ "\x7b\"summary\": \"s\", \"items\": []\x7d".data).2.2.1
     (PyVal.dict [("summary".data, PyVal.str "s".data), ("items".data, PyVal.list [])]) rfl rfl,
   (c3_fallback_policy ⟨2024, 6, 15⟩ "\x7b\"summary\": \"s\", \"items\": []\x7d".data).2.2.2
     (PyVal.dict [("summary".data, PyVal.str "s".data), ("items".data, PyVal.list [])])
     (PyVal.dict [("summary".data, PyVal.str "s".data), ("items".data, PyVal.list [])])
     rfl rfl (by rfl)⟩

/-- Claim side matcher for C4, following the claim wording: a substring
matching the syntactic pattern YYYY-MM-DD with year 2000 to 2099, month
01 to 12, day 01 to 31 — the claim names no word boundary condition, so
none is checked here.  This definition follows the words of the claim
for the refinement comparison; the source embedding is isoAt. -/
def isoPlainAt (l : List Char) : Option (List Char) :=
  match l with
  | '2' :: '0' :: y3 :: y4 :: '-' :: m1 :: m2 :: '-' :: d1 :: d2 :: _ =>
      if y3.isDigit && y4.isDigit && isoMonthOk m1 m2 && isoDayOk d1 d2 then
        some ['2', '0', y3, y4, '-', m1, m2, '-', d1, d2]
      else none
  | _ => none

/-- Claim side search for C4: first position whose substring matches the
plain pattern, no boundary conditions. -/
def isoPlainSearch : List Char → Option (List Char)
  | [] => Option.none
  | c :: rest =>
      match isoPlainAt (c :: rest) with
      | some m => some m
      | Option.none => isoPlainSearch rest

/-- C4 counterexample: in the input x2024-12-31 the substring 2024-12-31
matches the syntactic pattern of the claim, parses as a calendar date
and is not before today 2024-06-15, so the claim requires that substring
as the value; the source function returns the None placeholder, because
its pattern also requires a word boundary, which the letter x denies. -/
theorem c4_counterexample :
    isoPlainSearch "x2024-12-31".data = some "2024-12-31".data ∧
    parseIsoDate "2024-12-31".data = some ⟨2024, 12, 31⟩ ∧
    dateLe ⟨2024, 6, 15⟩ ⟨2024, 12, 31⟩ = true ∧
    only_future_iso_or_none ⟨2024, 6, 15⟩ "x2024-12-31" = "None" := by
  refine ⟨rfl, ?_, rfl, rfl⟩
  decide

/-- Boundary aware match test of the source pattern at a position, as a
computable predicate: the word boundary before position i (the scan
context for position zero), and the pattern with its trailing boundary
at position i. -/
def isoBAtB (prev : Bool) (l : List Char) (i : Nat) : Bool :=
  (if i = 0 then !prev
   else
     match l.get? (i - 1) with
     | some c => !isWordC c
     | Option.none => false) && !(isoAt (l.drop i)).isNone

theorem isoBAtB_ge (prev : Bool) (l : List Char) (i : Nat) (h : l.length ≤ i) :
    isoBAtB prev l i = false := by
  unfold isoBAtB
  have hd : l.drop i = [] := List.drop_eq_nil_of_le h
  rw [hd]
  simp [isoAt]

theorem isoBAtB_succ (prev : Bool) (c : Char) (rest : List Char) (i : Nat) :
    isoBAtB prev (c :: rest) (i + 1) = isoBAtB (isWordC c) rest i := by
  unfold isoBAtB
  cases i with
  | zero => simp
  | succ j =>
      have hget : (c :: rest).get? (j + 2 - 1) = rest.get? (j + 1 - 1) := by
        simp
      rw [hget]
      have hdrop : (c :: rest).drop (j + 2) = rest.drop (j + 1) := by
        simp [List.drop_succ_cons]
      rw [hdrop]
      simp

/-- Scanner completeness: an absent search result means no boundary
aware match exists at any position. -/
theorem isoSearchGo_none_spec (l : List Char) : ∀ (prev : Bool),
    isoSearchGo prev l = Option.none → ∀ i, isoBAtB prev l i = false := by
  induction l with
  | nil =>
      intro prev _ i
      exact isoBAtB_ge prev [] i (Nat.zero_le i)
  | cons c rest ih =>
      intro prev hnone
      unfold isoSearchGo at hnone
      by_cases hp : prev
      · rw [if_pos hp] at hnone
        intro i
        cases i with
        | zero =>
            unfold isoBAtB
            simp [hp]
        | succ j =>
            rw [isoBAtB_succ]
            exact ih (isWordC c) hnone j
      · rw [if_neg hp] at hnone
        cases hAt : isoAt (c :: rest) with
        | some m =>
            simp only [hAt] at hnone
            cases hnone
        | none =>
            simp only [hAt] at hnone
            intro i
            cases i with
            | zero =>
                unfold isoBAtB
                simp [hAt]
            | succ j =>
                rw [isoBAtB_succ]
                exact ih (isWordC c) hnone j

/-- Scanner soundness: a search result is the match at the least
position with a boundary aware match. -/
theorem isoSearchGo_some_spec (l : List Char) : ∀ (prev : Bool) (m : List Char),
    isoSearchGo prev l = some m →
    ∃ i, isoBAtB prev l i = true ∧ (∀ j, j < i → isoBAtB prev l j = false) ∧
      isoAt (l.drop i) = some m := by
  induction l with
  | nil =>
      intro prev m h
      cases h
  | cons c rest ih =>
      intro prev m h
      unfold isoSearchGo at h
      by_cases hp : prev
      · rw [if_pos hp] at h
        obtain ⟨i, h1, h2, h3⟩ := ih (isWordC c) m h
        refine ⟨i + 1, ?_, ?_, ?_⟩
        · rw [isoBAtB_succ]
          exact h1
        · intro j hj
          cases j with
          | zero =>
              unfold isoBAtB
              simp [hp]
          | succ k =>
              rw [isoBAtB_succ]
              exact h2 k (Nat.lt_of_succ_lt_succ hj)
        · simpa using h3
      · rw [if_neg hp] at h
        cases hAt : isoAt (c :: rest) with
        | some m2 =>
            simp only [hAt, Option.some.injEq] at h
            subst h
            refine ⟨0, ?_, ?_, ?_⟩
            · unfold isoBAtB
              simp [hp, hAt]
            · intro j hj
              exact absurd hj (Nat.not_lt_zero j)
            · simpa using hAt
        | none =>
            simp only [hAt] at h
            obtain ⟨i, h1, h2, h3⟩ := ih (isWordC c) m h
            refine ⟨i + 1, ?_, ?_, ?_⟩
            · rw [isoBAtB_succ]
              exact h1
            · intro j hj
              cases j with
              | zero =>
                  unfold isoBAtB
                  simp [hAt]
              | succ k =>
                  rw [isoBAtB_succ]
                  exact h2 k (Nat.lt_of_succ_lt_succ hj)
            · simpa using h3

theorem digit_toNat_bounds (c : Char) (h : c.isDigit = true) :
    48 ≤ c.toNat ∧ c.toNat ≤ 57 := by
  unfold Char.isDigit at h
  simp only [Bool.and_eq_true, decide_eq_true_eq, ge_iff_le] at h
  exact ⟨UInt32.le_toNat_of_le (by decide) h.1, UInt32.toNat_le_of_le (by decide) h.2⟩

theorem digit_char_roundtrip (c : Char) (h : c.isDigit = true) :
    Char.ofNat (48 + digitVal c) = c ∧ digitVal c ≤ 9 := by
  obtain ⟨h1, h2⟩ := digit_toNat_bounds c h
  constructor
  · have : 48 + digitVal c = c.toNat := by
      unfold digitVal
      omega
    rw [this, Char.ofNat_toNat]
  · unfold digitVal
    omega

theorem isoAt_shape (l m : List Char) (h : isoAt l = some m) :
    ∃ y3 y4 m1 m2 d1 d2,
      m = ['2', '0', y3, y4, '-', m1, m2, '-', d1, d2] ∧
      y3.isDigit = true ∧ y4.isDigit = true ∧
      isoMonthOk m1 m2 = true ∧ isoDayOk d1 d2 = true := by
  unfold isoAt at h
  split at h
  · rename_i y3 y4 m1 m2 d1 d2 rest
    split at h
    · rename_i hg
      simp only [Bool.and_eq_true] at hg
      cases h
      exact ⟨y3, y4, m1, m2, d1, d2, rfl, hg.1.1.1.1, hg.1.1.1.2, hg.1.1.2, hg.1.2⟩
    · cases h
  · cases h

theorem char_eq_of_toNat (c : Char) (n : Nat) (h : c.toNat = n) : c = Char.ofNat n := by
  rw [← h, Char.ofNat_toNat]

theorem isoMonthOk_spec (m1 m2 : Char) (h : isoMonthOk m1 m2 = true) :
    m1.isDigit = true ∧ m2.isDigit = true ∧
    1 ≤ 10 * digitVal m1 + digitVal m2 ∧ 10 * digitVal m1 + digitVal m2 ≤ 12 := by
  unfold isoMonthOk at h
  simp only [Bool.or_eq_true, Bool.and_eq_true, decide_eq_true_eq] at h
  have e0 : digitVal '0' = 0 := rfl
  rcases h with ⟨⟨h1, h2⟩, h3⟩ | ⟨h1, h2⟩
  · subst h1
    obtain ⟨hlo, hhi⟩ := digit_toNat_bounds m2 h2
    have hne : m2.toNat ≠ 48 := by
      intro hx
      exact h3 (by rw [char_eq_of_toNat m2 48 hx])
    refine ⟨by decide, h2, ?_, ?_⟩
    · rw [e0]
      unfold digitVal
      omega
    · rw [e0]
      unfold digitVal
      omega
  · subst h1
    rcases h2 with (h2 | h2) | h2
    · subst h2
      exact ⟨by decide, by decide, by decide, by decide⟩
    · subst h2
      exact ⟨by decide, by decide, by decide, by decide⟩
    · subst h2
      exact ⟨by decide, by decide, by decide, by decide⟩

theorem isoDayOk_spec (d1 d2 : Char) (h : isoDayOk d1 d2 = true) :
    d1.isDigit = true ∧ d2.isDigit = true ∧
    1 ≤ 10 * digitVal d1 + digitVal d2 ∧ 10 * digitVal d1 + digitVal d2 ≤ 31 := by
  unfold isoDayOk at h
  simp only [Bool.or_eq_true, Bool.and_eq_true, decide_eq_true_eq] at h
  have e0 : digitVal '0' = 0 := rfl
  have e1 : digitVal '1' = 1 := rfl
  have e2 : digitVal '2' = 2 := rfl
  rcases h with (⟨⟨h1, h2⟩, h3⟩ | ⟨h1, h2⟩) | ⟨h1, h2⟩
  · subst h1
    obtain ⟨hlo, hhi⟩ := digit_toNat_bounds d2 h2
    have hne : d2.toNat ≠ 48 := by
      intro hx
      exact h3 (by rw [char_eq_of_toNat d2 48 hx])
    refine ⟨by decide, h2, ?_, ?_⟩
    · rw [e0]
      unfold digitVal
      omega
    · rw [e0]
      unfold digitVal
      omega
  · obtain ⟨hlo, hhi⟩ := digit_toNat_bounds d2 h2
    rcases h1 with h1 | h1
    · subst h1
      refine ⟨by decide, h2, ?_, ?_⟩
      · rw [e1]
        unfold digitVal
        omega
      · rw [e1]
        unfold digitVal
        omega
    · subst h1
      refine ⟨by decide, h2, ?_, ?_⟩
      · rw [e2]
        unfold digitVal
        omega
      · rw [e2]
        unfold digitVal
        omega
  · subst h1
    rcases h2 with h2 | h2
    · subst h2
      exact ⟨by decide, by decide, by decide, by decide⟩
    · subst h2
      exact ⟨by decide, by decide, by decide, by decide⟩

theorem pad2_digits (c1 c2 : Char) (h1 : c1.isDigit = true) (h2 : c2.isDigit = true) :
    pad2 (10 * digitVal c1 + digitVal c2) = [c1, c2] := by
  obtain ⟨e1, b1⟩ := digit_char_roundtrip c1 h1
  obtain ⟨e2, b2⟩ := digit_char_roundtrip c2 h2
  unfold pad2
  have hx : (10 * digitVal c1 + digitVal c2) / 10 % 10 = digitVal c1 := by omega
  have hy : (10 * digitVal c1 + digitVal c2) % 10 = digitVal c2 := by omega
  rw [hx, hy, e1, e2]

theorem pad4_year (y3 y4 : Char) (h3 : y3.isDigit = true) (h4 : y4.isDigit = true) :
    pad4 (2000 + 10 * digitVal y3 + digitVal y4) = ['2', '0', y3, y4] := by
  obtain ⟨e3, b3⟩ := digit_char_roundtrip y3 h3
  obtain ⟨e4, b4⟩ := digit_char_roundtrip y4 h4
  unfold pad4
  have ha : (2000 + 10 * digitVal y3 + digitVal y4) / 1000 % 10 = 2 := by omega
  have hb : (2000 + 10 * digitVal y3 + digitVal y4) / 100 % 10 = 0 := by omega
  have hc : (2000 + 10 * digitVal y3 + digitVal y4) / 10 % 10 = digitVal y3 := by omega
  have hd2 : (2000 + 10 * digitVal y3 + digitVal y4) % 10 = digitVal y4 := by omega
  rw [ha, hb, hc, hd2, e3, e4]

/-- Canonicalization is the identity on a matched substring: formatting
the parsed date of a match of the source pattern reproduces the matched
characters. -/
theorem isoAt_format_roundtrip (l m : List Char) (d : PyDate)
    (hAt : isoAt l = some m) (hp : parseIsoDate m = some d) :
    formatIso d = m := by
  obtain ⟨y3, y4, m1, m2, d1, d2, rfl, hy3, hy4, hmOk, hdOk⟩ := isoAt_shape l m hAt
  obtain ⟨hm1, hm2, _, _⟩ := isoMonthOk_spec m1 m2 hmOk
  obtain ⟨hd1, hd2, _, _⟩ := isoDayOk_spec d1 d2 hdOk
  unfold parseIsoDate at hp
  dsimp only at hp
  split at hp
  · cases hp
    unfold formatIso
    dsimp only
    have e2 : digitVal '2' = 2 := rfl
    have e0 : digitVal '0' = 0 := rfl
    rw [e2, e0]
    have hyv : 1000 * 2 + 100 * 0 + 10 * digitVal y3 + digitVal y4
        = 2000 + 10 * digitVal y3 + digitVal y4 := by omega
    rw [hyv, pad4_year y3 y4 hy3 hy4, pad2_digits m1 m2 hm1 hm2, pad2_digits d1 d2 hd1 hd2]
    rfl
  · cases hp

/-- C4 amended: the date validator returns the None placeholder when
the input is empty, when no word bounded substring matches the ISO
pattern (year 2000 to 2099, month 01 to 12, day 01 to 31, not adjacent
to word characters), when the first such match fails calendar parsing,
or when the parsed date is strictly before the current date; otherwise
it returns the first word bounded matched substring itself (the
canonicalization is the identity on a match).  The boundary cases of the
claim for today 2024-06-15 hold as stated. -/
theorem c4_date_validator (today : PyDate) (l : List Char) :
    (l = [] → onlyFutureIsoL today l = "None".data) ∧
    ((∀ i, isoBAtB false l i = false) → onlyFutureIsoL today l = "None".data) ∧
    (∀ i, isoBAtB false l i = true → (∀ j, j < i → isoBAtB false l j = false) →
      ∃ m, isoAt (l.drop i) = some m ∧
        onlyFutureIsoL today l =
          (match parseIsoDate m with
           | Option.none => "None".data
           | some d => if dateLe today d = true then m else "None".data)) ∧
    (onlyFutureIsoL ⟨2024, 6, 15⟩ "2024-06-15".data = "2024-06-15".data ∧
     onlyFutureIsoL ⟨2024, 6, 15⟩ "2024-06-14".data = "None".data ∧
     onlyFutureIsoL ⟨2024, 6, 15⟩ "2024-13-01".data = "None".data ∧
     onlyFutureIsoL ⟨2024, 6, 15⟩ [] = "None".data ∧
     onlyFutureIsoL ⟨2024, 6, 15⟩ "meeting on 2024-06-20 at 0:12".data
       = "2024-06-20".data) := by
  refine ⟨?_, ?_, ?_, by decide, by decide, by decide, by decide, by decide⟩
  · intro h
    subst h
    rfl
  · intro hall
    unfold onlyFutureIsoL
    split
    · rfl
    · cases hs : isoSearch l with
      | none => rfl
      | some m =>
          obtain ⟨i, h1, _, _⟩ := isoSearchGo_some_spec l false m hs
          rw [hall i] at h1
          cases h1
  · intro i hi hmin
    have hne : l ≠ [] := by
      intro hnil
      subst hnil
      rw [isoBAtB_ge false [] i (Nat.zero_le i)] at hi
      cases hi
    cases hs : isoSearch l with
    | none =>
        have := isoSearchGo_none_spec l false hs i
        rw [this] at hi
        cases hi
    | some m0 =>
        obtain ⟨i0, h1, h2, h3⟩ := isoSearchGo_some_spec l false m0 hs
        have hii : i = i0 := by
          rcases Nat.lt_trichotomy i i0 with hlt | heq | hgt
          · rw [h2 i hlt] at hi
            cases hi
          · exact heq
          · rw [hmin i0 hgt] at h1
            cases h1
        subst hii
        refine ⟨m0, h3, ?_⟩
        unfold onlyFutureIsoL
        rw [if_neg (by simpa [List.isEmpty_iff] using hne)]
        rw [hs]
        dsimp only
        cases hp : parseIsoDate m0 with
        | none => rfl
        | some d =>
            dsimp only
            have hfmt := isoAt_format_roundtrip (l.drop i) m0 d h3 hp
            by_cases hle : dateLe today d = true
            · simp only [hle, if_true]
              exact hfmt
            · have hle2 : dateLe today d = false := by
                simpa using hle
              simp only [hle2, Bool.false_eq_true, if_false]

/-- Witness for C4 amended: the empty input, an input with no word
bounded match, and the first word bounded match of the mixed text of the
claim. -/
theorem c4_date_validator_witness :
    onlyFutureIsoL ⟨2024, 6, 15⟩ [] = "None".data ∧
    onlyFutureIsoL ⟨2024, 6, 15⟩ "2024-13-01".data = "None".data ∧
    (∃ m, isoAt ("meeting on 2024-06-20 at 0:12".data.drop 11) = some m ∧
      onlyFutureIsoL ⟨2024, 6, 15⟩ "meeting on 2024-06-20 at 0:12".data =
        (match parseIsoDate m with
         | Option.none => "None".data
         | some d => if dateLe ⟨2024, 6, 15⟩ d = true then m else "None".data)) :=
  ⟨(c4_date_validator ⟨2024, 6, 15⟩ []).1 rfl,
   (c4_date_validator ⟨2024, 6, 15⟩ "2024-13-01".data).2.1 (by
      intro i
      rcases Nat.lt_or_ge i 10 with h | h
      · interval_cases i <;> decide
      · exact isoBAtB_ge false "2024-13-01".data i (by simpa using h)),
   (c4_date_validator ⟨2024, 6, 15⟩ "meeting on 2024-06-20 at 0:12".data).2.2.1 11
     (by decide) (by decide)⟩

/-- Step equation of the inline substitution scan on the empty list. -/
theorem inlineSubGo_nil (skip : Nat) (prev : Bool) :
    inlineSubGo skip prev [] = [] := by
  cases skip <;> rfl

/-- Step equation of the inline substitution scan while consuming a
replaced match. -/
theorem inlineSubGo_skip (skip : Nat) (prev : Bool) (c : Char) (t : List Char) :
    inlineSubGo (skip + 1) prev (c :: t) = inlineSubGo skip true t := by
  conv_lhs => unfold inlineSubGo

/-- Step equation of the inline substitution scan at a position. -/
theorem inlineSubGo_zero_cons (prev : Bool) (c : Char) (t : List Char) :
    inlineSubGo 0 prev (c :: t) =
      if prev then c :: inlineSubGo 0 (isWordC c) t
      else
        match inlineAt (c :: t) with
        | some n => ' ' :: inlineSubGo (n - 1) true t
        | Option.none => c :: inlineSubGo 0 (isWordC c) t := by
  conv_lhs => unfold inlineSubGo

/-- A match of the inline pattern cannot start at a non digit. -/
theorem inlineAt_nondigit (c : Char) (t : List Char) (h : c.isDigit = false) :
    inlineAt (c :: t) = Option.none := by
  have h2 : try2 (c :: t) = Option.none := by
    unfold try2
    split
    · rename_i heq
      injection heq with ha hrest
      subst ha
      simp [h]
    · rfl
  have h1 : try1 (c :: t) = Option.none := by
    unfold try1
    split
    · rename_i heq
      injection heq with ha hrest
      subst ha
      simp [h]
    · rfl
  unfold inlineAt
  rw [h2, h1]
  rfl

/-- The scan of the inline substitution emits a non digit unchanged. -/
theorem inlineSubGo_nondigit (prev : Bool) (c : Char) (t : List Char)
    (h : c.isDigit = false) :
    inlineSubGo 0 prev (c :: t) = c :: inlineSubGo 0 (isWordC c) t := by
  rw [inlineSubGo_zero_cons]
  cases prev with
  | true => rfl
  | false =>
      rw [inlineAt_nondigit c t h]
      rfl

/-- A match of the inline pattern needs a colon among its first three
characters, so it cannot start inside a digit run. -/
theorem inlineAt_digits (l : List Char) (h : ∀ c ∈ l, c.isDigit = true) :
    inlineAt l = Option.none := by
  have h2 : try2 l = Option.none := by
    unfold try2
    split
    · rename_i a b c2 d rest
      have : (':' : Char).isDigit = true := h ':' (by simp)
      exact absurd this (by decide)
    · rfl
  have h1 : try1 l = Option.none := by
    unfold try1
    split
    · rename_i a c2 d rest
      have : (':' : Char).isDigit = true := h ':' (by simp)
      exact absurd this (by decide)
    · rfl
  unfold inlineAt
  rw [h2, h1]
  rfl

/-- The inline substitution is the identity on a digit run. -/
theorem inlineSubGo_digits (t : List Char) : ∀ (prev : Bool),
    (∀ c ∈ t, c.isDigit = true) → inlineSubGo 0 prev t = t := by
  induction t with
  | nil =>
      intro prev _
      rfl
  | cons c rest ih =>
      intro prev h
      rw [inlineSubGo_zero_cons]
      cases prev with
      | true =>
          rw [ih (isWordC c) (fun d hd => h d (by simp [hd]))]
          rfl
      | false =>
          rw [inlineAt_digits (c :: rest) h]
          rw [ih (isWordC c) (fun d hd => h d (by simp [hd]))]
          rfl

/-- Dropping a middle line whose per line step yields nothing. -/
theorem keptLines_middle (l1 l2 : List (List Char)) (t : List Char)
    (h : keepLine t = Option.none) :
    keptLines (l1 ++ t :: l2) = keptLines (l1 ++ l2) := by
  unfold keptLines
  rw [List.filterMap_append, List.filterMap_append, List.filterMap_cons_none h]

theorem keepLine_ts (t : List Char) (h : vttTsLineMatch t = true) :
    keepLine t = Option.none := by
  unfold keepLine
  rw [h]
  rfl

theorem digit_ne_colon (c : Char) (h : c.isDigit = true) : c ≠ ':' := by
  intro hx
  rw [hx] at h
  exact absurd h (by decide)

/-- An all digit line cannot be a timing range line: the colon slot of
the pattern would have to hold a digit. -/
theorem vttTs_digits (t : List Char) (h : ∀ c ∈ t, c.isDigit = true) :
    vttTsLineMatch t = false := by
  cases t with
  | nil => rfl
  | cons a t1 =>
      have ha := h a (by simp)
      cases t1 with
      | nil => simp [vttTsLineMatch, eatTimestamp, eatDigitsN, ha]
      | cons b t2 =>
          have hb := h b (by simp)
          cases t2 with
          | nil => simp [vttTsLineMatch, eatTimestamp, eatDigitsN, eatLit, ha, hb]
          | cons e t3 =>
              have he := h e (by simp)
              have hene := digit_ne_colon e he
              simp [vttTsLineMatch, eatTimestamp, eatDigitsN, eatLit, ha, hb, hene]

theorem digit_not_ws (c : Char) (h : c.isDigit = true) : isPyWs c = false := by
  by_contra hx
  simp only [Bool.not_eq_false] at hx
  unfold isPyWs at hx
  simp only [Bool.or_eq_true, decide_eq_true_eq] at hx
  rcases hx with (((((h1 | h1) | h1) | h1) | h1) | h1) <;> subst h1 <;>
    exact absurd h (by decide)

theorem dropWhile_no (p : Char → Bool) (t : List Char)
    (h : ∀ c ∈ t, p c = false) : t.dropWhile p = t := by
  cases t with
  | nil => rfl
  | cons c r =>
      rw [List.dropWhile_cons_of_neg]
      simp [h c (by simp)]

theorem stripL_no_ws (t : List Char) (h : ∀ c ∈ t, isPyWs c = false) :
    stripL t = t := by
  unfold stripL
  rw [dropWhile_no isPyWs t h,
      dropWhile_no isPyWs t.reverse (fun c hc => h c (List.mem_reverse.mp hc)),
      List.reverse_reverse]

/-- A nonempty all digit line is dropped as a cue index. -/
theorem keepLine_digits (t : List Char) (hne : t ≠ [])
    (h : ∀ c ∈ t, c.isDigit = true) :
    keepLine t = Option.none := by
  unfold keepLine
  rw [vttTs_digits t h]
  have hsub : inlineSub t = t := inlineSubGo_digits t false h
  dsimp only
  rw [hsub, stripL_no_ws t (fun c hc => digit_not_ws c (h c hc))]
  have hd : isdigitL t = true := by
    unfold isdigitL
    simp only [List.isEmpty_iff, hne, List.all_eq_true, Bool.and_eq_true, Bool.not_eq_true]
    exact ⟨by simp [List.isEmpty_iff, hne], h⟩
  rw [hd]
  have hemp : t.isEmpty = false := by
    simp [List.isEmpty_iff, hne]
  rw [hemp]
  rfl

/-- The inline substitution leaves a digit free prefix in place. -/
theorem inlineSub_nondigit_prefix (p : List Char) : ∀ (prev : Bool) (t : List Char),
    (∀ c ∈ p, c.isDigit = false) →
    ∃ prev2, inlineSubGo 0 prev (p ++ t) = p ++ inlineSubGo 0 prev2 t := by
  induction p with
  | nil =>
      intro prev t _
      exact ⟨prev, rfl⟩
  | cons c p2 ih =>
      intro prev t h
      rw [List.cons_append, inlineSubGo_nondigit prev c (p2 ++ t) (h c (by simp))]
      obtain ⟨prev2, hp⟩ := ih (isWordC c) t (fun d hd => h d (by simp [hd]))
      exact ⟨prev2, by rw [hp, List.cons_append]⟩

/-- Stripping keeps a nonempty whitespace free prefix in place. -/
theorem strip_keep_prefix (p s : List Char) (hne : p ≠ [])
    (h : ∀ c ∈ p, isPyWs c = false) :
    ∃ r2, stripL (p ++ s) = p ++ r2 := by
  unfold stripL
  have h1 : (p ++ s).dropWhile isPyWs = p ++ s := by
    cases p with
    | nil => exact absurd rfl hne
    | cons c r =>
        rw [List.cons_append, List.dropWhile_cons_of_neg]
        simp [h c (by simp)]
  rw [h1, List.reverse_append, List.dropWhile_append]
  by_cases hcase : (s.reverse.dropWhile isPyWs).isEmpty = true
  · rw [if_pos hcase]
    rw [dropWhile_no isPyWs p.reverse (fun c hc => h c (List.mem_reverse.mp hc))]
    exact ⟨[], by simp⟩
  · rw [if_neg hcase]
    refine ⟨(s.reverse.dropWhile isPyWs).reverse, ?_⟩
    rw [List.reverse_append, List.reverse_reverse]

theorem toLower_low (c : Char) (h : c.toNat < 65) : c.toLower = c := by
  unfold Char.toLower
  rw [if_neg]
  intro hx
  omega

theorem digit_toLower (c : Char) (h : c.isDigit = true) : c.toLower = c := by
  obtain ⟨_, h2⟩ := digit_toNat_bounds c h
  exact toLower_low c (by omega)

theorem ws_toNat_low (c : Char) (h : isPyWs c = true) : c.toNat < 65 := by
  unfold isPyWs at h
  simp only [Bool.or_eq_true, decide_eq_true_eq] at h
  rcases h with (((((h1 | h1) | h1) | h1) | h1) | h1) <;> subst h1 <;> decide

theorem vttTs_head_nondigit (c : Char) (t : List Char) (h : c.isDigit = false) :
    vttTsLineMatch (c :: t) = false := by
  simp [vttTsLineMatch, eatTimestamp, eatDigitsN, h]

/-- A line that begins, case insensitively, with one of the caption
header tokens is dropped by the per line step. -/
theorem keepLine_header (t : List Char) (h : isHeaderLine t = true) :
    keepLine t = Option.none := by
  unfold isHeaderLine at h
  rw [List.any_eq_true] at h
  obtain ⟨tok, htokmem, htok⟩ := h
  rw [List.isPrefixOf_iff_prefix] at htok
  obtain ⟨rest0, hpre⟩ := htok
  unfold lowerL at hpre
  rw [List.append_eq_map_iff] at hpre
  obtain ⟨p, r, rfl, hp, _⟩ := hpre
  have htokfacts : (∀ c ∈ tok, c.isDigit = false ∧ isPyWs c = false) ∧ tok ≠ [] := by
    have hmem : tok ∈ headerTokens := htokmem
    simp only [headerTokens, List.mem_cons, List.not_mem_nil, or_false] at hmem
    rcases hmem with h1 | h1 | h1 <;> subst h1 <;> exact ⟨by decide, by decide⟩
  have hpne : p ≠ [] := by
    intro hx
    subst hx
    exact htokfacts.2 (by simpa using hp.symm)
  have hpdig : ∀ c ∈ p, c.isDigit = false := by
    intro c hc
    by_contra hx
    simp only [Bool.not_eq_false] at hx
    have hmem : c.toLower ∈ tok := by
      rw [← hp]
      exact List.mem_map_of_mem Char.toLower hc
    rw [digit_toLower c hx] at hmem
    exact absurd hx (by simpa using (htokfacts.1 c hmem).1)
  have hpws : ∀ c ∈ p, isPyWs c = false := by
    intro c hc
    by_contra hx
    simp only [Bool.not_eq_false] at hx
    have hmem : c.toLower ∈ tok := by
      rw [← hp]
      exact List.mem_map_of_mem Char.toLower hc
    rw [toLower_low c (ws_toNat_low c hx)] at hmem
    exact absurd hx (by simpa using (htokfacts.1 c hmem).2)
  unfold keepLine
  obtain ⟨c0, p0, rfl⟩ : ∃ c0 p0, p = c0 :: p0 := by
    cases p with
    | nil => exact absurd rfl hpne
    | cons a b => exact ⟨a, b, rfl⟩
  rw [List.cons_append, vttTs_head_nondigit c0 (p0 ++ r) (hpdig c0 (by simp))]
  dsimp only
  obtain ⟨prev2, hsub⟩ := inlineSub_nondigit_prefix (c0 :: p0) false r hpdig
  unfold inlineSub
  rw [List.cons_append] at hsub
  rw [hsub]
  obtain ⟨r2, hstrip⟩ :=
    strip_keep_prefix (c0 :: p0) (inlineSubGo 0 prev2 r) hpne hpws
  simp only [List.cons_append] at hstrip ⊢
  rw [hstrip]
  have hemp : (c0 :: (p0 ++ r2)).isEmpty = false := by
    simp
  rw [hemp]
  have hdig : isdigitL (c0 :: (p0 ++ r2)) = false := by
    unfold isdigitL
    have hall : (c0 :: (p0 ++ r2)).all Char.isDigit = false := by
      rw [List.all_cons, hpdig c0 (by simp), Bool.false_and]
    rw [hall, Bool.and_false]
  rw [hdig]
  have hhead : isHeaderLine (c0 :: (p0 ++ r2)) = true := by
    unfold isHeaderLine
    rw [List.any_eq_true]
    refine ⟨tok, htokmem, ?_⟩
    rw [List.isPrefixOf_iff_prefix]
    unfold lowerL
    rw [← List.cons_append, List.map_append, ← hp]
    exact List.prefix_append _ _
  rw [hhead]
  rfl

/-- Presence of a whitespace run of length at least two. -/
def hasWsRun : List Char → Bool
  | c :: d :: rest => (isPyWs c && isPyWs d) || hasWsRun (d :: rest)
  | _ => false

/-- The collapse scan in skip mode emits a non whitespace head. -/
theorem collapseGo_true_head (l : List Char) : ∀ (c : Char) (t2 : List Char),
    collapseGo true l = c :: t2 → isPyWs c = false := by
  induction l with
  | nil =>
      intro c t2 h
      cases h
  | cons a rest ih =>
      intro c t2 h
      unfold collapseGo at h
      by_cases ha : isPyWs a = true
      · rw [if_pos ha, if_pos rfl] at h
        exact ih c t2 h
      · rw [if_neg ha] at h
        cases h
        simpa using ha

theorem collapseGo_false_nonws (d : Char) (r : List Char) (h : isPyWs d = false) :
    collapseGo false (d :: r) = d :: collapseGo false r := by
  conv_lhs => unfold collapseGo
  rw [if_neg (by simp [h])]

/-- The collapse output never contains a whitespace run. -/
theorem collapseGo_no_run (l : List Char) : ∀ (b : Bool),
    hasWsRun (collapseGo b l) = false := by
  induction l with
  | nil =>
      intro b
      rfl
  | cons c rest ih =>
      intro b
      unfold collapseGo
      by_cases hc : isPyWs c = true
      · rw [if_pos hc]
        cases b with
        | true =>
            rw [if_pos rfl]
            exact ih true
        | false =>
            rw [if_neg (by simp)]
            cases rest with
            | nil => rfl
            | cons d r2 =>
                dsimp only
                by_cases hd : isPyWs d = true
                · rw [if_pos hd]
                  cases hout : collapseGo true (d :: r2) with
                  | nil => rfl
                  | cons e t2 =>
                      unfold hasWsRun
                      rw [collapseGo_true_head (d :: r2) e t2 hout]
                      simp only [Bool.and_false, Bool.false_or]
                      have hrun := ih true
                      rw [hout] at hrun
                      exact hrun
                · rw [if_neg hd]
                  have hd2 : isPyWs d = false := by
                    simpa using hd
                  rw [collapseGo_false_nonws d r2 hd2]
                  unfold hasWsRun
                  rw [hc, hd2]
                  simp only [Bool.and_false, Bool.false_or]
                  have hrun := ih false
                  rw [collapseGo_false_nonws d r2 hd2] at hrun
                  exact hrun
      · rw [if_neg hc]
        cases hout : collapseGo false rest with
        | nil => rfl
        | cons e t2 =>
            unfold hasWsRun
            have hc2 : isPyWs c = false := by
              simpa using hc
            rw [hc2]
            simp only [Bool.false_and, Bool.false_or]
            have hrun := ih false
            rw [hout] at hrun
            exact hrun

theorem hasWsRun_append_right (t s : List Char) (h : hasWsRun t = true) :
    hasWsRun (t ++ s) = true := by
  induction t with
  | nil => cases h
  | cons c t2 ih =>
      cases t2 with
      | nil => cases h
      | cons d t3 =>
          rw [List.cons_append, List.cons_append]
          unfold hasWsRun at h ⊢
          simp only [Bool.or_eq_true] at h ⊢
          rcases h with h | h
          · exact Or.inl h
          · refine Or.inr ?_
            have := ih h
            rw [List.cons_append] at this
            exact this

theorem hasWsRun_append_left (p t : List Char) (h : hasWsRun t = true) :
    hasWsRun (p ++ t) = true := by
  induction p with
  | nil => simpa using h
  | cons c p2 ih =>
      rw [List.cons_append]
      cases hsh : p2 ++ t with
      | nil =>
          rw [hsh] at ih
          cases t with
          | nil => cases h
          | cons x y => simp at hsh
      | cons e t2 =>
          unfold hasWsRun
          rw [← hsh, ih]
          simp

/-- The stripped list sits inside the original between two whitespace
runs. -/
theorem stripL_infix (l : List Char) :
    ∃ w1 w2, l = w1 ++ stripL l ++ w2 := by
  unfold stripL
  refine ⟨l.takeWhile isPyWs,
    ((l.dropWhile isPyWs).reverse.takeWhile isPyWs).reverse, ?_⟩
  conv_lhs => rw [← List.takeWhile_append_dropWhile isPyWs l]
  rw [List.append_assoc]
  congr 1
  conv_lhs => rw [← List.reverse_reverse (l.dropWhile isPyWs),
    ← List.takeWhile_append_dropWhile isPyWs (l.dropWhile isPyWs).reverse]
  rw [List.reverse_append]

theorem hasWsRun_stripL (l : List Char) (h : hasWsRun l = false) :
    hasWsRun (stripL l) = false := by
  by_contra hx
  simp only [Bool.not_eq_false] at hx
  obtain ⟨w1, w2, hw⟩ := stripL_infix l
  rw [hw] at h
  rw [hasWsRun_append_right _ w2 (hasWsRun_append_left w1 _ hx)] at h
  cases h

/-- The collapse is the identity on a run free list. -/
theorem collapseGo_id_no_run (l : List Char) (h : hasWsRun l = false) :
    collapseGo false l = l := by
  induction l with
  | nil => rfl
  | cons c rest ih =>
      have hrest : hasWsRun rest = false := by
        cases rest with
        | nil => rfl
        | cons d r2 =>
            unfold hasWsRun at h
            simp only [Bool.or_eq_false_iff] at h
            exact h.2
      unfold collapseGo
      by_cases hc : isPyWs c = true
      · rw [if_pos hc, if_neg (by simp)]
        cases rest with
        | nil => rfl
        | cons d r2 =>
            have hd : isPyWs d = false := by
              unfold hasWsRun at h
              simp only [Bool.or_eq_false_iff, Bool.and_eq_false_iff] at h
              rcases h.1 with h1 | h1
              · rw [hc] at h1
                cases h1
              · exact h1
            dsimp only
            rw [if_neg (by simp [hd])]
            rw [ih hrest]
      · rw [if_neg hc]
        rw [ih hrest]

theorem dropWhile_head_not_ws (l : List Char) (c : Char) (t : List Char)
    (h : l.dropWhile isPyWs = c :: t) : isPyWs c = false := by
  have hx := List.head?_dropWhile_not isPyWs l
  rw [h] at hx
  exact hx

/-- Stripping is idempotent. -/
theorem stripL_idem (l : List Char) : stripL (stripL l) = stripL l := by
  have hrev : (stripL l).reverse = (l.dropWhile isPyWs).reverse.dropWhile isPyWs := by
    unfold stripL
    rw [List.reverse_reverse]
  have h2 : (stripL l).reverse.dropWhile isPyWs = (stripL l).reverse := by
    rw [hrev]
    cases hv : (l.dropWhile isPyWs).reverse.dropWhile isPyWs with
    | nil => rfl
    | cons x y =>
        rw [List.dropWhile_cons_of_neg]
        simp [dropWhile_head_not_ws _ x y hv]
  have h1 : (stripL l).dropWhile isPyWs = stripL l := by
    cases hs : stripL l with
    | nil => rfl
    | cons c t =>
        have hpre : ∃ w, l.dropWhile isPyWs = stripL l ++ w := by
          unfold stripL
          refine ⟨((l.dropWhile isPyWs).reverse.takeWhile isPyWs).reverse, ?_⟩
          conv_lhs => rw [← List.reverse_reverse (l.dropWhile isPyWs),
            ← List.takeWhile_append_dropWhile isPyWs (l.dropWhile isPyWs).reverse]
          rw [List.reverse_append]
        obtain ⟨w, hw⟩ := hpre
        rw [hs] at hw
        have hc : isPyWs c = false :=
          dropWhile_head_not_ws l c (t ++ w) (by rw [hw, List.cons_append])
        rw [List.dropWhile_cons_of_neg]
        simp [hc]
  show (((stripL l).dropWhile isPyWs).reverse.dropWhile isPyWs).reverse = stripL l
  rw [h1, h2, List.reverse_reverse]

/-- C7: the caption filter drops every line matching the timing range
pattern (in particular the exact line of the claim, which filters to the
empty result), replaces every word bounded inline short timecode token
with a single space while the surrounding words survive, drops purely
numeric lines and lines beginning case insensitively with the caption
header tokens, joins the surviving lines with single spaces, and the
collapse leaves no run of two or more whitespace characters anywhere in
the output. -/
theorem c7_caption_filter :
    (∀ (l1 l2 : List (List Char)) (t : List Char), vttTsLineMatch t = true →
       keptLines (l1 ++ t :: l2) = keptLines (l1 ++ l2)) ∧
    vttTsLineMatch "00:00:01.000 --> 00:00:04.000".data = true ∧
    parse_vtt "00:00:01.000 --> 00:00:04.000" = "" ∧
    parse_vtt "intro 0:12 outro" = "intro outro" ∧
    (∀ (l1 l2 : List (List Char)) (t : List Char), t ≠ [] →
       (∀ c ∈ t, c.isDigit = true) →
       keptLines (l1 ++ t :: l2) = keptLines (l1 ++ l2)) ∧
    (∀ (l1 l2 : List (List Char)) (t : List Char), isHeaderLine t = true →
       keptLines (l1 ++ t :: l2) = keptLines (l1 ++ l2)) ∧
    (∀ t : List Char, hasWsRun (parseVttL t) = false) := by
  refine ⟨?_, by decide, by decide, by decide, ?_, ?_, ?_⟩
  · intro l1 l2 t h
    exact keptLines_middle l1 l2 t (keepLine_ts t h)
  · intro l1 l2 t hne h
    exact keptLines_middle l1 l2 t (keepLine_digits t hne h)
  · intro l1 l2 t h
    exact keptLines_middle l1 l2 t (keepLine_header t h)
  · intro t
    unfold parseVttL
    exact hasWsRun_stripL _ (collapseGo_no_run _ false)

/-- Witness for C7 at a concrete timing line, cue index and header. -/
theorem c7_caption_filter_witness :
    keptLines (["a".data] ++ "00:00:01.000 --> 00:00:04.000".data :: ["b".data]) =
      keptLines (["a".data] ++ ["b".data]) ∧
    keptLines (["a".data] ++ "17".data :: ["b".data]) =
      keptLines (["a".data] ++ ["b".data]) ∧
    keptLines (["a".data] ++ "Kind: captions".data :: ["b".data]) =
      keptLines (["a".data] ++ ["b".data]) :=
  ⟨c7_caption_filter.1 ["a".data] ["b".data] "00:00:01.000 --> 00:00:04.000".data (by decide),
   c7_caption_filter.2.2.2.2.1 ["a".data] ["b".data] "17".data (by decide) (by decide),
   c7_caption_filter.2.2.2.2.2.1 ["a".data] ["b".data] "Kind: captions".data (by decide)⟩

/-- Full match test of the fraction suffix of the inline pattern. -/
def fracFull : List Char → Bool
  | [] => true
  | ['.', a] => a.isDigit
  | ['.', a, b] => a.isDigit && b.isDigit
  | ['.', a, b, c] => a.isDigit && b.isDigit && c.isDigit
  | _ => false

/-- Full match test of the optional seconds group with fraction of the
inline pattern. -/
def groupFull (r : List Char) : Bool :=
  (match r with
   | ':' :: c :: d :: rest => c.isDigit && d.isDigit && fracFull rest
   | _ => false) || fracFull r

/-- Full match test of the whole inline timecode pattern against a
consumed character block. -/
def timecodeFull (w : List Char) : Bool :=
  (match w with
   | a :: b :: ':' :: c :: d :: rest =>
       a.isDigit && b.isDigit && c.isDigit && d.isDigit && groupFull rest
   | _ => false) ||
  (match w with
   | a :: ':' :: c :: d :: rest => a.isDigit && c.isDigit && d.isDigit && groupFull rest
   | _ => false)

/-- Shape of a successful inline match: the consumed block matches the
pattern in full, the trailing word boundary holds, and the length is in
range. -/
def matchShapeB (l : List Char) (n : Nat) : Bool :=
  Nat.ble n l.length && timecodeFull (l.take n) && endsOkB (l.drop n)

theorem orElse_isSome (x y : Option Nat) :
    (x <|> y).isSome = (x.isSome || y.isSome) := by
  cases x <;> cases y <;> rfl

theorem fracFull_facts (f : List Char) (h : fracFull f = true) :
    f.length ≤ 4 ∧ (∀ c ∈ f, (c.isDigit || c = ':' || c = '.') = true) ∧
    (f ≠ [] → ∃ d, f.getLast? = some d ∧ d.isDigit = true) := by
  unfold fracFull at h
  split at h
  · exact ⟨by simp, by simp, fun hne => absurd rfl hne⟩
  · rename_i a
    refine ⟨by simp, ?_, ?_⟩
    · intro c hc
      rcases (by simpa using hc : c = '.' ∨ c = a) with rfl | rfl
      · rfl
      · simp [h]
    · intro _
      exact ⟨a, by simp, h⟩
  · rename_i a b
    simp only [Bool.and_eq_true] at h
    refine ⟨by simp, ?_, ?_⟩
    · intro c hc
      rcases (by simpa using hc : c = '.' ∨ c = a ∨ c = b) with rfl | rfl | rfl
      · rfl
      · simp [h.1]
      · simp [h.2]
    · intro _
      exact ⟨b, by simp, h.2⟩
  · rename_i a b c
    simp only [Bool.and_eq_true] at h
    refine ⟨by simp, ?_, ?_⟩
    · intro e he
      rcases (by simpa using he : e = '.' ∨ e = a ∨ e = b ∨ e = c) with rfl | rfl | rfl | rfl
      · rfl
      · simp [h.1.1]
      · simp [h.1.2]
      · simp [h.2]
    · intro _
      exact ⟨c, by simp, h.2⟩
  · cases h

theorem groupFull_facts (g : List Char) (h : groupFull g = true) :
    g.length ≤ 7 ∧ (∀ c ∈ g, (c.isDigit || c = ':' || c = '.') = true) ∧
    (g ≠ [] → ∃ d, g.getLast? = some d ∧ d.isDigit = true) := by
  unfold groupFull at h
  simp only [Bool.or_eq_true] at h
  rcases h with h | h
  · split at h
    · rename_i c d rest
      simp only [Bool.and_eq_true] at h
      obtain ⟨hf1, hf2, hf3⟩ := fracFull_facts rest h.2
      refine ⟨by simp; omega, ?_, ?_⟩
      · intro e he
        rcases (by simpa using he : e = ':' ∨ e = c ∨ e = d ∨ e ∈ rest) with rfl | rfl | rfl | hm
        · rfl
        · simp [h.1.1]
        · simp [h.1.2]
        · exact hf2 e hm
      · intro _
        cases hrest : rest with
        | nil =>
            refine ⟨d, ?_, h.1.2⟩
            subst hrest
            rfl
        | cons x y =>
            obtain ⟨d2, hd2, hd2d⟩ := hf3 (by simp [hrest])
            refine ⟨d2, ?_, hd2d⟩
            subst hrest
            simpa [List.getLast?_cons_cons] using hd2
    · cases h
  · obtain ⟨hf1, hf2, hf3⟩ := fracFull_facts g h
    exact ⟨by omega, hf2, hf3⟩

theorem timecodeFull_facts (w : List Char) (h : timecodeFull w = true) :
    4 ≤ w.length ∧ w.length ≤ 12 ∧
    (∀ c ∈ w, (c.isDigit || c = ':' || c = '.') = true) ∧
    (∃ d, w.getLast? = some d ∧ d.isDigit = true) := by
  unfold timecodeFull at h
  simp only [Bool.or_eq_true] at h
  rcases h with h | h
  · split at h
    · rename_i a b c d g
      simp only [Bool.and_eq_true] at h
      obtain ⟨⟨⟨⟨ha, hb⟩, hc⟩, hd⟩, hg⟩ := h
      obtain ⟨hg1, hg2, hg3⟩ := groupFull_facts g hg
      refine ⟨by simp, by simp; omega, ?_, ?_⟩
      · intro e he
        rcases (by simpa using he :
            e = a ∨ e = b ∨ e = ':' ∨ e = c ∨ e = d ∨ e ∈ g) with
          rfl | rfl | rfl | rfl | rfl | hm
        · simp [ha]
        · simp [hb]
        · rfl
        · simp [hc]
        · simp [hd]
        · exact hg2 e hm
      · cases hg0 : g with
        | nil =>
            refine ⟨d, ?_, hd⟩
            subst hg0
            rfl
        | cons x y =>
            obtain ⟨d2, hd2, hd2d⟩ := hg3 (by simp [hg0])
            refine ⟨d2, ?_, hd2d⟩
            subst hg0
            simpa [List.getLast?_cons_cons] using hd2
    · cases h
  · split at h
    · rename_i a c d g
      simp only [Bool.and_eq_true] at h
      obtain ⟨⟨⟨ha, hc⟩, hd⟩, hg⟩ := h
      obtain ⟨hg1, hg2, hg3⟩ := groupFull_facts g hg
      refine ⟨by simp, by simp; omega, ?_, ?_⟩
      · intro e he
        rcases (by simpa using he :
            e = a ∨ e = ':' ∨ e = c ∨ e = d ∨ e ∈ g) with
          rfl | rfl | rfl | rfl | hm
        · simp [ha]
        · rfl
        · simp [hc]
        · simp [hd]
        · exact hg2 e hm
      · cases hg0 : g with
        | nil =>
            refine ⟨d, ?_, hd⟩
            subst hg0
            rfl
        | cons x y =>
            obtain ⟨d2, hd2, hd2d⟩ := hg3 (by simp [hg0])
            refine ⟨d2, ?_, hd2d⟩
            subst hg0
            simpa [List.getLast?_cons_cons] using hd2
    · cases h

theorem orElse_eq_some_iff (x y : Option Nat) (m : Nat) :
    (x <|> y) = some m ↔ x = some m ∨ (x = Option.none ∧ y = some m) := by
  cases x <;> simp

theorem frac3_some (r : List Char) (len m : Nat) (h : frac3 r len = some m) :
    ∃ a b c rest, r = '.' :: a :: b :: c :: rest ∧ a.isDigit = true ∧
      b.isDigit = true ∧ c.isDigit = true ∧ endsOkB rest = true ∧ m = len + 4 := by
  unfold frac3 at h
  split at h
  · rename_i a b c rest
    split at h
    · rename_i hcond
      simp only [Bool.and_eq_true] at hcond
      exact ⟨a, b, c, rest, rfl, hcond.1.1.1, hcond.1.1.2, hcond.1.2, hcond.2,
        by injection h with h2; omega⟩
    · cases h
  · cases h

theorem frac2_some (r : List Char) (len m : Nat) (h : frac2 r len = some m) :
    ∃ a b rest, r = '.' :: a :: b :: rest ∧ a.isDigit = true ∧
      b.isDigit = true ∧ endsOkB rest = true ∧ m = len + 3 := by
  unfold frac2 at h
  split at h
  · rename_i a b rest
    split at h
    · rename_i hcond
      simp only [Bool.and_eq_true] at hcond
      exact ⟨a, b, rest, rfl, hcond.1.1, hcond.1.2, hcond.2,
        by injection h with h2; omega⟩
    · cases h
  · cases h

theorem frac1_some (r : List Char) (len m : Nat) (h : frac1 r len = some m) :
    ∃ a rest, r = '.' :: a :: rest ∧ a.isDigit = true ∧
      endsOkB rest = true ∧ m = len + 2 := by
  unfold frac1 at h
  split at h
  · rename_i a rest
    split at h
    · rename_i hcond
      simp only [Bool.and_eq_true] at hcond
      exact ⟨a, rest, rfl, hcond.1, hcond.2, by injection h with h2; omega⟩
    · cases h
  · cases h

theorem frac0_some (r : List Char) (len m : Nat) (h : frac0 r len = some m) :
    endsOkB r = true ∧ m = len := by
  unfold frac0 at h
  split at h
  · exact ⟨by assumption, by injection h with h2; omega⟩
  · cases h

theorem tryFrac_spec (r : List Char) (len m : Nat) (h : tryFrac r len = some m) :
    len ≤ m ∧ m - len ≤ r.length ∧ fracFull (r.take (m - len)) = true ∧
    endsOkB (r.drop (m - len)) = true := by
  unfold tryFrac at h
  rcases (orElse_eq_some_iff _ _ _).1 h with h3 | ⟨_, h⟩
  · obtain ⟨a, b, c, rest, rfl, ha, hb, hc, he, rfl⟩ := frac3_some _ _ _ h3
    have hml : len + 4 - len = 4 := by omega
    rw [hml]
    exact ⟨by omega, by simp, by simp [fracFull, ha, hb, hc], by simpa using he⟩
  rcases (orElse_eq_some_iff _ _ _).1 h with h2 | ⟨_, h⟩
  · obtain ⟨a, b, rest, rfl, ha, hb, he, rfl⟩ := frac2_some _ _ _ h2
    have hml : len + 3 - len = 3 := by omega
    rw [hml]
    exact ⟨by omega, by simp, by simp [fracFull, ha, hb], by simpa using he⟩
  rcases (orElse_eq_some_iff _ _ _).1 h with h1 | ⟨_, h⟩
  · obtain ⟨a, rest, rfl, ha, he, rfl⟩ := frac1_some _ _ _ h1
    have hml : len + 2 - len = 2 := by omega
    rw [hml]
    exact ⟨by omega, by simp, by simp [fracFull, ha], by simpa using he⟩
  · obtain ⟨he, hm⟩ := frac0_some _ _ _ h
    have hml : m - len = 0 := by omega
    rw [hml]
    exact ⟨by omega, by simp, by simp [fracFull], by simpa using he⟩

theorem tryGroups_spec (r : List Char) (len m : Nat) (h : tryGroups r len = some m) :
    len ≤ m ∧ m - len ≤ r.length ∧ groupFull (r.take (m - len)) = true ∧
    endsOkB (r.drop (m - len)) = true := by
  unfold tryGroups at h
  rcases (orElse_eq_some_iff _ _ _).1 h with hg | ⟨_, hf⟩
  · split at hg
    · rename_i c d rest
      split at hg
      · rename_i hcd
        simp only [Bool.and_eq_true] at hcd
        obtain ⟨hle, hlen, hfr, hend⟩ := tryFrac_spec _ _ _ hg
        obtain ⟨j, rfl⟩ : ∃ j, m = len + 3 + j := ⟨m - (len + 3), by omega⟩
        have hml : len + 3 + j - len = j + 1 + 1 + 1 := by omega
        have hml2 : len + 3 + j - (len + 3) = j := by omega
        rw [hml2] at hfr hend hlen
        rw [hml]
        refine ⟨by omega, by simp; omega, ?_, by simpa using hend⟩
        simp only [List.take_succ_cons]
        unfold groupFull
        simp [hcd.1, hcd.2, hfr]
      · cases hg
    · cases hg
  · obtain ⟨hle, hlen, hfr, hend⟩ := tryFrac_spec _ _ _ hf
    refine ⟨hle, hlen, ?_, hend⟩
    unfold groupFull
    simp [hfr]

theorem inlineAt_shape (l : List Char) (n : Nat) (h : inlineAt l = some n) :
    matchShapeB l n = true := by
  unfold inlineAt at h
  rcases (orElse_eq_some_iff _ _ _).1 h with h2 | ⟨_, h1⟩
  · unfold try2 at h2
    split at h2
    · rename_i a b c d rest
      split at h2
      · rename_i hdig
        simp only [Bool.and_eq_true] at hdig
        obtain ⟨hle, hlen, hgr, hend⟩ := tryGroups_spec _ _ _ h2
        obtain ⟨j, rfl⟩ : ∃ j, n = 5 + j := ⟨n - 5, by omega⟩
        have hml : 5 + j - 5 = j := by omega
        rw [hml] at hgr hend hlen
        have h5 : 5 + j = j + 1 + 1 + 1 + 1 + 1 := by omega
        unfold matchShapeB
        rw [h5]
        simp only [List.take_succ_cons, List.drop_succ_cons, Bool.and_eq_true]
        refine ⟨⟨?_, ?_⟩, by simpa using hend⟩
        · simp only [Nat.ble_eq, List.length_cons]
          omega
        · unfold timecodeFull
          simp [hdig.1.1.1, hdig.1.1.2, hdig.1.2, hdig.2, hgr]
      · cases h2
    · cases h2
  · unfold try1 at h1
    split at h1
    · rename_i a c d rest
      split at h1
      · rename_i hdig
        simp only [Bool.and_eq_true] at hdig
        obtain ⟨hle, hlen, hgr, hend⟩ := tryGroups_spec _ _ _ h1
        obtain ⟨j, rfl⟩ : ∃ j, n = 4 + j := ⟨n - 4, by omega⟩
        have hml : 4 + j - 4 = j := by omega
        rw [hml] at hgr hend hlen
        have h4 : 4 + j = j + 1 + 1 + 1 + 1 := by omega
        unfold matchShapeB
        rw [h4]
        simp only [List.take_succ_cons, List.drop_succ_cons, Bool.and_eq_true]
        refine ⟨⟨?_, ?_⟩, by simpa using hend⟩
        · simp only [Nat.ble_eq, List.length_cons]
          omega
        · unfold timecodeFull
          simp [hdig.1.1, hdig.1.2, hdig.2, hgr]
      · cases h1
    · cases h1

theorem tryFrac_isSome (f e : List Char) (len : Nat) (hf : fracFull f = true)
    (he : endsOkB e = true) : (tryFrac (f ++ e) len).isSome = true := by
  unfold tryFrac
  rw [orElse_isSome, orElse_isSome, orElse_isSome]
  unfold fracFull at hf
  split at hf
  · have h0 : frac0 e len = some len := by
      unfold frac0
      simp [he]
    simp [h0]
  · rename_i a
    have h1 : frac1 ('.' :: a :: e) len = some (len + 2) := by
      unfold frac1
      simp [hf, he]
    simp [h1]
  · rename_i a b
    simp only [Bool.and_eq_true] at hf
    have h2 : frac2 ('.' :: a :: b :: e) len = some (len + 3) := by
      unfold frac2
      simp [hf.1, hf.2, he]
    simp [h2]
  · rename_i a b c
    simp only [Bool.and_eq_true] at hf
    have h3 : frac3 ('.' :: a :: b :: c :: e) len = some (len + 4) := by
      unfold frac3
      simp [hf.1.1, hf.1.2, hf.2, he]
    simp [h3]
  · cases hf

theorem tryGroups_isSome (g e : List Char) (len : Nat) (hg : groupFull g = true)
    (he : endsOkB e = true) : (tryGroups (g ++ e) len).isSome = true := by
  unfold tryGroups
  rw [orElse_isSome]
  unfold groupFull at hg
  simp only [Bool.or_eq_true] at hg
  rcases hg with hg | hg
  · split at hg
    · rename_i c d rest
      simp only [Bool.and_eq_true] at hg
      have hfr := tryFrac_isSome rest e (len + 3) hg.2 he
      simp only [List.cons_append]
      simp [hg.1.1, hg.1.2, hfr]
    · cases hg
  · have hfr := tryFrac_isSome g e len hg he
    simp [hfr]

theorem inlineAt_of_shape (l : List Char) (n : Nat) (h : matchShapeB l n = true) :
    (inlineAt l).isSome = true := by
  unfold matchShapeB at h
  simp only [Bool.and_eq_true, Nat.ble_eq] at h
  obtain ⟨⟨hle, htc⟩, hend⟩ := h
  unfold timecodeFull at htc
  simp only [Bool.or_eq_true] at htc
  have hsplit : l.take n ++ l.drop n = l := List.take_append_drop n l
  rcases htc with htc | htc
  · split at htc
    · rename_i a b c d g heq
      simp only [Bool.and_eq_true] at htc
      have hl : l = a :: b :: ':' :: c :: d :: (g ++ l.drop n) := by
        conv_lhs => rw [← hsplit, heq]
        simp
      unfold inlineAt
      rw [orElse_isSome]
      have h2 : (try2 l).isSome = true := by
        rw [hl]
        unfold try2
        simp [htc.1.1.1.1, htc.1.1.1.2, htc.1.1.2, htc.1.2,
          tryGroups_isSome g (l.drop n) 5 htc.2 hend]
      simp [h2]
    · cases htc
  · split at htc
    · rename_i a c d g heq
      simp only [Bool.and_eq_true] at htc
      have hl : l = a :: ':' :: c :: d :: (g ++ l.drop n) := by
        conv_lhs => rw [← hsplit, heq]
        simp
      unfold inlineAt
      rw [orElse_isSome]
      have h1 : (try1 l).isSome = true := by
        rw [hl]
        unfold try1
        simp [htc.1.1.1, htc.1.1.2, htc.1.2,
          tryGroups_isSome g (l.drop n) 4 htc.2 hend]
      simp [h1]
    · cases htc

theorem getElem?_take_lt (l : List Char) :
    ∀ (m i : Nat), i < m → (l.take m)[i]? = l[i]? := by
  induction l with
  | nil => intro m i _; simp
  | cons c rest ih =>
      intro m i hlt
      cases m with
      | zero => omega
      | succ m2 =>
          cases i with
          | zero => simp
          | succ i2 =>
              simp only [List.take_succ_cons, List.getElem?_cons_succ]
              exact ih m2 i2 (by omega)

theorem endsOkB_drop (l : List Char) :
    ∀ n : Nat, endsOkB (l.drop n) =
      (match l[n]? with
       | some c => !isWordC c
       | Option.none => true) := by
  induction l with
  | nil => intro n; cases n <;> rfl
  | cons c rest ih =>
      intro n
      cases n with
      | zero => simp [endsOkB]
      | succ n2 =>
          simp only [List.drop_succ_cons, List.getElem?_cons_succ]
          exact ih n2

theorem matchShapeB_ext (x y : List Char) (n : Nat) (hx : matchShapeB x n = true)
    (hxy : x.take (n + 1) = y.take (n + 1)) : matchShapeB y n = true := by
  unfold matchShapeB at hx ⊢
  simp only [Bool.and_eq_true, Nat.ble_eq] at hx ⊢
  obtain ⟨⟨hle, htc⟩, hend⟩ := hx
  have hlen : y.length ≥ n := by
    have h1 : (x.take (n + 1)).length = (y.take (n + 1)).length := by rw [hxy]
    simp only [List.length_take] at h1
    omega
  have htk : y.take n = x.take n := by
    have h1 : (x.take (n + 1)).take n = (y.take (n + 1)).take n := by rw [hxy]
    have hmin : min n (n + 1) = n := by omega
    simpa [List.take_take, hmin] using h1.symm
  have hget : y[n]? = x[n]? := by
    rw [← getElem?_take_lt y (n + 1) n (by omega), ← hxy,
      getElem?_take_lt x (n + 1) n (by omega)]
  refine ⟨⟨hlen, ?_⟩, ?_⟩
  · rw [htk]
    exact htc
  · rw [endsOkB_drop, hget, ← endsOkB_drop]
    exact hend

theorem matchShapeB_facts (l : List Char) (n : Nat) (h : matchShapeB l n = true) :
    4 ≤ n ∧ n ≤ 12 ∧ n ≤ l.length ∧
    (∀ c ∈ l.take n, (c.isDigit || c = ':' || c = '.') = true) ∧
    (∃ d, (l.take n).getLast? = some d ∧ d.isDigit = true) ∧
    endsOkB (l.drop n) = true := by
  unfold matchShapeB at h
  simp only [Bool.and_eq_true, Nat.ble_eq] at h
  obtain ⟨⟨hle, htc⟩, hend⟩ := h
  obtain ⟨h4, h12, hcls, hlast⟩ := timecodeFull_facts _ htc
  have hlen : (l.take n).length = n := by
    simp only [List.length_take]
    omega
  exact ⟨by omega, by omega, hle, hcls, hlast, hend⟩

theorem digit_isWord (c : Char) (h : c.isDigit = true) : isWordC c = true := by
  unfold isWordC Char.isAlphanum
  simp [h]

theorem ws_not_word (c : Char) (h : isPyWs c = true) : isWordC c = false := by
  unfold isPyWs at h
  simp only [Bool.or_eq_true, decide_eq_true_eq] at h
  rcases h with ((((rfl | rfl) | rfl) | rfl) | rfl) | rfl <;> decide

theorem ws_not_digit (c : Char) (h : isPyWs c = true) : c.isDigit = false := by
  by_contra hx
  simp only [Bool.not_eq_false] at hx
  have := digit_isWord c hx
  rw [ws_not_word c h] at this
  cases this

theorem class_not_ws (c : Char) (h : (c.isDigit || c = ':' || c = '.') = true) :
    isPyWs c = false := by
  simp only [Bool.or_eq_true, decide_eq_true_eq] at h
  rcases h with (hd | rfl) | rfl
  · exact digit_not_ws c hd
  · decide
  · decide

theorem inlineAt_nil : inlineAt [] = Option.none := rfl

theorem mem_of_getElem?_char (l : List Char) : ∀ (n : Nat) (a : Char),
    l[n]? = some a → a ∈ l := by
  induction l with
  | nil => intro n a h; simp at h
  | cons c r ih =>
      intro n a h
      cases n with
      | zero =>
          simp only [List.getElem?_cons_zero, Option.some.injEq] at h
          simp [h]
      | succ n2 =>
          simp only [List.getElem?_cons_succ] at h
          exact List.mem_cons_of_mem _ (ih n2 a h)

/-- Appending a whitespace-headed suffix does not change whether the
inline timecode pattern matches at the current position. -/
theorem inlineAt_append_ws (u r : List Char)
    (hr : r = [] ∨ ∃ b r2, r = b :: r2 ∧ isPyWs b = true) :
    (inlineAt (u ++ r)).isSome = (inlineAt u).isSome := by
  rcases hr with rfl | ⟨b, r2, rfl, hb⟩
  · simp
  have h1 : (inlineAt u).isSome = true → (inlineAt (u ++ b :: r2)).isSome = true := by
    intro hs
    obtain ⟨n, hu⟩ := Option.isSome_iff_exists.1 hs
    obtain ⟨h4, h12, hle, hcls, hlast, hend⟩ := matchShapeB_facts _ _ (inlineAt_shape _ _ hu)
    apply inlineAt_of_shape _ n
    unfold matchShapeB
    simp only [Bool.and_eq_true, Nat.ble_eq]
    refine ⟨⟨by simp; omega, ?_⟩, ?_⟩
    · rw [List.take_append_of_le_length hle]
      have := inlineAt_shape _ _ hu
      unfold matchShapeB at this
      simp only [Bool.and_eq_true, Nat.ble_eq] at this
      exact this.1.2
    · rw [endsOkB_drop]
      rcases Nat.lt_or_ge n u.length with hlt | hge
      · rw [List.getElem?_append_left hlt]
        rw [endsOkB_drop] at hend
        exact hend
      · have heq : n = u.length := by omega
        rw [List.getElem?_append_right (by omega)]
        rw [heq]
        simp [ws_not_word b hb]
  have h2 : (inlineAt (u ++ b :: r2)).isSome = true → (inlineAt u).isSome = true := by
    intro hs
    obtain ⟨m, hu⟩ := Option.isSome_iff_exists.1 hs
    obtain ⟨h4, h12, hle, hcls, hlast, hend⟩ := matchShapeB_facts _ _ (inlineAt_shape _ _ hu)
    have hm : m ≤ u.length := by
      by_contra hc
      have hlt : u.length < m := by omega
      have hget : (u ++ b :: r2)[u.length]? = some b := by
        rw [List.getElem?_append_right (by omega)]
        simp
      have hmem : b ∈ (u ++ b :: r2).take m := by
        have h5 := getElem?_take_lt (u ++ b :: r2) m u.length hlt
        rw [hget] at h5
        exact mem_of_getElem?_char _ _ _ h5
      have := class_not_ws b (hcls b hmem)
      rw [hb] at this
      cases this
    apply inlineAt_of_shape _ m
    have hshape := inlineAt_shape _ _ hu
    unfold matchShapeB at hshape ⊢
    simp only [Bool.and_eq_true, Nat.ble_eq] at hshape ⊢
    refine ⟨⟨hm, ?_⟩, ?_⟩
    · rw [List.take_append_of_le_length hm] at hshape
      exact hshape.1.2
    · rw [endsOkB_drop]
      rcases Nat.lt_or_ge m u.length with hlt | hge
      · rw [endsOkB_drop, List.getElem?_append_left hlt] at hend
        exact hend
      · have heq : m = u.length := by omega
        rw [heq]
        simp
  cases hx : (inlineAt (u ++ b :: r2)).isSome with
  | true => rw [h2 hx]
  | false =>
      cases hy : (inlineAt u).isSome with
      | true => rw [h1 hy] at hx; cases hx
      | false => rfl

/-- Scanner testing whether the inline timecode pattern matches at some
word boundary of the text; the flag records whether the previous
character of the text is a word character. -/
def inlineHas : Bool → List Char → Bool
  | _, [] => false
  | prevWord, c :: rest =>
      if !prevWord && (inlineAt (c :: rest)).isSome then true
      else inlineHas (isWordC c) rest

theorem inlineHas_nil (b : Bool) : inlineHas b [] = false := by
  cases b <;> rfl

theorem inlineHas_cons (b : Bool) (c : Char) (r : List Char) :
    inlineHas b (c :: r) =
      if !b && (inlineAt (c :: r)).isSome then true else inlineHas (isWordC c) r := by
  conv_lhs => unfold inlineHas

theorem inlineHas_cons_nondigit (b1 b2 : Bool) (c : Char) (r : List Char)
    (h : c.isDigit = false) :
    inlineHas b1 (c :: r) = inlineHas b2 (c :: r) := by
  rw [inlineHas_cons, inlineHas_cons, inlineAt_nondigit c r h]
  simp

theorem inlineHas_ws_cons (b : Bool) (c : Char) (r : List Char)
    (h : isPyWs c = true) :
    inlineHas b (c :: r) = inlineHas false r := by
  rw [inlineHas_cons, inlineAt_nondigit c r (ws_not_digit c h)]
  simp [ws_not_word c h]

theorem inlineHas_ws_list (w : List Char) (hw : ∀ c ∈ w, isPyWs c = true) :
    ∀ b, inlineHas b w = false := by
  induction w with
  | nil => intro b; exact inlineHas_nil b
  | cons c rest ih =>
      intro b
      rw [inlineHas_ws_cons b c rest (hw c (by simp))]
      exact ih (fun d hd => hw d (by simp [hd])) false

theorem inlineHas_ws_front (w : List Char) (hw : ∀ c ∈ w, isPyWs c = true)
    (x : List Char) : inlineHas false (w ++ x) = inlineHas false x := by
  induction w with
  | nil => rfl
  | cons c rest ih =>
      rw [List.cons_append, inlineHas_ws_cons false c (rest ++ x) (hw c (by simp))]
      exact ih (fun d hd => hw d (by simp [hd]))

/-- Scanning a text followed by a whitespace-headed (or empty) suffix
finds a match exactly when either part has one. -/
theorem inlineHas_append_ws (v r : List Char)
    (hr : r = [] ∨ ∃ b r2, r = b :: r2 ∧ isPyWs b = true) :
    ∀ bb, inlineHas bb (v ++ r) = (inlineHas bb v || inlineHas false r) := by
  induction v with
  | nil =>
      intro bb
      simp only [List.nil_append, inlineHas_nil, Bool.false_or]
      rcases hr with rfl | ⟨b, r2, rfl, hb⟩
      · simp [inlineHas_nil]
      · rw [inlineHas_ws_cons bb b r2 hb, inlineHas_ws_cons false b r2 hb]
  | cons c v2 ih =>
      intro bb
      rw [List.cons_append, inlineHas_cons, inlineHas_cons]
      have hpad : (inlineAt (c :: (v2 ++ r))).isSome = (inlineAt (c :: v2)).isSome := by
        have h0 := inlineAt_append_ws (c :: v2) r hr
        rw [List.cons_append] at h0
        exact h0
      rw [hpad]
      cases hcond : (!bb && (inlineAt (c :: v2)).isSome) with
      | true => simp
      | false =>
          simp only [Bool.false_eq_true, if_false]
          exact ih (isWordC c)

theorem inlineHas_dropWhile_ws (x : List Char) :
    inlineHas false (x.dropWhile isPyWs) = false → inlineHas false x = false := by
  intro h
  conv_lhs => rw [← List.takeWhile_append_dropWhile isPyWs x]
  rw [inlineHas_ws_front (x.takeWhile isPyWs)
    (fun c hc => List.mem_takeWhile_imp hc) (x.dropWhile isPyWs)]
  exact h

/-- Dropping characters of a replaced match is the same as restarting
the scan after them with a word character on the left. -/
theorem inlineSubGo_skip_drop (l : List Char) :
    ∀ k : Nat, 1 ≤ k → ∀ b : Bool,
      inlineSubGo k b l = inlineSubGo 0 true (l.drop k) := by
  induction l with
  | nil =>
      intro k hk b
      rw [inlineSubGo_nil]
      simp [inlineSubGo_nil]
  | cons c rest ih =>
      intro k hk b
      obtain ⟨k2, rfl⟩ : ∃ k2, k = k2 + 1 := ⟨k - 1, by omega⟩
      rw [inlineSubGo_skip]
      cases k2 with
      | zero => simp
      | succ k3 =>
          rw [ih (k3 + 1) (by omega) true]
          simp

theorem inlineSubGo_true_cons (c : Char) (t : List Char) :
    inlineSubGo 0 true (c :: t) = c :: inlineSubGo 0 (isWordC c) t := by
  rw [inlineSubGo_zero_cons]
  simp

theorem inlineSubGo_false_none (c : Char) (t : List Char)
    (h : inlineAt (c :: t) = Option.none) :
    inlineSubGo 0 false (c :: t) = c :: inlineSubGo 0 (isWordC c) t := by
  rw [inlineSubGo_zero_cons]
  simp [h]

theorem inlineSubGo_false_some (c : Char) (t : List Char) (n : Nat)
    (h : inlineAt (c :: t) = some n) :
    inlineSubGo 0 false (c :: t) = ' ' :: inlineSubGo (n - 1) true t := by
  rw [inlineSubGo_zero_cons]
  simp [h]

/-- Decomposition of the substitution scan by its first replacement:
either nothing is replaced, or the text splits at the first match site,
which sits at a word boundary. -/
theorem inlineSubGo_decomp : ∀ (t : List Char) (prev : Bool),
    inlineSubGo 0 prev t = t ∨
    ∃ j n, (j = 0 → prev = false) ∧
      (1 ≤ j → ∃ d, t[j - 1]? = some d ∧ isWordC d = false) ∧
      inlineAt (t.drop j) = some n ∧
      inlineSubGo 0 prev t = t.take j ++ ' ' :: inlineSubGo 0 true (t.drop (j + n)) := by
  intro t
  induction t with
  | nil => intro prev; left; rw [inlineSubGo_nil]
  | cons c rest ih =>
      intro prev
      have hstep :
          (c :: inlineSubGo 0 (isWordC c) rest = c :: rest ∨
           ∃ j n, (j = 0 → prev = false) ∧
             (1 ≤ j → ∃ d, (c :: rest)[j - 1]? = some d ∧ isWordC d = false) ∧
             inlineAt ((c :: rest).drop j) = some n ∧
             c :: inlineSubGo 0 (isWordC c) rest =
               (c :: rest).take j ++ ' ' :: inlineSubGo 0 true ((c :: rest).drop (j + n))) := by
        rcases ih (isWordC c) with h | ⟨j, n, hj0, hj1, hAt, heq⟩
        · left; rw [h]
        · right
          refine ⟨j + 1, n, by omega, ?_, ?_, ?_⟩
          · intro _
            cases j with
            | zero =>
                exact ⟨c, by simp, hj0 rfl⟩
            | succ j2 =>
                obtain ⟨d, hd, hdw⟩ := hj1 (by omega)
                exact ⟨d, by simpa using hd, hdw⟩
          · simpa using hAt
          · rw [heq]
            have harith : j + 1 + n = (j + n) + 1 := by omega
            rw [harith]
            simp [List.take_succ_cons, List.drop_succ_cons]
      cases prev with
      | true =>
          rw [inlineSubGo_true_cons]
          exact hstep
      | false =>
          cases hA : inlineAt (c :: rest) with
          | none =>
              rw [inlineSubGo_false_none c rest hA]
              exact hstep
          | some n =>
              rw [inlineSubGo_false_some c rest n hA]
              right
              obtain ⟨h4, h12, hle, hcls, hlast, hend⟩ :=
                matchShapeB_facts _ _ (inlineAt_shape _ _ hA)
              refine ⟨0, n, fun _ => rfl, fun h => absurd h (by omega), by simpa using hA, ?_⟩
              rw [inlineSubGo_skip_drop rest (n - 1) (by omega) true]
              have hdrop : rest.drop (n - 1) = (c :: rest).drop n := by
                obtain ⟨n2, rfl⟩ : ∃ n2, n = n2 + 1 := ⟨n - 1, by omega⟩
                simp
              rw [hdrop]
              simp

/-- Crux lemma: replacing matches to the right of a failed match
attempt cannot create a match at that position. -/
theorem inlineAt_sub_none (c : Char) (t : List Char)
    (h : inlineAt (c :: t) = Option.none) :
    inlineAt (c :: inlineSubGo 0 true t) = Option.none := by
  rcases inlineSubGo_decomp t true with hid | ⟨j, n, hj0, hj1, hAt, heq⟩
  · rw [hid]; exact h
  · have hj : 1 ≤ j := by
      by_contra hc
      have hz : j = 0 := by omega
      have := hj0 hz
      cases this
    obtain ⟨d, hd, hdw⟩ := hj1 hj
    have hjt : j ≤ t.length := by
      by_contra hc
      have : t.drop j = [] := List.drop_eq_nil_of_le (by omega)
      rw [this, inlineAt_nil] at hAt
      cases hAt
    rw [heq]
    cases hA2 : inlineAt (c :: (t.take j ++ ' ' :: inlineSubGo 0 true (t.drop (j + n)))) with
    | none => rfl
    | some m =>
        exfalso
        obtain ⟨h4, h12, hlen, hcls, hlast, hend⟩ :=
          matchShapeB_facts _ _ (inlineAt_shape _ _ hA2)
        have hm : m ≤ j + 1 := by
          by_contra hc
          have hlt : j + 1 < m := by omega
          have hget : (c :: (t.take j ++ ' ' :: inlineSubGo 0 true (t.drop (j + n))))[j + 1]? =
              some ' ' := by
            simp only [List.getElem?_cons_succ]
            rw [List.getElem?_append_right (by simp only [List.length_take]; omega)]
            have hlj : (t.take j).length = j := by simp only [List.length_take]; omega
            rw [hlj]
            simp
          have hmem : ' ' ∈ (c :: (t.take j ++ ' ' :: inlineSubGo 0 true (t.drop (j + n)))).take m := by
            have h5 := getElem?_take_lt
              (c :: (t.take j ++ ' ' :: inlineSubGo 0 true (t.drop (j + n)))) m (j + 1) hlt
            rw [hget] at h5
            exact mem_of_getElem?_char _ _ _ h5
          have := class_not_ws ' ' (hcls ' ' hmem)
          simp [isPyWs] at this
        rcases Nat.lt_or_ge m (j + 1) with hlt | hge
        · -- the probe reads only unchanged characters: transfer to the original
          have htake : (c :: (t.take j ++ ' ' :: inlineSubGo 0 true (t.drop (j + n)))).take (m + 1) =
              (c :: t).take (m + 1) := by
            simp only [List.take_succ_cons]
            congr 1
            rw [List.take_append_of_le_length (by simp only [List.length_take]; omega)]
            rw [List.take_take]
            congr 1
            omega
          have hsh := matchShapeB_ext _ _ m (inlineAt_shape _ _ hA2) htake
          have := inlineAt_of_shape _ m hsh
          rw [h] at this
          cases this
        · -- the probe ends exactly at the replacement space: its last
          -- character is the boundary character, a digit, contradiction
          have hme : m = j + 1 := by omega
          obtain ⟨dd, hdd, hdddig⟩ := hlast
          have htk : (c :: (t.take j ++ ' ' :: inlineSubGo 0 true (t.drop (j + n)))).take m =
              c :: t.take j := by
            rw [hme]
            simp only [List.take_succ_cons]
            congr 1
            rw [List.take_append_of_le_length (by simp only [List.length_take]; omega)]
            rw [List.take_take]
            congr 1
            omega
          rw [htk] at hdd
          obtain ⟨j2, rfl⟩ : ∃ j2, j = j2 + 1 := ⟨j - 1, by omega⟩
          have hlast2 : (c :: t.take (j2 + 1)).getLast? = t[j2]? := by
            rw [List.getLast?_eq_getElem?]
            have hlj : (c :: t.take (j2 + 1)).length = j2 + 2 := by
              simp only [List.length_cons, List.length_take]
              omega
            rw [hlj]
            have h21 : j2 + 2 - 1 = j2 + 1 := by omega
            rw [h21]
            simp only [List.getElem?_cons_succ]
            exact getElem?_take_lt t (j2 + 1) j2 (by omega)
          rw [hlast2] at hdd
          simp only [Nat.add_sub_cancel] at hd
          rw [hd] at hdd
          injection hdd with hdd2
          rw [hdd2] at hdw
          rw [digit_isWord dd hdddig] at hdw
          cases hdw

/-- Core theorem: the output of the inline substitution scan contains no
word-boundary anchored inline timecode match. -/
theorem inlineHas_sub_aux : ∀ (N : Nat) (l : List Char), l.length ≤ N → ∀ prev : Bool,
    inlineHas prev (inlineSubGo 0 prev l) = false := by
  intro N
  induction N with
  | zero =>
      intro l hl prev
      have hnil : l = [] := by
        cases l with
        | nil => rfl
        | cons c r => simp at hl
      subst hnil
      rw [inlineSubGo_nil]
      exact inlineHas_nil prev
  | succ N2 ih =>
      intro l hl prev
      cases l with
      | nil =>
          rw [inlineSubGo_nil]
          exact inlineHas_nil prev
      | cons c rest =>
          have hrest : rest.length ≤ N2 := by
            simp only [List.length_cons] at hl
            omega
          cases prev with
          | true =>
              rw [inlineSubGo_true_cons, inlineHas_cons]
              simp only [Bool.not_true, Bool.false_and, Bool.false_eq_true, if_false]
              exact ih rest hrest (isWordC c)
          | false =>
              cases hA : inlineAt (c :: rest) with
              | none =>
                  rw [inlineSubGo_false_none c rest hA, inlineHas_cons]
                  have hnone : inlineAt (c :: inlineSubGo 0 (isWordC c) rest) = Option.none := by
                    cases hc : c.isDigit with
                    | false => exact inlineAt_nondigit _ _ hc
                    | true =>
                        rw [digit_isWord c hc]
                        exact inlineAt_sub_none c rest hA
                  rw [hnone]
                  simp only [Option.isSome_none, Bool.and_false, Bool.false_eq_true, if_false]
                  exact ih rest hrest (isWordC c)
              | some n =>
                  rw [inlineSubGo_false_some c rest n hA]
                  obtain ⟨h4, h12, hle, hcls, hlast, hend⟩ :=
                    matchShapeB_facts _ _ (inlineAt_shape _ _ hA)
                  rw [inlineHas_ws_cons false ' ' _ (by decide)]
                  rw [inlineSubGo_skip_drop rest (n - 1) (by omega) true]
                  have hX : rest.drop (n - 1) = (c :: rest).drop n := by
                    obtain ⟨n2, rfl⟩ : ∃ n2, n = n2 + 1 := ⟨n - 1, by omega⟩
                    simp
                  rw [hX]
                  have hXlen : ((c :: rest).drop n).length ≤ N2 := by
                    simp only [List.length_drop, List.length_cons]
                    omega
                  have hIH := ih ((c :: rest).drop n) hXlen true
                  cases hXc : (c :: rest).drop n with
                  | nil =>
                      rw [inlineSubGo_nil]
                      exact inlineHas_nil false
                  | cons e X2 =>
                      rw [hXc] at hIH hend
                      have hew : isWordC e = false := by
                        simp only [endsOkB, Bool.not_eq_eq_eq_not, Bool.not_true] at hend
                        exact hend
                      have hed : e.isDigit = false := by
                        by_contra hx
                        simp only [Bool.not_eq_false] at hx
                        rw [digit_isWord e hx] at hew
                        cases hew
                      rw [inlineSubGo_true_cons] at hIH ⊢
                      rw [inlineHas_cons_nondigit false true e _ hed]
                      exact hIH

/-- The output of the inline substitution scan contains no
word-boundary anchored inline timecode match. -/
theorem inlineHas_sub (l : List Char) (prev : Bool) :
    inlineHas prev (inlineSubGo 0 prev l) = false :=
  inlineHas_sub_aux l.length l le_rfl prev

/-- A text without a match site is left unchanged by the substitution
scan. -/
theorem inlineSubGo_id_of_has_false : ∀ (l : List Char) (prev : Bool),
    inlineHas prev l = false → inlineSubGo 0 prev l = l := by
  intro l
  induction l with
  | nil => intro prev _; rw [inlineSubGo_nil]
  | cons c rest ih =>
      intro prev h
      rw [inlineHas_cons] at h
      cases hcond : (!prev && (inlineAt (c :: rest)).isSome) with
      | true => rw [hcond] at h; simp at h
      | false =>
          rw [hcond] at h
          simp only [Bool.false_eq_true, if_false] at h
          cases prev with
          | true =>
              rw [inlineSubGo_true_cons, ih (isWordC c) h]
          | false =>
              have hnone : inlineAt (c :: rest) = Option.none := by
                simp only [Bool.not_false, Bool.true_and] at hcond
                cases hA : inlineAt (c :: rest) with
                | none => rfl
                | some n => rw [hA] at hcond; simp at hcond
              rw [inlineSubGo_false_none c rest hnone, ih (isWordC c) h]

theorem inlineHas_dropWhile_eq (x : List Char) :
    inlineHas false (x.dropWhile isPyWs) = inlineHas false x := by
  conv_rhs => rw [← List.takeWhile_append_dropWhile isPyWs x]
  rw [inlineHas_ws_front (x.takeWhile isPyWs)
    (fun c hc => List.mem_takeWhile_imp hc) (x.dropWhile isPyWs)]

/-- Decomposition of str.strip: the original is the stripped core with
whitespace on both sides. -/
theorem stripL_decomp (l : List Char) :
    ∃ w1 w2, l = w1 ++ stripL l ++ w2 ∧ (∀ c ∈ w1, isPyWs c = true) ∧
      (∀ c ∈ w2, isPyWs c = true) := by
  refine ⟨l.takeWhile isPyWs, ((l.dropWhile isPyWs).reverse.takeWhile isPyWs).reverse,
    ?_, ?_, ?_⟩
  · conv_lhs => rw [← List.takeWhile_append_dropWhile isPyWs l]
    rw [List.append_assoc]
    congr 1
    unfold stripL
    conv_lhs => rw [← (l.dropWhile isPyWs).reverse_reverse]
    conv_lhs => rw [← List.takeWhile_append_dropWhile isPyWs (l.dropWhile isPyWs).reverse]
    rw [List.reverse_append]
  · intro c hc
    exact List.mem_takeWhile_imp hc
  · intro c hc
    rw [List.mem_reverse] at hc
    exact List.mem_takeWhile_imp hc

/-- Stripping preserves the absence of inline match sites. -/
theorem inlineHas_stripL (l : List Char) (h : inlineHas false l = false) :
    inlineHas false (stripL l) = false := by
  obtain ⟨w1, w2, hdec, hw1, hw2⟩ := stripL_decomp l
  rw [hdec, List.append_assoc, inlineHas_ws_front w1 hw1 _] at h
  have hr : w2 = [] ∨ ∃ b r2, w2 = b :: r2 ∧ isPyWs b = true := by
    cases w2 with
    | nil => exact Or.inl rfl
    | cons b r2 => exact Or.inr ⟨b, r2, rfl, hw2 b (by simp)⟩
  rw [inlineHas_append_ws (stripL l) w2 hr false] at h
  cases hx : inlineHas false (stripL l) with
  | false => rfl
  | true => rw [hx] at h; simp at h

/-- Joining match-free lines with single spaces yields a match-free
text. -/
theorem inlineHas_joinSpace : ∀ ks : List (List Char),
    (∀ k ∈ ks, inlineHas false k = false) →
    inlineHas false (joinSpace ks) = false := by
  intro ks
  induction ks with
  | nil => intro _; exact inlineHas_nil false
  | cons k rest ih =>
      intro h
      cases rest with
      | nil => exact h k (by simp)
      | cons k2 r2 =>
          have hj : joinSpace (k :: k2 :: r2) = k ++ ' ' :: joinSpace (k2 :: r2) := rfl
          rw [hj, inlineHas_append_ws k (' ' :: joinSpace (k2 :: r2))
            (Or.inr ⟨' ', joinSpace (k2 :: r2), rfl, by decide⟩) false]
          rw [h k (by simp), inlineHas_ws_cons false ' ' _ (by decide),
            ih (fun x hx => h x (by simp [hx]))]
          rfl

theorem collapseGo_nonws_front (s : List Char) (hs : ∀ c ∈ s, isPyWs c = false) :
    ∀ r, collapseGo false (s ++ r) = s ++ collapseGo false r := by
  induction s with
  | nil => intro r; rfl
  | cons c s2 ih =>
      intro r
      rw [List.cons_append, collapseGo_false_nonws c _ (hs c (by simp)),
        ih (fun d hd => hs d (by simp [hd])) r]
      rfl

theorem collapseGo_true_eq (x : List Char) :
    collapseGo true x = collapseGo false (x.dropWhile isPyWs) := by
  induction x with
  | nil => rfl
  | cons c rest ih =>
      cases hc : isPyWs c with
      | true =>
          have h1 : collapseGo true (c :: rest) = collapseGo true rest := by
            conv_lhs => unfold collapseGo
            simp [hc]
          rw [h1, ih, List.dropWhile_cons_of_pos hc]
      | false =>
          have h1 : collapseGo true (c :: rest) = c :: collapseGo false rest := by
            conv_lhs => unfold collapseGo
            simp [hc]
          rw [h1, List.dropWhile_cons_of_neg (by simp [hc]),
            collapseGo_false_nonws c rest hc]

theorem length_dropWhile_le_char (p : Char → Bool) (l : List Char) :
    (l.dropWhile p).length ≤ l.length := by
  induction l with
  | nil => simp
  | cons c r ih =>
      rw [List.dropWhile_cons]
      split
      · exact le_trans ih (by simp)
      · simp

/-- The whitespace collapse preserves the absence of inline match
sites. -/
theorem inlineHas_collapse_aux : ∀ (N : Nat) (l : List Char), l.length ≤ N →
    inlineHas false l = false → inlineHas false (collapseGo false l) = false := by
  intro N
  induction N with
  | zero =>
      intro l hl h
      have hnil : l = [] := by
        cases l with
        | nil => rfl
        | cons c r => simp at hl
      subst hnil
      exact h
  | succ N2 ih =>
      intro l hl h
      obtain ⟨s, r, hsr, hs, hrh⟩ :
          ∃ s r, l = s ++ r ∧ (∀ c ∈ s, isPyWs c = false) ∧
            (r = [] ∨ ∃ b r2, r = b :: r2 ∧ isPyWs b = true) := by
        refine ⟨l.takeWhile (fun c => !isPyWs c), l.dropWhile (fun c => !isPyWs c),
          (List.takeWhile_append_dropWhile _ l).symm, ?_, ?_⟩
        · intro c hc
          have hx := List.mem_takeWhile_imp hc
          simpa using hx
        · cases hr : l.dropWhile (fun c => !isPyWs c) with
          | nil => exact Or.inl rfl
          | cons b r2 =>
              refine Or.inr ⟨b, r2, rfl, ?_⟩
              have hx := List.head?_dropWhile_not (fun c => !isPyWs c) l
              rw [hr] at hx
              simpa using hx
      subst hsr
      rw [inlineHas_append_ws s r hrh false] at h
      have hS : inlineHas false s = false := by
        cases hx : inlineHas false s with
        | false => rfl
        | true => rw [hx] at h; simp at h
      have hR : inlineHas false r = false := by
        cases hx : inlineHas false r with
        | false => rfl
        | true => rw [hx] at h; simp at h
      rw [collapseGo_nonws_front s hs r]
      rcases hrh with rfl | ⟨b, r2, rfl, hb⟩
      · have hnil2 : collapseGo false ([] : List Char) = [] := rfl
        rw [hnil2, List.append_nil]
        exact hS
      · have hlr2 : r2.length ≤ N2 := by
          simp only [List.length_append, List.length_cons] at hl
          omega
        have hr2 : inlineHas false r2 = false := by
          rw [inlineHas_ws_cons false b r2 hb] at hR
          exact hR
        cases r2 with
        | nil =>
            have hcb : collapseGo false [b] = [b] := by
              conv_lhs => unfold collapseGo
              simp [hb]
            rw [hcb, inlineHas_append_ws s [b] (Or.inr ⟨b, [], rfl, hb⟩) false, hS,
              inlineHas_ws_cons false b [] hb, inlineHas_nil]
            rfl
        | cons d r3 =>
            cases hd : isPyWs d with
            | true =>
                have hcb : collapseGo false (b :: d :: r3) =
                    ' ' :: collapseGo false ((d :: r3).dropWhile isPyWs) := by
                  conv_lhs => unfold collapseGo
                  simp [hb, hd, collapseGo_true_eq]
                rw [hcb]
                have htail : inlineHas false (collapseGo false ((d :: r3).dropWhile isPyWs)) = false := by
                  apply ih
                  · exact le_trans (length_dropWhile_le_char isPyWs (d :: r3)) (by simpa using hlr2)
                  · rw [inlineHas_dropWhile_eq]
                    exact hr2
                rw [inlineHas_append_ws s _
                  (Or.inr ⟨' ', collapseGo false ((d :: r3).dropWhile isPyWs), rfl, by decide⟩) false,
                  hS, inlineHas_ws_cons false ' ' _ (by decide), htail]
                rfl
            | false =>
                have hcb : collapseGo false (b :: d :: r3) =
                    b :: collapseGo false (d :: r3) := by
                  conv_lhs => unfold collapseGo
                  simp [hb, hd]
                rw [hcb]
                have htail : inlineHas false (collapseGo false (d :: r3)) = false := by
                  apply ih
                  · simpa using hlr2
                  · exact hr2
                rw [inlineHas_append_ws s _
                  (Or.inr ⟨b, collapseGo false (d :: r3), rfl, hb⟩) false,
                  hS, inlineHas_ws_cons false b _ hb, htail]
                rfl

theorem eatDigitsN2_some (l r : List Char) (h : eatDigitsN 2 l = some r) :
    ∃ a b, l = a :: b :: r ∧ a.isDigit = true ∧ b.isDigit = true := by
  cases l with
  | nil => simp [eatDigitsN] at h
  | cons a l2 =>
      cases l2 with
      | nil =>
          simp only [eatDigitsN] at h
          split at h
          · cases h
          · cases h
      | cons b l3 =>
          simp only [eatDigitsN] at h
          split at h
          · split at h
            · rename_i ha hb
              injection h with h2
              subst h2
              exact ⟨a, b, rfl, ha, hb⟩
            · cases h
          · cases h

theorem eatDigitsN3_some (l r : List Char) (h : eatDigitsN 3 l = some r) :
    ∃ a b c, l = a :: b :: c :: r ∧ a.isDigit = true ∧ b.isDigit = true ∧
      c.isDigit = true := by
  cases l with
  | nil => simp [eatDigitsN] at h
  | cons a l2 =>
      have hstep : eatDigitsN 3 (a :: l2) =
          if a.isDigit then eatDigitsN 2 l2 else Option.none := rfl
      rw [hstep] at h
      split at h
      · rename_i ha
        obtain ⟨b, c, rfl, hb, hc⟩ := eatDigitsN2_some l2 r h
        exact ⟨a, b, c, rfl, ha, hb, hc⟩
      · cases h

theorem eatLit_some (c : Char) (l r : List Char) (h : eatLit c l = some r) :
    l = c :: r := by
  cases l with
  | nil => simp [eatLit] at h
  | cons d l2 =>
      simp only [eatLit] at h
      split at h
      · rename_i hd
        injection h with h2
        subst h2
        rw [hd]
      · cases h

theorem eatTimestamp_some (x r : List Char) (h : eatTimestamp x = some r) :
    ∃ d1 d2 d3 d4 d5 d6 d7 d8 d9,
      x = ([d1, d2, ':', d3, d4, ':', d5, d6, '.', d7, d8, d9] : List Char) ++ r ∧
      d1.isDigit = true ∧ d2.isDigit = true ∧ d3.isDigit = true ∧
      d4.isDigit = true ∧ d5.isDigit = true ∧ d6.isDigit = true ∧
      d7.isDigit = true ∧ d8.isDigit = true ∧ d9.isDigit = true := by
  unfold eatTimestamp at h
  simp only [Option.bind_eq_some] at h
  obtain ⟨r6, ⟨r5, ⟨r4, ⟨r3, ⟨r2, ⟨r1, h1, h2⟩, h3⟩, h4⟩, h5⟩, h6⟩, h7⟩ := h
  obtain ⟨d1, d2, rfl, hd1, hd2⟩ := eatDigitsN2_some x r1 h1
  have e2 := eatLit_some ':' r1 r2 h2
  subst e2
  obtain ⟨d3, d4, rfl, hd3, hd4⟩ := eatDigitsN2_some r2 r3 h3
  have e4 := eatLit_some ':' r3 r4 h4
  subst e4
  obtain ⟨d5, d6, rfl, hd5, hd6⟩ := eatDigitsN2_some r4 r5 h5
  have e6 := eatLit_some '.' r5 r6 h6
  subst e6
  obtain ⟨d7, d8, d9, rfl, hd7, hd8, hd9⟩ := eatDigitsN3_some r6 r h7
  exact ⟨d1, d2, d3, d4, d5, d6, d7, d8, d9, rfl,
    hd1, hd2, hd3, hd4, hd5, hd6, hd7, hd8, hd9⟩

/-- A line matched by the timing range pattern also contains an inline
timecode match at its start. -/
theorem vttTs_isSome (x : List Char) (h : vttTsLineMatch x = true) :
    (inlineAt x).isSome = true := by
  unfold vttTsLineMatch at h
  cases hE : eatTimestamp x with
  | none => rw [hE] at h; cases h
  | some r1 =>
      rw [hE] at h
      obtain ⟨d1, d2, d3, d4, d5, d6, d7, d8, d9, hx,
        hd1, hd2, hd3, hd4, hd5, hd6, hd7, hd8, hd9⟩ := eatTimestamp_some x r1 hE
      have hend : endsOkB r1 = true := by
        cases hr1 : r1 with
        | nil => rfl
        | cons e rr =>
            rw [hr1] at h
            cases hwe : isPyWs e with
            | true => simp [endsOkB, ws_not_word e hwe]
            | false =>
                dsimp only at h
                rw [List.dropWhile_cons_of_neg (by simp [hwe])] at h
                split at h
                · rename_i r3 heq
                  injection heq with he hrest
                  subst he
                  simp only [endsOkB]
                  decide
                · cases h
      apply inlineAt_of_shape x 12
      subst hx
      unfold matchShapeB
      simp only [Bool.and_eq_true, Nat.ble_eq]
      refine ⟨⟨?_, ?_⟩, ?_⟩
      · simp
      · rw [List.take_append_of_le_length (by simp)]
        have ht : ([d1, d2, ':', d3, d4, ':', d5, d6, '.', d7, d8, d9] : List Char).take 12 =
            [d1, d2, ':', d3, d4, ':', d5, d6, '.', d7, d8, d9] := rfl
        rw [ht]
        unfold timecodeFull groupFull fracFull
        simp [hd1, hd2, hd3, hd4, hd5, hd6, hd7, hd8, hd9]
      · have hdd : (([d1, d2, ':', d3, d4, ':', d5, d6, '.', d7, d8, d9] : List Char) ++ r1).drop 12 = r1 := by
          have h12 : (12 : Nat) = ([d1, d2, ':', d3, d4, ':', d5, d6, '.', d7, d8, d9] : List Char).length := rfl
          rw [h12, List.drop_left]
        rw [hdd]
        exact hend

theorem splitlinesGo_crlf (rest acc : List Char) :
    splitlinesGo ('\r' :: '\n' :: rest) acc = acc.reverse :: splitlinesGo rest [] := by
  conv_lhs => unfold splitlinesGo
  rfl

theorem splitlinesGo_cons_ne (c : Char) (rest acc : List Char) (h : c ≠ '\r') :
    splitlinesGo (c :: rest) acc =
      if isLineBreak c then acc.reverse :: splitlinesGo rest []
      else splitlinesGo rest (c :: acc) := by
  conv_lhs => unfold splitlinesGo
  cases rest with
  | nil => simp [h]
  | cons d r2 => simp [h]

theorem splitlinesGo_cr_ne (d : Char) (rest acc : List Char) (h : d ≠ '\n') :
    splitlinesGo ('\r' :: d :: rest) acc =
      acc.reverse :: splitlinesGo (d :: rest) [] := by
  conv_lhs => unfold splitlinesGo
  simp [h, isLineBreak]

theorem splitlinesGo_cr_nil (acc : List Char) :
    splitlinesGo ['\r'] acc = [acc.reverse] := by
  conv_lhs => unfold splitlinesGo
  simp [isLineBreak]
  rfl

theorem splitlinesGo_nil (acc : List Char) :
    splitlinesGo [] acc = if acc = [] then [] else [acc.reverse] := by
  cases acc with
  | nil => rfl
  | cons a as => rfl

theorem break_is_ws (c : Char) (h : isLineBreak c = true) : isPyWs c = true := by
  unfold isLineBreak at h
  simp only [Bool.or_eq_true, decide_eq_true_eq] at h
  rcases h with ((rfl | rfl) | rfl) | rfl <;> decide

/-- Lines produced by splitlines contain no line separators. -/
theorem splitlinesGo_no_break : ∀ (N : Nat) (l acc : List Char), l.length ≤ N →
    (∀ c ∈ acc, isLineBreak c = false) →
    ∀ p ∈ splitlinesGo l acc, ∀ c ∈ p, isLineBreak c = false := by
  intro N
  induction N with
  | zero =>
      intro l acc hl hacc p hp c hc
      have hnil : l = [] := by
        cases l with
        | nil => rfl
        | cons x r => simp at hl
      subst hnil
      rw [splitlinesGo_nil] at hp
      split at hp
      · simp at hp
      · simp only [List.mem_singleton] at hp
        subst hp
        rw [List.mem_reverse] at hc
        exact hacc c hc
  | succ N2 ih =>
      intro l acc hl hacc p hp c hc
      cases l with
      | nil =>
          rw [splitlinesGo_nil] at hp
          split at hp
          · simp at hp
          · simp only [List.mem_singleton] at hp
            subst hp
            rw [List.mem_reverse] at hc
            exact hacc c hc
      | cons a rest =>
          by_cases ha : a = '\r'
          · subst ha
            cases rest with
            | nil =>
                rw [splitlinesGo_cr_nil] at hp
                simp only [List.mem_singleton] at hp
                subst hp
                rw [List.mem_reverse] at hc
                exact hacc c hc
            | cons d r2 =>
                by_cases hd : d = '\n'
                · subst hd
                  rw [splitlinesGo_crlf] at hp
                  rcases List.mem_cons.1 hp with rfl | hp2
                  · rw [List.mem_reverse] at hc
                    exact hacc c hc
                  · exact ih r2 [] (by simp at hl ⊢; omega) (by simp) p hp2 c hc
                · rw [splitlinesGo_cr_ne d r2 acc hd] at hp
                  rcases List.mem_cons.1 hp with rfl | hp2
                  · rw [List.mem_reverse] at hc
                    exact hacc c hc
                  · exact ih (d :: r2) [] (by simp at hl ⊢; omega) (by simp) p hp2 c hc
          · rw [splitlinesGo_cons_ne a rest acc ha] at hp
            split at hp
            · rcases List.mem_cons.1 hp with rfl | hp2
              · rw [List.mem_reverse] at hc
                exact hacc c hc
              · exact ih rest [] (by simp at hl ⊢; omega) (by simp) p hp2 c hc
            · refine ih rest (a :: acc) (by simp at hl ⊢; omega) ?_ p hp c hc
              intro e he
              rcases List.mem_cons.1 he with rfl | he2
              · rename_i hbr
                simp only [Bool.not_eq_true] at hbr
                exact hbr
              · exact hacc e he2

/-- A nonempty text without line separators splits into itself alone. -/
theorem splitlinesGo_all_nobreak : ∀ (l : List Char),
    (∀ c ∈ l, isLineBreak c = false) → ∀ acc,
    splitlinesGo l acc = if acc = [] ∧ l = [] then [] else [acc.reverse ++ l] := by
  intro l
  induction l with
  | nil =>
      intro _ acc
      rw [splitlinesGo_nil]
      cases acc with
      | nil => simp
      | cons a as => simp
  | cons c rest ih =>
      intro h acc
      have hc : isLineBreak c = false := h c (by simp)
      have hcr : c ≠ '\r' := by
        intro hx
        subst hx
        simp [isLineBreak] at hc
      rw [splitlinesGo_cons_ne c rest acc hcr, if_neg (by simp [hc]),
        ih (fun d hd => h d (by simp [hd])) (c :: acc)]
      rw [if_neg (by simp)]
      simp

theorem splitlinesL_single (l : List Char) (hne : l ≠ [])
    (h : ∀ c ∈ l, isLineBreak c = false) : splitlinesL l = [l] := by
  unfold splitlinesL
  rw [splitlinesGo_all_nobreak l h [], if_neg (by simp [hne])]
  simp

/-- The non-whitespace characters of a text are those of its lines in
order; the line separators are whitespace. -/
theorem splitlinesGo_filter : ∀ (N : Nat) (l acc : List Char), l.length ≤ N →
    ((splitlinesGo l acc).map (fun p => p.filter (fun c => !isPyWs c))).flatten =
      acc.reverse.filter (fun c => !isPyWs c) ++ l.filter (fun c => !isPyWs c) := by
  intro N
  induction N with
  | zero =>
      intro l acc hl
      have hnil : l = [] := by
        cases l with
        | nil => rfl
        | cons x r => simp at hl
      subst hnil
      rw [splitlinesGo_nil]
      split
      · rename_i hacc
        subst hacc
        simp
      · simp
  | succ N2 ih =>
      intro l acc hl
      cases l with
      | nil =>
          rw [splitlinesGo_nil]
          split
          · rename_i hacc
            subst hacc
            simp
          · simp
      | cons a rest =>
          by_cases ha : a = '\r'
          · subst ha
            cases rest with
            | nil =>
                rw [splitlinesGo_cr_nil]
                simp [List.filter_cons, isPyWs]
            | cons d r2 =>
                by_cases hd : d = '\n'
                · subst hd
                  rw [splitlinesGo_crlf]
                  simp only [List.map_cons, List.flatten_cons,
                    ih r2 [] (by simp at hl ⊢; omega)]
                  simp [List.filter_cons, isPyWs]
                · rw [splitlinesGo_cr_ne d r2 acc hd]
                  simp only [List.map_cons, List.flatten_cons,
                    ih (d :: r2) [] (by simp at hl ⊢; omega)]
                  simp [List.filter_cons, isPyWs]
          · rw [splitlinesGo_cons_ne a rest acc ha]
            split
            · rename_i hbr
              have hws : isPyWs a = true := break_is_ws a hbr
              simp only [List.map_cons, List.flatten_cons,
                ih rest [] (by simp at hl ⊢; omega)]
              simp [List.filter_cons, hws]
            · rw [ih rest (a :: acc) (by simp at hl ⊢; omega)]
              simp [List.filter_cons, List.filter_append]
              cases hws : isPyWs a with
              | true => simp
              | false => simp

theorem collapseGo_true_ws (a : Char) (rest : List Char) (h : isPyWs a = true) :
    collapseGo true (a :: rest) = collapseGo true rest := by
  conv_lhs => unfold collapseGo
  simp [h]

theorem collapseGo_true_nonws (a : Char) (rest : List Char) (h : isPyWs a = false) :
    collapseGo true (a :: rest) = a :: collapseGo false rest := by
  conv_lhs => unfold collapseGo
  simp [h]

theorem collapseGo_false_ws_run (a d : Char) (r3 : List Char)
    (ha : isPyWs a = true) (hd : isPyWs d = true) :
    collapseGo false (a :: d :: r3) = ' ' :: collapseGo true (d :: r3) := by
  conv_lhs => unfold collapseGo
  simp [ha, hd]

theorem collapseGo_false_ws_single (a d : Char) (r3 : List Char)
    (ha : isPyWs a = true) (hd : isPyWs d = false) :
    collapseGo false (a :: d :: r3) = a :: collapseGo false (d :: r3) := by
  conv_lhs => unfold collapseGo
  simp [ha, hd]

theorem collapseGo_false_ws_last (a : Char) (ha : isPyWs a = true) :
    collapseGo false [a] = [a] := by
  conv_lhs => unfold collapseGo
  simp [ha]

theorem mem_inlineSubGo (c : Char) : ∀ (l : List Char) (k : Nat) (b : Bool),
    c ∈ inlineSubGo k b l → c ∈ l ∨ c = ' ' := by
  intro l
  induction l with
  | nil =>
      intro k b h
      rw [inlineSubGo_nil] at h
      simp at h
  | cons x rest ih =>
      intro k b h
      cases k with
      | succ k2 =>
          rw [inlineSubGo_skip] at h
          rcases ih k2 true h with h2 | h2
          · exact Or.inl (by simp [h2])
          · exact Or.inr h2
      | zero =>
          cases b with
          | true =>
              rw [inlineSubGo_true_cons] at h
              rcases List.mem_cons.1 h with rfl | h2
              · exact Or.inl (by simp)
              · rcases ih 0 (isWordC x) h2 with h3 | h3
                · exact Or.inl (by simp [h3])
                · exact Or.inr h3
          | false =>
              cases hA : inlineAt (x :: rest) with
              | none =>
                  rw [inlineSubGo_false_none x rest hA] at h
                  rcases List.mem_cons.1 h with rfl | h2
                  · exact Or.inl (by simp)
                  · rcases ih 0 (isWordC x) h2 with h3 | h3
                    · exact Or.inl (by simp [h3])
                    · exact Or.inr h3
              | some n =>
                  rw [inlineSubGo_false_some x rest n hA] at h
                  rcases List.mem_cons.1 h with rfl | h2
                  · exact Or.inr rfl
                  · rcases ih (n - 1) true h2 with h3 | h3
                    · exact Or.inl (by simp [h3])
                    · exact Or.inr h3

theorem mem_collapseGo (c : Char) : ∀ (l : List Char) (b : Bool),
    c ∈ collapseGo b l → c ∈ l ∨ c = ' ' := by
  intro l
  induction l with
  | nil =>
      intro b h
      have hred : collapseGo b [] = [] := by cases b <;> rfl
      rw [hred] at h
      simp at h
  | cons a rest ih =>
      intro b h
      cases hw : isPyWs a with
      | false =>
          have hstep : collapseGo b (a :: rest) = a :: collapseGo false rest := by
            cases b with
            | true => exact collapseGo_true_nonws a rest hw
            | false => exact collapseGo_false_nonws a rest hw
          rw [hstep] at h
          rcases List.mem_cons.1 h with rfl | h2
          · exact Or.inl (by simp)
          · rcases ih false h2 with h3 | h3
            · exact Or.inl (by simp [h3])
            · exact Or.inr h3
      | true =>
          cases b with
          | true =>
              rw [collapseGo_true_ws a rest hw] at h
              rcases ih true h with h3 | h3
              · exact Or.inl (by simp [h3])
              · exact Or.inr h3
          | false =>
              cases rest with
              | nil =>
                  rw [collapseGo_false_ws_last a hw] at h
                  simp only [List.mem_singleton] at h
                  exact Or.inl (by simp [h])
              | cons d r3 =>
                  cases hd : isPyWs d with
                  | true =>
                      rw [collapseGo_false_ws_run a d r3 hw hd] at h
                      rcases List.mem_cons.1 h with rfl | h2
                      · exact Or.inr rfl
                      · rcases ih true h2 with h3 | h3
                        · exact Or.inl (by simp [h3])
                        · exact Or.inr h3
                  | false =>
                      rw [collapseGo_false_ws_single a d r3 hw hd] at h
                      rcases List.mem_cons.1 h with rfl | h2
                      · exact Or.inl (by simp)
                      · rcases ih false h2 with h3 | h3
                        · exact Or.inl (by simp [h3])
                        · exact Or.inr h3

theorem mem_stripL (c : Char) (l : List Char) (h : c ∈ stripL l) : c ∈ l := by
  obtain ⟨w1, w2, hdec, _, _⟩ := stripL_decomp l
  rw [hdec]
  simp [h]

theorem mem_joinSpace (c : Char) : ∀ ks : List (List Char),
    c ∈ joinSpace ks → (∃ k ∈ ks, c ∈ k) ∨ c = ' ' := by
  intro ks
  induction ks with
  | nil => intro h; simp [joinSpace] at h
  | cons k rest ih =>
      intro h
      cases rest with
      | nil => exact Or.inl ⟨k, by simp, h⟩
      | cons k2 r2 =>
          have hj : joinSpace (k :: k2 :: r2) = k ++ ' ' :: joinSpace (k2 :: r2) := rfl
          rw [hj] at h
          rcases List.mem_append.1 h with h2 | h2
          · exact Or.inl ⟨k, by simp, h2⟩
          · rcases List.mem_cons.1 h2 with rfl | h3
            · exact Or.inr rfl
            · rcases ih h3 with ⟨k3, hk3, hc3⟩ | h4
              · exact Or.inl ⟨k3, by simp [hk3], hc3⟩
              · exact Or.inr h4

/-- The non-whitespace characters of a text, in order. -/
def nonWsF (l : List Char) : List Char :=
  l.filter (fun c => !isPyWs c)

theorem nonWsF_ws_list (w : List Char) (hw : ∀ c ∈ w, isPyWs c = true) :
    nonWsF w = [] := by
  induction w with
  | nil => rfl
  | cons c rest ih =>
      unfold nonWsF
      rw [List.filter_cons]
      rw [if_neg (by simp [hw c (by simp)])]
      exact ih (fun d hd => hw d (by simp [hd]))

theorem nonWsF_append (a b : List Char) : nonWsF (a ++ b) = nonWsF a ++ nonWsF b := by
  unfold nonWsF
  rw [List.filter_append]

theorem nonWsF_dropWhile (x : List Char) :
    nonWsF (x.dropWhile isPyWs) = nonWsF x := by
  conv_rhs => rw [← List.takeWhile_append_dropWhile isPyWs x]
  rw [nonWsF_append,
    nonWsF_ws_list (x.takeWhile isPyWs) (fun c hc => List.mem_takeWhile_imp hc)]
  rfl

theorem nonWsF_stripL (x : List Char) : nonWsF (stripL x) = nonWsF x := by
  obtain ⟨w1, w2, hdec, hw1, hw2⟩ := stripL_decomp x
  conv_rhs => rw [hdec]
  rw [nonWsF_append, nonWsF_append, nonWsF_ws_list w1 hw1, nonWsF_ws_list w2 hw2]
  simp

theorem nonWsF_collapseGo : ∀ (N : Nat) (l : List Char), l.length ≤ N →
    nonWsF (collapseGo false l) = nonWsF l := by
  intro N
  induction N with
  | zero =>
      intro l hl
      have hnil : l = [] := by
        cases l with
        | nil => rfl
        | cons x r => simp at hl
      subst hnil
      rfl
  | succ N2 ih =>
      intro l hl
      cases l with
      | nil => rfl
      | cons a rest =>
          have hrest : rest.length ≤ N2 := by
            simp only [List.length_cons] at hl
            omega
          cases hw : isPyWs a with
          | false =>
              rw [collapseGo_false_nonws a rest hw]
              unfold nonWsF
              rw [List.filter_cons, List.filter_cons]
              rw [if_pos (by simp [hw]), if_pos (by simp [hw])]
              have := ih rest hrest
              unfold nonWsF at this
              rw [this]
          | true =>
              cases rest with
              | nil => rw [collapseGo_false_ws_last a hw]
              | cons d r3 =>
                  cases hd : isPyWs d with
                  | true =>
                      rw [collapseGo_false_ws_run a d r3 hw hd, collapseGo_true_eq]
                      unfold nonWsF
                      rw [List.filter_cons, if_neg (by decide)]
                      rw [List.filter_cons, if_neg (by simp [hw])]
                      have h1 := ih ((d :: r3).dropWhile isPyWs)
                        (le_trans (length_dropWhile_le_char isPyWs (d :: r3)) hrest)
                      unfold nonWsF at h1
                      rw [h1]
                      have h2 := nonWsF_dropWhile (d :: r3)
                      unfold nonWsF at h2
                      rw [h2]
                  | false =>
                      rw [collapseGo_false_ws_single a d r3 hw hd]
                      unfold nonWsF
                      rw [List.filter_cons, if_neg (by simp [hw]),
                        List.filter_cons, if_neg (by simp [hw])]
                      have := ih (d :: r3) hrest
                      unfold nonWsF at this
                      rw [this]

theorem nonWsF_collapseWs (l : List Char) : nonWsF (collapseWs l) = nonWsF l :=
  nonWsF_collapseGo l.length l le_rfl

theorem nonWsF_joinSpace : ∀ ks : List (List Char),
    nonWsF (joinSpace ks) = (ks.map nonWsF).flatten := by
  intro ks
  induction ks with
  | nil => rfl
  | cons k rest ih =>
      cases rest with
      | nil => simp [joinSpace]
      | cons k2 r2 =>
          have hj : joinSpace (k :: k2 :: r2) = k ++ ' ' :: joinSpace (k2 :: r2) := rfl
          rw [hj]
          rw [nonWsF_append]
          have hcons : nonWsF (' ' :: joinSpace (k2 :: r2)) = nonWsF (joinSpace (k2 :: r2)) := by
            unfold nonWsF
            rw [List.filter_cons, if_neg (by simp [isPyWs])]
          rw [hcons, ih]
          simp

theorem mem_dropWhile_of_nonws (x : List Char) (c : Char) (hc : c ∈ x)
    (hn : isPyWs c = false) : c ∈ x.dropWhile isPyWs := by
  conv at hc => rw [← List.takeWhile_append_dropWhile isPyWs x]
  rcases List.mem_append.1 hc with h2 | h2
  · have := List.mem_takeWhile_imp h2
    rw [hn] at this
    cases this
  · exact h2

theorem dropWhile_ws_ne_nil (x : List Char) (h : ∃ c ∈ x, isPyWs c = false) :
    x.dropWhile isPyWs ≠ [] := by
  obtain ⟨c, hc, hn⟩ := h
  intro hnil
  have := mem_dropWhile_of_nonws x c hc hn
  rw [hnil] at this
  simp at this

theorem mem_collapse_of_nonws (x : List Char) (c : Char) (hc : c ∈ x)
    (hn : isPyWs c = false) : c ∈ collapseGo false x := by
  have h1 : c ∈ nonWsF x := by
    unfold nonWsF
    rw [List.mem_filter]
    exact ⟨hc, by simp [hn]⟩
  rw [← nonWsF_collapseGo x.length x le_rfl] at h1
  unfold nonWsF at h1
  exact (List.mem_filter.1 h1).1

theorem stripL_length_le_drop (y : List Char) :
    (stripL y).length ≤ (y.dropWhile isPyWs).length := by
  unfold stripL
  rw [List.length_reverse]
  calc ((y.dropWhile isPyWs).reverse.dropWhile isPyWs).length
      ≤ (y.dropWhile isPyWs).reverse.length := length_dropWhile_le_char _ _
    _ = (y.dropWhile isPyWs).length := List.length_reverse _

theorem stripL_fix_head (y : List Char) (c : Char) (t : List Char)
    (hfix : stripL y = y) (hy : y = c :: t) : isPyWs c = false := by
  by_contra hx
  simp only [Bool.not_eq_false] at hx
  have h1 : (stripL y).length ≤ (y.dropWhile isPyWs).length := stripL_length_le_drop y
  rw [hfix, hy, List.dropWhile_cons_of_pos hx] at h1
  have h2 : t.length ≥ (c :: t).length := le_trans h1 (length_dropWhile_le_char _ _)
  simp at h2

theorem stripL_fix_last (y : List Char) (c : Char)
    (hfix : stripL y = y) (hy : y.getLast? = some c) : isPyWs c = false := by
  by_contra hx
  simp only [Bool.not_eq_false] at hx
  have hyne : y ≠ [] := by
    intro hnil
    rw [hnil] at hy
    cases hy
  cases hD : y.dropWhile isPyWs with
  | nil =>
      have h1 : (stripL y).length ≤ (y.dropWhile isPyWs).length := stripL_length_le_drop y
      rw [hfix, hD] at h1
      simp only [List.length_nil, Nat.le_zero, List.length_eq_zero] at h1
      exact hyne h1
  | cons e D2 =>
      have hsplit : y = y.takeWhile isPyWs ++ (e :: D2) := by
        rw [← hD]
        exact (List.takeWhile_append_dropWhile isPyWs y).symm
      obtain ⟨z, zs, hz⟩ : ∃ z zs, (e :: D2).reverse = z :: zs := by
        cases hr : (e :: D2).reverse with
        | nil =>
            have hlen := congrArg List.length hr
            simp at hlen
        | cons z zs => exact ⟨z, zs, rfl⟩
      have h0 : y.reverse.head? = some c := by
        rw [List.head?_reverse]
        exact hy
      have hyrev : y.reverse = (e :: D2).reverse ++ (y.takeWhile isPyWs).reverse := by
        conv_lhs => rw [hsplit]
        rw [List.reverse_append]
      rw [hyrev, hz] at h0
      simp only [List.cons_append, List.head?_cons] at h0
      injection h0 with hzc
      have hR : (e :: D2).reverse = c :: zs := by
        rw [hz, hzc]
      have h1 : (stripL y).length ≤ ((e :: D2).reverse.dropWhile isPyWs).length := by
        unfold stripL
        rw [List.length_reverse, hD]
      rw [hR, List.dropWhile_cons_of_pos hx] at h1
      have h2 : (stripL y).length ≤ zs.length := le_trans h1 (length_dropWhile_le_char _ _)
      have h3 : zs.length + 1 = (e :: D2).length := by
        have := congrArg List.length hR
        simp only [List.length_reverse, List.length_cons] at this
        simp [this]
      have h4 : (e :: D2).length ≤ y.length := by
        conv_rhs => rw [hsplit]
        simp
      rw [hfix] at h2
      simp only [List.length_cons] at h3 h4
      omega

/-- Collapsing a whitespace-headed text with a non-whitespace character
somewhere yields a whitespace-headed text with a non-whitespace
character after the head. -/
theorem collapse_wshead (e : Char) (rest : List Char) (hwe : isPyWs e = true)
    (hnon : ∃ c ∈ e :: rest, isPyWs c = false) :
    ∃ w3 v3, collapseGo false (e :: rest) = w3 :: v3 ∧ isPyWs w3 = true ∧
      ∃ b ∈ v3, isPyWs b = false := by
  obtain ⟨c, hc, hcn⟩ := hnon
  have hcr : c ∈ rest := by
    rcases List.mem_cons.1 hc with rfl | h2
    · rw [hwe] at hcn; cases hcn
    · exact h2
  cases rest with
  | nil => simp at hcr
  | cons d r3 =>
      cases hd : isPyWs d with
      | true =>
          refine ⟨' ', collapseGo true (d :: r3), collapseGo_false_ws_run e d r3 hwe hd,
            by decide, c, ?_, hcn⟩
          rw [collapseGo_true_eq]
          exact mem_collapse_of_nonws _ c (mem_dropWhile_of_nonws _ c hcr hcn) hcn
      | false =>
          exact ⟨e, collapseGo false (d :: r3), collapseGo_false_ws_single e d r3 hwe hd,
            hwe, d, mem_collapse_of_nonws _ d (by simp) hd, hd⟩

/-- Collapsing preserves an interior whitespace character: one with
non-whitespace characters on both sides. -/
theorem collapse_interior_ws_aux : ∀ (N : Nat) (l : List Char), l.length ≤ N →
    ∀ u w v, l = u ++ w :: v → isPyWs w = true →
    (∃ a ∈ u, isPyWs a = false) → (∃ b ∈ v, isPyWs b = false) →
    ∃ u2 w2 v2, collapseGo false l = u2 ++ w2 :: v2 ∧ isPyWs w2 = true ∧
      (∃ a ∈ u2, isPyWs a = false) ∧ (∃ b ∈ v2, isPyWs b = false) := by
  intro N
  induction N with
  | zero =>
      intro l hl u w v hluv _ _ _
      have hnil : l = [] := by
        cases l with
        | nil => rfl
        | cons x r => simp at hl
      subst hnil
      cases u with
      | nil => cases hluv
      | cons a u2 => cases hluv
  | succ N2 ih =>
      intro l hl u w v hluv hw hu hv
      cases u with
      | nil =>
          obtain ⟨a, ha, _⟩ := hu
          simp at ha
      | cons a u2 =>
          simp only [List.cons_append] at hluv
          subst hluv
          have hlen2 : (u2 ++ w :: v).length ≤ N2 := by
            simp only [List.length_cons, List.length_append] at hl ⊢
            omega
          cases hwa : isPyWs a with
          | false =>
              rw [collapseGo_false_nonws a _ hwa]
              by_cases hu2 : ∃ x ∈ u2, isPyWs x = false
              · obtain ⟨u2b, w2, v2, heq, hw2, hu2b, hv2⟩ :=
                  ih (u2 ++ w :: v) hlen2 u2 w v rfl hw hu2 hv
                refine ⟨a :: u2b, w2, v2, ?_, hw2, ?_, hv2⟩
                · rw [heq]
                  rfl
                · obtain ⟨x, hx, hxn⟩ := hu2b
                  exact ⟨x, by simp [hx], hxn⟩
              · have hwshead : ∃ e r2, u2 ++ w :: v = e :: r2 ∧ isPyWs e = true := by
                  cases hu2e : u2 with
                  | nil => exact ⟨w, v, by simp, hw⟩
                  | cons e u3 =>
                      refine ⟨e, u3 ++ w :: v, by simp, ?_⟩
                      cases hwe : isPyWs e with
                      | true => rfl
                      | false =>
                          exact absurd ⟨e, by simp [hu2e], hwe⟩ hu2
                obtain ⟨e, r2, her, hwe⟩ := hwshead
                obtain ⟨b, hb, hbn⟩ := hv
                have hnon : ∃ c ∈ e :: r2, isPyWs c = false := by
                  rw [← her]
                  exact ⟨b, by simp [hb], hbn⟩
                obtain ⟨w3, v3, heq3, hw3, hv3⟩ := collapse_wshead e r2 hwe hnon
                rw [her, heq3]
                exact ⟨[a], w3, v3, rfl, hw3, ⟨a, by simp, hwa⟩, hv3⟩
          | true =>
              have hu2 : ∃ x ∈ u2, isPyWs x = false := by
                obtain ⟨x, hx, hxn⟩ := hu
                rcases List.mem_cons.1 hx with rfl | h2
                · rw [hwa] at hxn; cases hxn
                · exact ⟨x, h2, hxn⟩
              cases hu2e : u2 with
              | nil =>
                  obtain ⟨x, hx, _⟩ := hu2
                  rw [hu2e] at hx
                  simp at hx
              | cons e u3 =>
                  subst hu2e
                  simp only [List.cons_append]
                  cases hwe : isPyWs e with
                  | true =>
                      rw [collapseGo_false_ws_run a e _ hwa hwe, collapseGo_true_eq]
                      have hdw : (e :: (u3 ++ w :: v)).dropWhile isPyWs =
                          (e :: u3).dropWhile isPyWs ++ w :: v := by
                        have hx : e :: (u3 ++ w :: v) = (e :: u3) ++ (w :: v) := rfl
                        rw [hx, List.dropWhile_append]
                        rw [if_neg (by simp [dropWhile_ws_ne_nil (e :: u3) hu2])]
                      rw [hdw]
                      have hlen3 : ((e :: u3).dropWhile isPyWs ++ w :: v).length ≤ N2 := by
                        have hle := length_dropWhile_le_char isPyWs (e :: u3)
                        simp only [List.length_append, List.length_cons] at hl hlen2 hle ⊢
                        omega
                      have hu3 : ∃ x ∈ (e :: u3).dropWhile isPyWs, isPyWs x = false := by
                        obtain ⟨x, hx, hxn⟩ := hu2
                        exact ⟨x, mem_dropWhile_of_nonws _ x hx hxn, hxn⟩
                      obtain ⟨u2b, w2, v2, heq, hw2, hu2b, hv2⟩ :=
                        ih _ hlen3 ((e :: u3).dropWhile isPyWs) w v rfl hw hu3 hv
                      refine ⟨' ' :: u2b, w2, v2, ?_, hw2, ?_, hv2⟩
                      · rw [heq]
                        rfl
                      · obtain ⟨x, hx, hxn⟩ := hu2b
                        exact ⟨x, by simp [hx], hxn⟩
                  | false =>
                      rw [collapseGo_false_ws_single a e _ hwa hwe]
                      obtain ⟨u2b, w2, v2, heq, hw2, hu2b, hv2⟩ :=
                        ih (e :: (u3 ++ w :: v)) (by
                          simp only [List.length_append, List.length_cons] at hl ⊢
                          omega) (e :: u3) w v (by simp) hw
                          ⟨e, by simp, hwe⟩ hv
                      refine ⟨a :: u2b, w2, v2, ?_, hw2, ?_, hv2⟩
                      · rw [heq]
                        rfl
                      · obtain ⟨x, hx, hxn⟩ := hu2b
                        exact ⟨x, by simp [hx], hxn⟩

/-- An interior whitespace character survives stripping. -/
theorem ws_mem_stripL (u v : List Char) (w : Char) (hw : isPyWs w = true)
    (hu : ∃ a ∈ u, isPyWs a = false) (hv : ∃ b ∈ v, isPyWs b = false) :
    w ∈ stripL (u ++ w :: v) := by
  unfold stripL
  have hdw : (u ++ w :: v).dropWhile isPyWs = u.dropWhile isPyWs ++ w :: v := by
    rw [List.dropWhile_append]
    rw [if_neg (by simp [dropWhile_ws_ne_nil u hu])]
  rw [hdw]
  have hrev : (u.dropWhile isPyWs ++ w :: v).reverse =
      v.reverse ++ w :: (u.dropWhile isPyWs).reverse := by
    rw [List.reverse_append]
    simp
  rw [hrev]
  have hvrev : ∃ b ∈ v.reverse, isPyWs b = false := by
    obtain ⟨b, hb, hbn⟩ := hv
    exact ⟨b, by simp [hb], hbn⟩
  have hdw2 : (v.reverse ++ w :: (u.dropWhile isPyWs).reverse).dropWhile isPyWs =
      v.reverse.dropWhile isPyWs ++ w :: (u.dropWhile isPyWs).reverse := by
    rw [List.dropWhile_append]
    rw [if_neg (by simp [dropWhile_ws_ne_nil v.reverse hvrev])]
  rw [hdw2]
  rw [List.mem_reverse]
  simp

theorem getLast?_append_right_char (a b : List Char) (hb : b ≠ []) :
    (a ++ b).getLast? = b.getLast? := by
  rw [← List.head?_reverse, ← List.head?_reverse, List.reverse_append]
  cases hr : b.reverse with
  | nil =>
      exfalso
      apply hb
      have := congrArg List.reverse hr
      simpa using this
  | cons z zs => simp

theorem mem_of_getLast?_char (l : List Char) (a : Char) (h : l.getLast? = some a) :
    a ∈ l := by
  rw [← List.head?_reverse] at h
  cases hr : l.reverse with
  | nil => rw [hr] at h; cases h
  | cons z zs =>
      rw [hr] at h
      injection h with hz
      have : a ∈ l.reverse := by
        rw [hr, ← hz]
        simp
      simpa using this

theorem collapse_wshead_or_nil (rJ : List Char)
    (h : rJ = [] ∨ ∃ wc r2, rJ = wc :: r2 ∧ isPyWs wc = true) :
    collapseGo false rJ = [] ∨
      ∃ wc D2, collapseGo false rJ = wc :: D2 ∧ isPyWs wc = true := by
  rcases h with rfl | ⟨wc, r2, rfl, hwc⟩
  · exact Or.inl rfl
  · cases r2 with
    | nil => exact Or.inr ⟨wc, [], collapseGo_false_ws_last wc hwc, hwc⟩
    | cons d r3 =>
        cases hd : isPyWs d with
        | true =>
            exact Or.inr ⟨' ', collapseGo true (d :: r3),
              collapseGo_false_ws_run wc d r3 hwc hd, by decide⟩
        | false =>
            exact Or.inr ⟨wc, collapseGo false (d :: r3),
              collapseGo_false_ws_single wc d r3 hwc hd, hwc⟩

theorem stripL_eq_stripR (y : List Char) (h : y.dropWhile isPyWs = y) :
    stripL y = (y.reverse.dropWhile isPyWs).reverse := by
  unfold stripL
  rw [h]

theorem stripR_append_nonws (s C : List Char) (hs : ∀ c ∈ s, isPyWs c = false) :
    ((s ++ C).reverse.dropWhile isPyWs).reverse =
      s ++ (C.reverse.dropWhile isPyWs).reverse := by
  rw [List.reverse_append, List.dropWhile_append]
  split
  · rename_i hemp
    have hC : C.reverse.dropWhile isPyWs = [] := by
      simpa using hemp
    rw [hC]
    have hsrev : s.reverse.dropWhile isPyWs = s.reverse := by
      apply dropWhile_no
      intro c hc
      exact hs c (by simpa using hc)
    rw [hsrev]
    simp
  · rw [List.reverse_append]
    simp

theorem stripR_wshead (C : List Char)
    (hC : C = [] ∨ ∃ wc C2, C = wc :: C2 ∧ isPyWs wc = true) :
    (C.reverse.dropWhile isPyWs).reverse = [] ∨
      ∃ wc D2, (C.reverse.dropWhile isPyWs).reverse = wc :: D2 ∧ isPyWs wc = true := by
  rcases hC with rfl | ⟨wc, C2, rfl, hwc⟩
  · exact Or.inl rfl
  · have hrev : (wc :: C2).reverse = C2.reverse ++ [wc] := by simp
    rw [hrev, List.dropWhile_append]
    split
    · rw [List.dropWhile_cons_of_pos hwc]
      exact Or.inl rfl
    · rw [List.reverse_append]
      exact Or.inr ⟨wc, (C2.reverse.dropWhile isPyWs).reverse, by simp, hwc⟩

/-- Structure of the final output of parse_vtt: the maximal
non-whitespace prefix of the first kept line, followed by nothing or by
a whitespace character. -/
theorem parseVtt_struct (k0 : List Char) (krest : List (List Char))
    (hfix : stripL k0 = k0) (hne : k0 ≠ []) :
    ∃ D, stripL (collapseWs (joinSpace (k0 :: krest))) =
        k0.takeWhile (fun c => !isPyWs c) ++ D ∧
      (D = [] ∨ ∃ wc D2, D = wc :: D2 ∧ isPyWs wc = true) := by
  obtain ⟨rest0, hJ, hrest0⟩ :
      ∃ rest0, joinSpace (k0 :: krest) = k0 ++ rest0 ∧
        (rest0 = [] ∨ ∃ wc r2, rest0 = wc :: r2 ∧ isPyWs wc = true) := by
    cases krest with
    | nil => exact ⟨[], by simp [joinSpace], Or.inl rfl⟩
    | cons k1 kr2 =>
        exact ⟨' ' :: joinSpace (k1 :: kr2), rfl,
          Or.inr ⟨' ', joinSpace (k1 :: kr2), rfl, by decide⟩⟩
  obtain ⟨c0, t0, hk0⟩ : ∃ c0 t0, k0 = c0 :: t0 := by
    cases hk : k0 with
    | nil => exact absurd hk hne
    | cons c0 t0 => exact ⟨c0, t0, rfl⟩
  have hc0 : isPyWs c0 = false := stripL_fix_head k0 c0 t0 hfix hk0
  have hksplit : k0 = k0.takeWhile (fun c => !isPyWs c) ++ k0.dropWhile (fun c => !isPyWs c) :=
    (List.takeWhile_append_dropWhile _ k0).symm
  have hsnws : ∀ c ∈ k0.takeWhile (fun c => !isPyWs c), isPyWs c = false := by
    intro c hc
    have := List.mem_takeWhile_imp hc
    simpa using this
  have hrkh : k0.dropWhile (fun c => !isPyWs c) ++ rest0 = [] ∨
      ∃ wc r2, k0.dropWhile (fun c => !isPyWs c) ++ rest0 = wc :: r2 ∧ isPyWs wc = true := by
    cases hrk : k0.dropWhile (fun c => !isPyWs c) with
    | nil =>
        simpa using hrest0
    | cons x xs =>
        have hx := List.head?_dropWhile_not (fun c => !isPyWs c) k0
        rw [hrk] at hx
        refine Or.inr ⟨x, xs ++ rest0, by simp, ?_⟩
        simpa using hx
  have hJ2 : joinSpace (k0 :: krest) =
      k0.takeWhile (fun c => !isPyWs c) ++
        (k0.dropWhile (fun c => !isPyWs c) ++ rest0) := by
    rw [hJ]
    conv_lhs => rw [hksplit]
    rw [List.append_assoc]
  have hcol : collapseWs (joinSpace (k0 :: krest)) =
      k0.takeWhile (fun c => !isPyWs c) ++
        collapseGo false (k0.dropWhile (fun c => !isPyWs c) ++ rest0) := by
    rw [hJ2]
    exact collapseGo_nonws_front _ hsnws _
  have hCh := collapse_wshead_or_nil _ hrkh
  obtain ⟨sc, s2, hs⟩ : ∃ sc s2, k0.takeWhile (fun c => !isPyWs c) = sc :: s2 := by
    cases hsw : k0.takeWhile (fun c => !isPyWs c) with
    | nil =>
        exfalso
        rw [hk0] at hsw
        rw [List.takeWhile_cons_of_pos (by simp [hc0])] at hsw
        cases hsw
    | cons sc s2 => exact ⟨sc, s2, rfl⟩
  have hscn : isPyWs sc = false := hsnws sc (by simp [hs])
  have hdwid : (k0.takeWhile (fun c => !isPyWs c) ++
      collapseGo false (k0.dropWhile (fun c => !isPyWs c) ++ rest0)).dropWhile isPyWs =
      k0.takeWhile (fun c => !isPyWs c) ++
        collapseGo false (k0.dropWhile (fun c => !isPyWs c) ++ rest0) := by
    rw [hs, List.cons_append, List.dropWhile_cons_of_neg (by simp [hscn])]
  rw [hcol, stripL_eq_stripR _ hdwid, stripR_append_nonws _ _ hsnws]
  exact ⟨_, rfl, stripR_wshead _ hCh⟩

theorem prefix_append_of_le (t a b : List Char) (h : t <+: a ++ b)
    (hl : t.length ≤ a.length) : t <+: a := by
  obtain ⟨r, hr⟩ := h
  have ht : t = (a ++ b).take t.length := by
    rw [← hr]
    rw [List.take_left]
  rw [List.take_append_of_le_length hl] at ht
  rw [ht]
  exact List.take_prefix _ _

theorem headerTokens_nonws : ∀ t ∈ headerTokens, ∀ c ∈ t, isPyWs c = false := by
  decide

/-- The final output of parse_vtt never starts with a caption header
token when its first kept line does not. -/
theorem headerLine_stripped_false (k0 : List Char) (krest : List (List Char))
    (hfix : stripL k0 = k0) (hne : k0 ≠ []) (hhead : isHeaderLine k0 = false) :
    isHeaderLine (stripL (collapseWs (joinSpace (k0 :: krest)))) = false := by
  obtain ⟨D, hOD, hDh⟩ := parseVtt_struct k0 krest hfix hne
  rw [hOD]
  by_contra hx
  simp only [Bool.not_eq_false] at hx
  unfold isHeaderLine at hx
  rw [List.any_eq_true] at hx
  obtain ⟨tok, htok, hpre0⟩ := hx
  rw [List.isPrefixOf_iff_prefix] at hpre0
  have hmap : lowerL (k0.takeWhile (fun c => !isPyWs c) ++ D) =
      lowerL (k0.takeWhile (fun c => !isPyWs c)) ++ lowerL D := by
    unfold lowerL
    rw [List.map_append]
  rw [hmap] at hpre0
  have hslen : (lowerL (k0.takeWhile (fun c => !isPyWs c))).length =
      (k0.takeWhile (fun c => !isPyWs c)).length := by
    unfold lowerL
    rw [List.length_map]
  rcases le_or_lt tok.length (k0.takeWhile (fun c => !isPyWs c)).length with hle | hgt
  · have hpre2 : tok <+: lowerL (k0.takeWhile (fun c => !isPyWs c)) :=
      prefix_append_of_le tok _ _ hpre0 (by omega)
    have hpre3 : tok <+: lowerL k0 := by
      have hsp : k0.takeWhile (fun c => !isPyWs c) <+: k0 := List.takeWhile_prefix _
      exact hpre2.trans (hsp.map Char.toLower)
    have : isHeaderLine k0 = true := by
      unfold isHeaderLine
      rw [List.any_eq_true]
      exact ⟨tok, htok, List.isPrefixOf_iff_prefix.2 hpre3⟩
    rw [hhead] at this
    cases this
  · rcases hDh with rfl | ⟨wc, D2, rfl, hwc⟩
    · have hll := hpre0.length_le
      simp only [List.length_append, hslen] at hll
      have : lowerL ([] : List Char) = [] := rfl
      rw [this] at hll
      simp at hll
      omega
    · obtain ⟨r, hr⟩ := hpre0
      have hget : tok[(k0.takeWhile (fun c => !isPyWs c)).length]? =
          some wc.toLower := by
        have h1 : (tok ++ r)[(k0.takeWhile (fun c => !isPyWs c)).length]? =
            tok[(k0.takeWhile (fun c => !isPyWs c)).length]? :=
          List.getElem?_append_left hgt
        rw [← h1, hr, List.getElem?_append_right (by omega)]
        have h2 : lowerL (wc :: D2) = wc.toLower :: lowerL D2 := rfl
        rw [h2]
        have h3 : (k0.takeWhile (fun c => !isPyWs c)).length -
            (lowerL (k0.takeWhile (fun c => !isPyWs c))).length = 0 := by omega
        rw [h3]
        simp
      have hmem := mem_of_getElem?_char _ _ _ hget
      have hnws := headerTokens_nonws tok htok wc.toLower hmem
      have hlow : wc.toLower = wc := toLower_low wc (ws_toNat_low wc hwc)
      rw [hlow, hwc] at hnws
      cases hnws

/-- The final output of parse_vtt is never a nonempty digit-only string
when every kept line is stripped, nonempty and not digit-only. -/
theorem digitLine_stripped_false (ks : List (List Char))
    (hks : ∀ k ∈ ks, stripL k = k ∧ k ≠ [] ∧ isdigitL k = false) :
    isdigitL (stripL (collapseWs (joinSpace ks))) = false := by
  cases ks with
  | nil => rfl
  | cons k0 krest =>
      obtain ⟨hfix, hne, hdig⟩ := hks k0 (by simp)
      by_contra hx
      simp only [Bool.not_eq_false] at hx
      have hOall : ∀ c ∈ stripL (collapseWs (joinSpace (k0 :: krest))), c.isDigit = true := by
        unfold isdigitL at hx
        simp only [Bool.and_eq_true, List.all_eq_true] at hx
        exact hx.2
      have hOnws : ∀ c ∈ stripL (collapseWs (joinSpace (k0 :: krest))), isPyWs c = false :=
        fun c hc => digit_not_ws c (hOall c hc)
      obtain ⟨c0, t0, hk0⟩ : ∃ c0 t0, k0 = c0 :: t0 := by
        cases hk : k0 with
        | nil => exact absurd hk hne
        | cons c0 t0 => exact ⟨c0, t0, rfl⟩
      have hc0 : isPyWs c0 = false := stripL_fix_head k0 c0 t0 hfix hk0
      cases krest with
      | cons k1 kr2 =>
          obtain ⟨hfix1, hne1, _⟩ := hks k1 (by simp)
          obtain ⟨c1, t1, hk1⟩ : ∃ c1 t1, k1 = c1 :: t1 := by
            cases hk : k1 with
            | nil => exact absurd hk hne1
            | cons c1 t1 => exact ⟨c1, t1, rfl⟩
          have hc1 : isPyWs c1 = false := stripL_fix_head k1 c1 t1 hfix1 hk1
          have hJ : joinSpace (k0 :: k1 :: kr2) = k0 ++ ' ' :: joinSpace (k1 :: kr2) := rfl
          have hv : ∃ b ∈ joinSpace (k1 :: kr2), isPyWs b = false := by
            refine ⟨c1, ?_, hc1⟩
            cases kr2 with
            | nil => simp [joinSpace, hk1]
            | cons k2 kr3 =>
                have hj2 : joinSpace (k1 :: k2 :: kr3) = k1 ++ ' ' :: joinSpace (k2 :: kr3) := rfl
                rw [hj2, hk1]
                simp
          have hu : ∃ a ∈ k0, isPyWs a = false := ⟨c0, by simp [hk0], hc0⟩
          obtain ⟨u2, w2, v2, heq, hw2, hu2, hv2⟩ :=
            collapse_interior_ws_aux (joinSpace (k0 :: k1 :: kr2)).length _ le_rfl
              k0 ' ' (joinSpace (k1 :: kr2)) hJ (by decide) hu hv
          have hwmem : w2 ∈ stripL (collapseWs (joinSpace (k0 :: k1 :: kr2))) := by
            unfold collapseWs
            rw [heq]
            exact ws_mem_stripL u2 v2 w2 hw2 hu2 hv2
          have hcontra := hOnws w2 hwmem
          rw [hw2] at hcontra
          cases hcontra
      | nil =>
          by_cases hws : ∃ w ∈ k0, isPyWs w = true
          · obtain ⟨w, hwmem0, hw⟩ := hws
            obtain ⟨u, v, huv⟩ := List.append_of_mem hwmem0
            have hu : ∃ a ∈ u, isPyWs a = false := by
              cases hu0 : u with
              | nil =>
                  exfalso
                  rw [hu0] at huv
                  simp only [List.nil_append] at huv
                  have hcontra := stripL_fix_head k0 w v hfix huv
                  rw [hw] at hcontra
                  cases hcontra
              | cons a u2 =>
                  refine ⟨a, by simp [hu0], ?_⟩
                  rw [hu0] at huv
                  have hsh : k0 = a :: (u2 ++ w :: v) := by
                    rw [huv]
                    rfl
                  exact stripL_fix_head k0 a _ hfix hsh
            have hv : ∃ b ∈ v, isPyWs b = false := by
              cases hv0 : v with
              | nil =>
                  exfalso
                  rw [hv0] at huv
                  have hlast : k0.getLast? = some w := by
                    rw [huv, getLast?_append_right_char u [w] (by simp)]
                    rfl
                  have hcontra := stripL_fix_last k0 w hfix hlast
                  rw [hw] at hcontra
                  cases hcontra
              | cons b0 v2 =>
                  obtain ⟨z, zs, hz⟩ : ∃ z zs, v.reverse = z :: zs := by
                    cases hr : v.reverse with
                    | nil =>
                        have hlen := congrArg List.length hr
                        rw [hv0] at hlen
                        simp at hlen
                    | cons z zs => exact ⟨z, zs, rfl⟩
                  have hvlast : v.getLast? = some z := by
                    rw [← List.head?_reverse, hz]
                    rfl
                  have hk0last : k0.getLast? = some z := by
                    rw [huv, getLast?_append_right_char u (w :: v) (by simp)]
                    have hwv : w :: v = [w] ++ v := rfl
                    rw [hwv, getLast?_append_right_char [w] v (by simp [hv0])]
                    exact hvlast
                  have hznws := stripL_fix_last k0 z hfix hk0last
                  have hzmem : z ∈ v := mem_of_getLast?_char v z hvlast
                  rw [hv0] at hzmem
                  exact ⟨z, hzmem, hznws⟩
            obtain ⟨u2, w2, v2, heq, hw2, hu2, hv2⟩ :=
              collapse_interior_ws_aux k0.length k0 le_rfl u w v huv hw hu hv
            have hwmem : w2 ∈ stripL (collapseWs (joinSpace [k0])) := by
              have hJ1 : joinSpace [k0] = k0 := rfl
              rw [hJ1]
              unfold collapseWs
              rw [heq]
              exact ws_mem_stripL u2 v2 w2 hw2 hu2 hv2
            have hcontra := hOnws w2 hwmem
            rw [hw2] at hcontra
            cases hcontra
          · have hnws : ∀ c ∈ k0, isPyWs c = false := by
              intro c hc
              cases h : isPyWs c with
              | false => rfl
              | true => exact absurd ⟨c, hc, h⟩ hws
            have hJ1 : joinSpace [k0] = k0 := rfl
            have hcol : collapseWs k0 = k0 := by
              unfold collapseWs
              have hcp := collapseGo_nonws_front k0 hnws []
              rw [show collapseGo false ([] : List Char) = [] from rfl] at hcp
              simpa using hcp
            rw [hJ1, hcol, hfix] at hx
            rw [hdig] at hx
            cases hx

theorem keepLine_some_spec (t k : List Char) (h : keepLine t = some k) :
    k = stripL (inlineSub t) ∧ k ≠ [] ∧ isdigitL k = false ∧
      isHeaderLine k = false := by
  unfold keepLine at h
  split at h
  · cases h
  · dsimp only at h
    split at h
    · cases h
    · split at h
      · cases h
      · split at h
        · cases h
        · rename_i hemp hdig hhead
          injection h with h2
          subst h2
          refine ⟨rfl, ?_, ?_, ?_⟩
          · intro hnil
            rw [hnil] at hemp
            exact hemp rfl
          · simpa using hdig
          · simpa using hhead

/-- The caption filter is idempotent on character lists. -/
theorem parseVttL_idem (l : List Char) : parseVttL (parseVttL l) = parseVttL l := by
  have hkprops : ∀ k ∈ keptLines (splitlinesL l), stripL k = k ∧ k ≠ [] ∧
      isdigitL k = false ∧ isHeaderLine k = false ∧ inlineHas false k = false := by
    intro k hk
    unfold keptLines at hk
    obtain ⟨t, ht, hkt⟩ := List.mem_filterMap.1 hk
    obtain ⟨hks, hkne, hkdig, hkhead⟩ := keepLine_some_spec t k hkt
    have hsub : inlineHas false k = false := by
      rw [hks]
      apply inlineHas_stripL
      exact inlineHas_sub t false
    have hstrip : stripL k = k := by
      rw [hks]
      exact stripL_idem _
    exact ⟨hstrip, hkne, hkdig, hkhead, hsub⟩
  cases hke : keptLines (splitlinesL l) with
  | nil =>
      have hO : parseVttL l = [] := by
        unfold parseVttL
        rw [hke]
        rfl
      rw [hO]
      rfl
  | cons k0 krest =>
      have hOexpr : parseVttL l = stripL (collapseWs (joinSpace (k0 :: krest))) := by
        unfold parseVttL
        rw [hke]
      have hp0 := hkprops k0 (by rw [hke]; simp)
      have H1 : inlineHas false (parseVttL l) = false := by
        rw [hOexpr]
        apply inlineHas_stripL
        apply inlineHas_collapse_aux (joinSpace (k0 :: krest)).length _ le_rfl
        apply inlineHas_joinSpace
        intro k hk
        exact (hkprops k (by rw [hke]; exact hk)).2.2.2.2
      have H2 : ∀ c ∈ parseVttL l, isLineBreak c = false := by
        intro c hc
        rw [hOexpr] at hc
        have hc2 := mem_stripL c _ hc
        rcases mem_collapseGo c _ false hc2 with hc3 | rfl
        · rcases mem_joinSpace c _ hc3 with ⟨k, hk, hck⟩ | rfl
          · have hk2 : k ∈ keptLines (splitlinesL l) := by rw [hke]; exact hk
            unfold keptLines at hk2
            obtain ⟨t, ht, hkt⟩ := List.mem_filterMap.1 hk2
            obtain ⟨hks, _, _, _⟩ := keepLine_some_spec t k hkt
            rw [hks] at hck
            have hck2 := mem_stripL c _ hck
            rcases mem_inlineSubGo c t 0 false hck2 with hct | rfl
            · exact splitlinesGo_no_break l.length l [] le_rfl (by simp) t ht c hct
            · decide
          · decide
        · decide
      have H3 : parseVttL l ≠ [] := by
        intro hnil
        obtain ⟨c0, t0, hk0⟩ : ∃ c0 t0, k0 = c0 :: t0 := by
          cases hk : k0 with
          | nil => exact absurd hk hp0.2.1
          | cons c0 t0 => exact ⟨c0, t0, rfl⟩
        have hc0 : isPyWs c0 = false := stripL_fix_head k0 c0 t0 hp0.1 hk0
        have hc0mem : c0 ∈ nonWsF (stripL (collapseWs (joinSpace (k0 :: krest)))) := by
          rw [nonWsF_stripL, nonWsF_collapseWs, nonWsF_joinSpace]
          rw [List.mem_flatten]
          refine ⟨nonWsF k0, List.mem_map.2 ⟨k0, by simp, rfl⟩, ?_⟩
          unfold nonWsF
          rw [List.mem_filter]
          exact ⟨by simp [hk0], by simp [hc0]⟩
        rw [← hOexpr, hnil] at hc0mem
        simp [nonWsF] at hc0mem
      have H4 : stripL (parseVttL l) = parseVttL l := by
        rw [hOexpr]
        exact stripL_idem _
      have H5 : collapseWs (parseVttL l) = parseVttL l := by
        unfold collapseWs
        apply collapseGo_id_no_run
        rw [hOexpr]
        apply hasWsRun_stripL
        exact collapseGo_no_run _ false
      have H6 : inlineSub (parseVttL l) = parseVttL l :=
        inlineSubGo_id_of_has_false _ false H1
      have H7 : vttTsLineMatch (parseVttL l) = false := by
        cases hOc : parseVttL l with
        | nil => rfl
        | cons c rest =>
            by_contra hts
            simp only [Bool.not_eq_false] at hts
            have hsome := vttTs_isSome _ hts
            rw [hOc, inlineHas_cons] at H1
            rw [hsome] at H1
            simp at H1
      have H8 : isdigitL (parseVttL l) = false := by
        rw [hOexpr]
        apply digitLine_stripped_false
        intro k hk
        have hp := hkprops k (by rw [hke]; exact hk)
        exact ⟨hp.1, hp.2.1, hp.2.2.1⟩
      have H9 : isHeaderLine (parseVttL l) = false := by
        rw [hOexpr]
        exact headerLine_stripped_false k0 krest hp0.1 hp0.2.1 hp0.2.2.2.1
      have hsplit1 : splitlinesL (parseVttL l) = [parseVttL l] :=
        splitlinesL_single _ H3 H2
      have hempty : (parseVttL l).isEmpty = false := by
        cases hO2 : parseVttL l with
        | nil => exact absurd hO2 H3
        | cons c rest => rfl
      have hkeep1 : keepLine (parseVttL l) = some (parseVttL l) := by
        unfold keepLine
        rw [H7]
        dsimp only
        rw [H6, H4, hempty, H8, H9]
        rfl
      calc parseVttL (parseVttL l)
          = stripL (collapseWs (joinSpace (keptLines (splitlinesL (parseVttL l))))) := rfl
        _ = stripL (collapseWs (joinSpace (keptLines [parseVttL l]))) := by rw [hsplit1]
        _ = stripL (collapseWs (joinSpace [parseVttL l])) := by
              unfold keptLines
              simp [List.filterMap_cons, hkeep1]
        _ = stripL (collapseWs (parseVttL l)) := rfl
        _ = stripL (parseVttL l) := by rw [H5]
        _ = parseVttL l := H4

/-- The caption filter is idempotent. -/
theorem parse_vtt_idem (s : String) : parse_vtt (parse_vtt s) = parse_vtt s := by
  unfold parse_vtt
  have hdata : (String.mk (parseVttL s.data)).data = parseVttL s.data := rfl
  rw [hdata, parseVttL_idem]

theorem keptLines_filter_flatten : ∀ lines : List (List Char),
    (∀ line ∈ lines, (stripL line = [] ∧ keepLine line = Option.none) ∨
      keepLine line = some (stripL line)) →
    ((keptLines lines).map nonWsF).flatten = (lines.map nonWsF).flatten := by
  intro lines
  induction lines with
  | nil => intro _; rfl
  | cons t rest ih =>
      intro h
      rcases h t (by simp) with ⟨hempty, hnone⟩ | hsome
      · have hkl : keptLines (t :: rest) = keptLines rest := by
          unfold keptLines
          rw [List.filterMap_cons_none hnone]
        rw [hkl]
        have hnwt : nonWsF t = [] := by
          rw [← nonWsF_stripL t, hempty]
          rfl
        simp only [List.map_cons, List.flatten_cons, hnwt, List.nil_append]
        exact ih (fun x hx => h x (by simp [hx]))
      · have hkl : keptLines (t :: rest) = stripL t :: keptLines rest := by
          unfold keptLines
          simp [List.filterMap_cons, hsome]
        rw [hkl]
        simp only [List.map_cons, List.flatten_cons]
        rw [nonWsF_stripL, ih (fun x hx => h x (by simp [hx]))]

/-- On plain text without caption syntax the filter preserves the
non-whitespace character sequence. -/
theorem parseVttL_plain (l : List Char)
    (hplain : ∀ line ∈ splitlinesL l, vttTsLineMatch line = false ∧
      inlineHas false line = false ∧ isdigitL (stripL line) = false ∧
      isHeaderLine (stripL line) = false) :
    nonWsF (parseVttL l) = nonWsF l := by
  have hkeep : ∀ line ∈ splitlinesL l,
      (stripL line = [] ∧ keepLine line = Option.none) ∨
      keepLine line = some (stripL line) := by
    intro line hline
    obtain ⟨hts, hinl, hdig, hhead⟩ := hplain line hline
    have hsubid : inlineSub line = line := inlineSubGo_id_of_has_false line false hinl
    unfold keepLine
    rw [hts]
    dsimp only
    rw [hsubid]
    cases hemp : (stripL line).isEmpty with
    | true =>
        left
        have hnil : stripL line = [] := by
          cases hsl : stripL line with
          | nil => rfl
          | cons c r => rw [hsl] at hemp; cases hemp
        refine ⟨hnil, ?_⟩
        rfl
    | false =>
        right
        rw [hdig, hhead]
        rfl
  have hsfil : ((splitlinesL l).map nonWsF).flatten = nonWsF l := by
    have h0 := splitlinesGo_filter l.length l [] le_rfl
    have hfun : (fun p : List Char => p.filter (fun c => !isPyWs c)) = nonWsF := rfl
    rw [hfun] at h0
    have h1 : (([] : List Char).reverse.filter (fun c => !isPyWs c)) = [] := rfl
    rw [h1, List.nil_append] at h0
    exact h0
  calc nonWsF (parseVttL l)
      = nonWsF (joinSpace (keptLines (splitlinesL l))) := by
        unfold parseVttL
        rw [nonWsF_stripL, nonWsF_collapseWs]
    _ = ((keptLines (splitlinesL l)).map nonWsF).flatten := nonWsF_joinSpace _
    _ = ((splitlinesL l).map nonWsF).flatten := keptLines_filter_flatten _ hkeep
    _ = nonWsF l := hsfil

/-- C6: the Caption Filter parse_vtt is idempotent — filtering twice
equals filtering once for every input — and on already-plain text with
no caption syntax (no line matching the timing range pattern, no
word-bounded inline timecode, no line stripping to a cue index and no
caption header line) it changes at most whitespace: the sequence of
non-whitespace characters is preserved, only whitespace runs are
collapsed, line separators become spaces and edges are trimmed. -/
theorem c6_idempotent_and_plain_noop (s : String)
    (hplain : ∀ line ∈ splitlinesL s.data, vttTsLineMatch line = false ∧
      inlineHas false line = false ∧ isdigitL (stripL line) = false ∧
      isHeaderLine (stripL line) = false) :
    (∀ t : String, parse_vtt (parse_vtt t) = parse_vtt t) ∧
    (parse_vtt s).data.filter (fun c => !isPyWs c) =
      s.data.filter (fun c => !isPyWs c) := by
  refine ⟨parse_vtt_idem, ?_⟩
  have h := parseVttL_plain s.data hplain
  unfold nonWsF at h
  exact h

theorem c6_idempotent_and_plain_noop_witness :
    (∀ line ∈ splitlinesL ("hello  world\ngood bye").data,
      vttTsLineMatch line = false ∧ inlineHas false line = false ∧
      isdigitL (stripL line) = false ∧ isHeaderLine (stripL line) = false) ∧
    ((∀ t : String, parse_vtt (parse_vtt t) = parse_vtt t) ∧
     (parse_vtt "hello  world\ngood bye").data.filter (fun c => !isPyWs c) =
       ("hello  world\ngood bye").data.filter (fun c => !isPyWs c)) :=
  ⟨by decide, c6_idempotent_and_plain_noop "hello  world\ngood bye" (by decide)⟩
